import Mathlib

/-!
# Verification development for the uNBT library

A shallow embedding of the uNBT Python library (`uNBT/nbt.py`, `uNBT/snbt.py`,
`uNBT/world.py`) together with proofs about its binary codec, SNBT codec,
tag model and region reader.

Modelling conventions:
* A byte stream is a `List Nat` of values `< 256`.
* Python `str` values are `List Char` (sequences of Unicode scalar values).
* Python functions that can raise are `Option`-valued; `none` is an exception.
* `TagFloat`/`TagDouble` payloads are modelled by their raw bit patterns
  (`Nat < 2^32` / `Nat < 2^64`): `struct.unpack`/`struct.pack` of `>f`/`>d`
  move the bits unchanged (for `>f` this holds for every non-signalling
  pattern, which the well-formedness predicate below requires).
-/

namespace UNBT

/-! ## Byte level helpers (the `struct` module) -/

/-- Big-endian byte string of `n`, `k` bytes wide (`struct.pack('>..')` byte order). -/
def natToBEBytes : Nat → Nat → List Nat
  | 0, _ => []
  | k + 1, n => natToBEBytes k (n / 256) ++ [n % 256]

/-- Value of a big-endian byte string. -/
def beBytesToNat (bs : List Nat) : Nat := bs.foldl (fun a b => a * 256 + b) 0

/-- Two's-complement reading of a `k`-byte big-endian value
    (`struct.unpack` of the signed formats `>b`, `>h`, `>i`, `>q`). -/
def beBytesToInt (k : Nat) (bs : List Nat) : Int :=
  let n := beBytesToNat bs
  if n < 2 ^ (8 * k - 1) then (n : Int) else (n : Int) - 2 ^ (8 * k)

/-- `struct.pack` of a signed big-endian integer, `k` bytes wide.
    Fails (`struct.error`) outside the signed `k`-byte range. -/
def packSigned (k : Nat) (v : Int) : Option (List Nat) :=
  if -(2 ^ (8 * k - 1) : Int) ≤ v ∧ v < 2 ^ (8 * k - 1) then
    some (natToBEBytes k (v % 2 ^ (8 * k)).toNat)
  else none

/-- Read exactly `k` bytes from a stream; `struct.unpack` raises when
    `stream.read(k)` returned fewer bytes. -/
def takeExact (k : Nat) (b : List Nat) : Option (List Nat × List Nat) :=
  if k ≤ b.length then some (b.take k, b.drop k) else none

/-! ## UTF-8 (`str.encode('utf-8')` / `bytes.decode('utf-8')`) -/

/-- UTF-8 encoding of a single Unicode scalar value. -/
def utf8EncodeChar (c : Char) : List Nat :=
  let n := c.toNat
  if n < 0x80 then [n]
  else if n < 0x800 then [0xC0 + n / 64, 0x80 + n % 64]
  else if n < 0x10000 then [0xE0 + n / 4096, 0x80 + n / 64 % 64, 0x80 + n % 64]
  else [0xF0 + n / 262144, 0x80 + n / 4096 % 64, 0x80 + n / 64 % 64, 0x80 + n % 64]

/-- UTF-8 encoding of a string (`str.encode('utf-8')`). -/
def utf8Encode : List Char → List Nat
  | [] => []
  | c :: cs => utf8EncodeChar c ++ utf8Encode cs

/-- Decode one UTF-8 sequence from the head of a byte list.  Strict, like
    CPython's `decode('utf-8')`: continuation bytes must be in `80..BF`,
    overlong forms, surrogates and values above `0x10FFFF` are rejected. -/
def utf8DecodeChar : List Nat → Option (Char × List Nat)
  | [] => none
  | b0 :: rest =>
    if h0 : b0 < 0x80 then
      some (⟨UInt32.ofNat b0, by
        have : b0 < 55296 := by omega
        simp [UInt32.ofNat, Nat.isValidChar, UInt32.isValidChar, Fin.ofNat, Nat.mod_eq_of_lt
          (show b0 < 4294967296 by omega), this]⟩, rest)
    else
      match rest with
      | b1 :: rest1 =>
        if 0xC2 ≤ b0 ∧ b0 < 0xE0 ∧ 0x80 ≤ b1 ∧ b1 < 0xC0 then
          let n := (b0 - 0xC0) * 64 + (b1 - 0x80)
          if h : n < 0xD800 then
            some (⟨UInt32.ofNat n, by
              simp [UInt32.ofNat, Nat.isValidChar, UInt32.isValidChar, Fin.ofNat,
                Nat.mod_eq_of_lt (show n < 4294967296 by omega), h]⟩, rest1)
          else none
        else
        match rest1 with
        | b2 :: rest2 =>
          if 0xE0 ≤ b0 ∧ b0 < 0xF0 ∧ 0x80 ≤ b1 ∧ b1 < 0xC0 ∧ 0x80 ≤ b2 ∧ b2 < 0xC0 ∧
              (b0 = 0xE0 → 0xA0 ≤ b1) ∧ (b0 = 0xED → b1 < 0xA0) then
            let n := (b0 - 0xE0) * 4096 + (b1 - 0x80) * 64 + (b2 - 0x80)
            if h : n < 0xD800 ∨ (0xDFFF < n ∧ n < 0x110000) then
              some (⟨UInt32.ofNat n, by
                have hn : n < 4294967296 := by omega
                simp [UInt32.ofNat, Nat.isValidChar, UInt32.isValidChar, Fin.ofNat,
                  Nat.mod_eq_of_lt hn]
                omega⟩, rest2)
            else none
          else
          match rest2 with
          | b3 :: rest3 =>
            if 0xF0 ≤ b0 ∧ b0 < 0xF5 ∧ 0x80 ≤ b1 ∧ b1 < 0xC0 ∧ 0x80 ≤ b2 ∧ b2 < 0xC0 ∧
                0x80 ≤ b3 ∧ b3 < 0xC0 ∧ (b0 = 0xF0 → 0x90 ≤ b1) ∧ (b0 = 0xF4 → b1 < 0x90) then
              let n := (b0 - 0xF0) * 262144 + (b1 - 0x80) * 4096 + (b2 - 0x80) * 64 + (b3 - 0x80)
              if h : 0xFFFF < n ∧ n < 0x110000 then
                some (⟨UInt32.ofNat n, by
                  have hn : n < 4294967296 := by omega
                  simp [UInt32.ofNat, Nat.isValidChar, UInt32.isValidChar, Fin.ofNat,
                    Nat.mod_eq_of_lt hn]
                  omega⟩, rest3)
              else none
            else none
          | [] => none
        | [] => none
      | [] => none

/-- Strict UTF-8 decoding of a whole byte string (`bytes.decode('utf-8')`);
    `none` models `UnicodeDecodeError`.  Fuel-driven; the fuel is the byte count. -/
def utf8DecodeAux : Nat → List Nat → Option (List Char)
  | _, [] => some []
  | 0, _ :: _ => none
  | fuel + 1, b =>
    match utf8DecodeChar b with
    | none => none
    | some (c, rest) => (utf8DecodeAux fuel rest).map (c :: ·)

def utf8Decode (b : List Nat) : Option (List Char) := utf8DecodeAux b.length b

/-! ## The tag model (`uNBT/nbt.py`) -/

/-- The thirteen wire kinds: the numeric ids of `_tagid_class_mapping`.
    `end_` is id 0 (the base class `Tag`). -/
inductive NbtKind where
  | end_
  | byte
  | short
  | int
  | long
  | float
  | double
  | byteArray
  | string
  | list
  | compound
  | intArray
  | longArray
deriving DecidableEq

/-- `tagid` class attribute of each tag class. -/
def NbtKind.tagid : NbtKind → Nat
  | .end_ => 0
  | .byte => 1
  | .short => 2
  | .int => 3
  | .long => 4
  | .float => 5
  | .double => 6
  | .byteArray => 7
  | .string => 8
  | .list => 9
  | .compound => 10
  | .intArray => 11
  | .longArray => 12

/-- `_tagid_class_mapping`: numeric id to tag class (id 0 maps to the base `Tag`). -/
def kindOfTagid : Nat → Option NbtKind
  | 0 => some .end_
  | 1 => some .byte
  | 2 => some .short
  | 3 => some .int
  | 4 => some .long
  | 5 => some .float
  | 6 => some .double
  | 7 => some .byteArray
  | 8 => some .string
  | 9 => some .list
  | 10 => some .compound
  | 11 => some .intArray
  | 12 => some .longArray
  | _ => none

/-- The tag value model.  Instances of the concrete subclasses of `Tag`:
    integer tags store their (already wrapped) value, float tags store the raw
    bit pattern of their payload, `list` stores its `item_cls` as a kind, and
    `compound` stores its insertion-ordered `dict` as an association list. -/
inductive Tag where
  | byte (v : Int)
  | short (v : Int)
  | int (v : Int)
  | long (v : Int)
  | float (bits : Nat)
  | double (bits : Nat)
  | byteArray (vs : List Int)
  | string (s : List Char)
  | list (item_cls : NbtKind) (items : List Tag)
  | compound (entries : List (List Char × Tag))
  | intArray (vs : List Int)
  | longArray (vs : List Int)

/-- The concrete class (`type(tag)`) of a tag value.  Never `end_`: the base
    class `Tag` cannot be instantiated. -/
def Tag.kind : Tag → NbtKind
  | .byte _ => .byte
  | .short _ => .short
  | .int _ => .int
  | .long _ => .long
  | .float _ => .float
  | .double _ => .double
  | .byteArray _ => .byteArray
  | .string _ => .string
  | .list _ _ => .list
  | .compound _ => .compound
  | .intArray _ => .intArray
  | .longArray _ => .longArray

/-- Python `dict.__setitem__`: replace in place if the key exists, else append. -/
def dictInsert : List (List Char × Tag) → List Char → Tag →
    List (List Char × Tag)
  | [], k, v => [(k, v)]
  | (k', v') :: es, k, v =>
    if k' = k then (k', v) :: es else (k', v') :: dictInsert es k v

/-- `TagList.__init__` element check: `all(type(item) is item_cls ...)`. -/
def listHomogeneous (k : NbtKind) : List Tag → Bool
  | [] => true
  | t :: ts => t.kind = k && listHomogeneous k ts

/-! ## `_TagNumber.__init__` (claim C4) -/

/-- `_TagNumber.__init__`: wrap an arbitrary integer into the signed range.
    `mod` is the subclass's `_mod` attribute (`2^8`, `2^16`, `2^32`, `2^64`).
    Source: `value = int(value) % mod; if value < (mod >> 1): ... else value - mod`;
    for the even moduli used, `mod >> 1 = mod / 2`, and Python `%` with a
    positive modulus is `Int.emod`. -/
def tagNumberInit (mod : Int) (value : Int) : Int :=
  if value % mod < mod / 2 then value % mod else value % mod - mod

/-- `TagByte(v)` -/
def TagByte.init (v : Int) : Tag := .byte (tagNumberInit (2 ^ 8) v)

/-- `TagShort(v)` -/
def TagShort.init (v : Int) : Tag := .short (tagNumberInit (2 ^ 16) v)

/-- `TagInt(v)` -/
def TagInt.init (v : Int) : Tag := .int (tagNumberInit (2 ^ 32) v)

/-- `TagLong(v)` -/
def TagLong.init (v : Int) : Tag := .long (tagNumberInit (2 ^ 64) v)

/-- The `value` setter of `_TagNumber` re-runs `__init__` on the new value,
    discarding the old one. -/
def tagNumberSetValue (mod : Int) (_old : Int) (new : Int) : Int := tagNumberInit mod new

/-! ## `TagString.write` (claim C5) -/

/-- `TagString.write`: encode the value as UTF-8 and prefix its byte length
    packed with `_struct_short = struct.Struct('>h')` — a *signed* 16-bit
    format, so the pack fails for lengths above `2^15 - 1`. -/
def TagString.write (s : List Char) : Option (List Nat) :=
  let raw := utf8Encode s
  (packSigned 2 (raw.length : Int)).map (· ++ raw)

/-! ## `_TagNumberArray.__setitem__` (claim C6) -/

/-- `_TagNumberArray.__setitem__` delegates to `array.__setitem__` of the
    backing `array(itype)`.  `half = 2^(width-1)` is the magnitude bound of the
    element type (`'b'`, `'i'` or `'q'`).  CPython's `array` rejects an
    out-of-range value with `OverflowError` (here `none`) and leaves the array
    unchanged; a negative index counts from the end; an out-of-bounds index is
    an `IndexError` (also `none`). -/
def TagNumberArray.setitem (half : Int) (arr : List Int) (index : Int) (value : Int) :
    Option (List Int) :=
  if 0 ≤ (if index < 0 then index + (arr.length : Int) else index) ∧
      (if index < 0 then index + (arr.length : Int) else index) < (arr.length : Int) then
    if -half ≤ value ∧ value < half then
      some (arr.set (if index < 0 then index + (arr.length : Int) else index).toNat value)
    else none
  else none

/-! ## `TagList.insert` (claim C9) -/

/-- Insertion at a clamped non-negative position (`list.insert` past the end
    appends). -/
def insertAtNat {α : Type} : List α → Nat → α → List α
  | l, 0, a => a :: l
  | [], _ + 1, a => [a]
  | x :: xs, n + 1, a => x :: insertAtNat xs n a

/-- Python `list.insert(index, item)` semantics: negative indices count from the
    end and clamp to 0; indices past the end append. -/
def pyListInsert {α : Type} (l : List α) (index : Int) (a : α) : List α :=
  let pos : Int := if index < 0 then max 0 ((l.length : Int) + index) else index
  insertAtNat l pos.toNat a

/-- `TagList.insert`.  `item_cls = .end_` models a list whose `item_cls` is the
    base class `Tag` (as produced by `TagList(Tag)` or by decoding an
    End-kinded empty list): inserting any tag then succeeds and the list adopts
    the tag's concrete class (`issubclass(type(tag), Tag)` always holds for a
    value of the tag model).  For a concrete `item_cls`, inserting a tag of a
    different class raises `NbtInvalidOperation` (`none`) before any mutation. -/
def TagList.insert (item_cls : NbtKind) (items : List Tag) (index : Int) (tag : Tag) :
    Option (NbtKind × List Tag) :=
  if tag.kind ≠ item_cls then
    if item_cls = .end_ then some (tag.kind, pyListInsert items index tag)
    else none
  else some (item_cls, pyListInsert items index tag)

/-! ## Binary codec: writers (`Tag.write`, claims C1/C7) -/

/-- `_compound_write_name`: UTF-8 bytes prefixed by their count packed with the
    signed 16-bit `_struct_short`. -/
def compound_write_name (name : List Char) : Option (List Nat) :=
  (packSigned 2 ((utf8Encode name).length : Int)).map (· ++ utf8Encode name)

/-- Pack each element of a number array, `k` bytes each, big-endian signed
    (the byteswapped `array.tofile` of `_TagNumberArray.write`). -/
def packAll (k : Nat) : List Int → Option (List Nat)
  | [] => some []
  | v :: vs => do
      let w ← packSigned k v
      let ws ← packAll k vs
      pure (w ++ ws)

/-- `_TagNumberArray.write`: 4-byte signed big-endian element count, then the
    big-endian elements. -/
def writeArrayPayload (k : Nat) (vs : List Int) : Option (List Nat) := do
  let cnt ← packSigned 4 (vs.length : Int)
  let body ← packAll k vs
  pure (cnt ++ body)

mutual

/-- Payload bytes of a tag (its `write` method, without any name). -/
def writePayload : Tag → Option (List Nat)
  | .byte v => packSigned 1 v
  | .short v => packSigned 2 v
  | .int v => packSigned 4 v
  | .long v => packSigned 8 v
  | .float bits => some (natToBEBytes 4 bits)
  | .double bits => some (natToBEBytes 8 bits)
  | .byteArray vs => writeArrayPayload 1 vs
  | .string s => TagString.write s
  | .list k ts => do
      let kb ← packSigned 1 (k.tagid : Int)
      let cnt ← packSigned 4 (ts.length : Int)
      let body ← writeItems ts
      pure (kb ++ cnt ++ body)
  | .compound es => do
      let body ← writeEntries es
      pure (body ++ [0])
  | .intArray vs => writeArrayPayload 4 vs
  | .longArray vs => writeArrayPayload 8 vs

/-- `TagList.write` body: payloads of the items in order. -/
def writeItems : List Tag → Option (List Nat)
  | [] => some []
  | t :: ts => do
      let w ← writePayload t
      let ws ← writeItems ts
      pure (w ++ ws)

/-- `TagCompound.write` body: for each entry its kind byte, name, payload. -/
def writeEntries : List (List Char × Tag) → Option (List Nat)
  | [] => some []
  | (name, t) :: es => do
      let tb ← packSigned 1 (t.kind.tagid : Int)
      let nb ← compound_write_name name
      let w ← writePayload t
      let ws ← writeEntries es
      pure (tb ++ nb ++ w ++ ws)

end

/-- `write_nbt_file` with `compress=False`: kind byte, root name, payload. -/
def write_nbt_file (root_name : List Char) (root : Tag) : Option (List Nat) := do
  let tb ← packSigned 1 (root.kind.tagid : Int)
  let nb ← compound_write_name root_name
  let w ← writePayload root
  pure (tb ++ nb ++ w)

/-! ## Binary codec: readers -/

/-- Split `n` big-endian `k`-byte groups into signed values (the byteswapped
    native array of `_TagNumberArray.read`). -/
def groupInts (k : Nat) : Nat → List Nat → List Int
  | 0, _ => []
  | n + 1, b => beBytesToInt k (b.take k) :: groupInts k n (b.drop k)

/-- `_TagNumberArray.read`: 4-byte signed count, then `count` elements read with
    `array.fromfile`.  `fromfile` raises `EOFError` when the stream holds fewer
    than `count * itemsize` bytes, and also for any negative count (the `read`
    of a negative byte count returns the whole rest, which never equals the
    negative requested size). -/
def readArrayPayload (k : Nat) (b : List Nat) : Option (List Int × List Nat) := do
  let (cb, b1) ← takeExact 4 b
  let cnt := beBytesToInt 4 cb
  if cnt < 0 then none
  else do
    let (body, b2) ← takeExact (cnt.toNat * k) b1
    pure (groupInts k cnt.toNat body, b2)

/-- Common body of `TagString.read` and `_compound_read_name`: a signed 16-bit
    byte count, then `stream.read(count)` decoded as UTF-8.  `read` returns at
    most `count` bytes without error when the stream is short, and returns the
    whole rest for a negative `count`. -/
def readLenStr (b : List Nat) : Option (List Char × List Nat) := do
  let (sb, b1) ← takeExact 2 b
  let size := beBytesToInt 2 sb
  let raw := if size < 0 then b1 else b1.take size.toNat
  let rest := if size < 0 then [] else b1.drop size.toNat
  (utf8Decode raw).map (fun s => (s, rest))

mutual

/-- `read` of the tag class with kind `k` (fuel-driven; every recursive call
    consumes fuel).  Kind `end_` is the base `Tag`, whose `read` raises
    `NotImplementedError`. -/
def readPayload : Nat → NbtKind → List Nat → Option (Tag × List Nat)
  | 0, _, _ => none
  | fuel + 1, k, b =>
    match k with
    | .end_ => none
    | .byte => (takeExact 1 b).map (fun (c, r) => (.byte (beBytesToInt 1 c), r))
    | .short => (takeExact 2 b).map (fun (c, r) => (.short (beBytesToInt 2 c), r))
    | .int => (takeExact 4 b).map (fun (c, r) => (.int (beBytesToInt 4 c), r))
    | .long => (takeExact 8 b).map (fun (c, r) => (.long (beBytesToInt 8 c), r))
    | .float => (takeExact 4 b).map (fun (c, r) => (.float (beBytesToNat c), r))
    | .double => (takeExact 8 b).map (fun (c, r) => (.double (beBytesToNat c), r))
    | .byteArray => (readArrayPayload 1 b).map (fun (vs, r) => (.byteArray vs, r))
    | .string => (readLenStr b).map (fun (s, r) => (.string s, r))
    | .list =>
      match b with
      | [] => none
      | ib :: b1 =>
        match kindOfTagid ib with
        | none => none
        | some ik => do
          let (cb, b2) ← takeExact 4 b1
          let cnt := beBytesToInt 4 cb
          let (ts, b3) ← readElems fuel ik (if cnt < 0 then 0 else cnt.toNat) b2
          pure (.list ik ts, b3)
    | .compound => (readEntries fuel [] b).map (fun (es, r) => (.compound es, r))
    | .intArray => (readArrayPayload 4 b).map (fun (vs, r) => (.intArray vs, r))
    | .longArray => (readArrayPayload 8 b).map (fun (vs, r) => (.longArray vs, r))

/-- `TagList.read` body: `[itemcls_read(stream) for _ in range(size)]`. -/
def readElems : Nat → NbtKind → Nat → List Nat → Option (List Tag × List Nat)
  | 0, _, _, _ => none
  | _ + 1, _, 0, b => some ([], b)
  | fuel + 1, k, n + 1, b => do
      let (t, b1) ← readPayload fuel k b
      let (ts, b2) ← readElems fuel k n b1
      pure (t :: ts, b2)

/-- `TagCompound.read` loop: kind byte (0 terminates), name, payload; entries
    land in an insertion-ordered `dict` (`acc`). -/
def readEntries : Nat → List (List Char × Tag) → List Nat →
    Option (List (List Char × Tag) × List Nat)
  | 0, _, _ => none
  | fuel + 1, acc, b =>
    match b with
    | [] => none
    | tb :: rest =>
      if tb = 0 then some (acc, rest)
      else
        match kindOfTagid tb with
        | none => none
        | some k => do
            let (name, b1) ← readLenStr rest
            let (t, b2) ← readPayload fuel k b1
            readEntries fuel (dictInsert acc name t) b2

end

/-- `read_nbt_file` on a byte stream.  Gzip-compressed input (magic
    `1F 8B`) is decompressed by the source before decoding; compressed streams
    are outside the byte-level model.  Bytes left over after the root payload
    are ignored ("Doesn't check if all bytes have been read"). -/
def read_nbt_file (b : List Nat) : Option (Tag × List Char) :=
  if b.take 2 = [31, 139] then none
  else
    match b with
    | [] => none
    | tagid :: rest =>
      match kindOfTagid tagid with
      | none => none
      | some k =>
        if k = .end_ then none
        else do
          let (name, b1) ← readLenStr rest
          let (t, _trailing) ← readPayload (b.length + 1) k b1
          pure (t, name)

/-! ## Well-formedness: the tags representable by the Python classes -/

/-- A signalling-NaN binary32 pattern (quiet bit clear, nonzero mantissa).
    `struct.pack('>f', struct.unpack('>f', bits)[0])` quiets such patterns;
    all other 32-bit patterns round-trip bit-exactly. -/
def sNaN32 (bits : Nat) : Bool :=
  decide (bits / 2 ^ 23 % 2 ^ 8 = 255) && decide (bits % 2 ^ 23 < 2 ^ 22) &&
    decide (bits % 2 ^ 23 ≠ 0)

/-- Membership of a key in an association-list `dict`. -/
def keyMem (k : List Char) : List (List Char × Tag) → Bool
  | [] => false
  | (k', _) :: es => k = k' || keyMem k es

/-- Distinctness of `dict` keys (automatic for a Python `dict`). -/
def nodupKeys : List (List Char × Tag) → Bool
  | [] => true
  | (k, _) :: es => !keyMem k es && nodupKeys es


mutual

/-- The tags representable by the Python classes and writable by `write`:
    integer payloads wrapped to their signed range, float payloads in range
    (and not signalling for binary32), string/name encodings short enough for
    the signed 16-bit length prefix, counts within signed 32 bits, list
    elements of the list's `item_cls`, distinct compound keys. -/
def wfTag : Tag → Bool
  | .byte v => decide (-128 ≤ v ∧ v < 128)
  | .short v => decide (-(2 ^ 15) ≤ v ∧ v < 2 ^ 15)
  | .int v => decide (-(2 ^ 31) ≤ v ∧ v < 2 ^ 31)
  | .long v => decide (-(2 ^ 63) ≤ v ∧ v < 2 ^ 63)
  | .float bits => decide (bits < 2 ^ 32) && !sNaN32 bits
  | .double bits => decide (bits < 2 ^ 64)
  | .byteArray vs =>
      decide (vs.length < 2 ^ 31) && vs.all (fun v => decide (-128 ≤ v ∧ v < 128))
  | .string s => decide ((utf8Encode s).length < 2 ^ 15)
  | .list k ts => decide (ts.length < 2 ^ 31) && wfItems k ts
  | .compound es => nodupKeys es && wfEntries es
  | .intArray vs =>
      decide (vs.length < 2 ^ 31) && vs.all (fun v => decide (-(2 ^ 31) ≤ v ∧ v < 2 ^ 31))
  | .longArray vs =>
      decide (vs.length < 2 ^ 31) && vs.all (fun v => decide (-(2 ^ 63) ≤ v ∧ v < 2 ^ 63))

def wfItems : NbtKind → List Tag → Bool
  | _, [] => true
  | k, t :: ts => t.kind = k && wfTag t && wfItems k ts

def wfEntries : List (List Char × Tag) → Bool
  | [] => true
  | (name, t) :: es =>
      decide ((utf8Encode name).length < 2 ^ 15) && wfTag t && wfEntries es

end

mutual

/-- Fuel needed by `readPayload` on the canonical encoding of a tag. -/
def tagMu : Tag → Nat
  | .list _ ts => 1 + elemsMu ts
  | .compound es => 1 + entriesMu es
  | _ => 1

def elemsMu : List Tag → Nat
  | [] => 1
  | t :: ts => 1 + max (tagMu t) (elemsMu ts)

def entriesMu : List (List Char × Tag) → Nat
  | [] => 1
  | (_, t) :: es => 1 + max (tagMu t) (entriesMu es)

end

/-! ## The region reader (`uNBT/world.py`, claim C8) -/

/-- The in-memory chunk table: 32×32 cells, `none` for a chunk that is not
    present, `some bytes` for raw (still compressed) chunk data. -/
structure Region where
  chunks : List (List (Option (List Nat)))

/-- `Region()`: the empty region. -/
def Region.emptyR : Region := ⟨List.replicate 32 (List.replicate 32 none)⟩

/-- Header scan of `Region.from_file`: 1024 big-endian 32-bit location entries
    in index order `z*32 + x`.  `none` models the `struct.error` taken when the
    file ends inside the header (caught: `from_file` then returns the region
    built so far, which is still empty).  Nonzero entries yield
    `(offset_sectors*4096, x, z)`. -/
def collectLocs : Nat → Nat → List Nat → Option (List (Nat × Nat × Nat))
  | 0, _, _ => some []
  | n + 1, idx, b =>
    if b.length < 4 then none
    else if beBytesToNat (b.take 4) = 0 then collectLocs n (idx + 1) (b.drop 4)
    else (collectLocs n (idx + 1) (b.drop 4)).map
      (fun ls => (beBytesToNat (b.take 4) / 256 * 4096, idx % 32, idx / 32) :: ls)

/-- Lexicographic order on `(offset, x, z)` triples (Python tuple `sorted`). -/
def locLe (a b : Nat × Nat × Nat) : Bool :=
  a.1 < b.1 || (a.1 = b.1 &&
    (a.2.1 < b.2.1 || (a.2.1 = b.2.1 && a.2.2 ≤ b.2.2)))

def insertLoc (a : Nat × Nat × Nat) : List (Nat × Nat × Nat) → List (Nat × Nat × Nat)
  | [] => [a]
  | x :: xs => if locLe a x then a :: x :: xs else x :: insertLoc a xs

/-- `sorted(chunk_locations)`. -/
def sortLocs : List (Nat × Nat × Nat) → List (Nat × Nat × Nat)
  | [] => []
  | x :: xs => insertLoc x (sortLocs xs)

/-- Store raw chunk bytes at `_chunks[z][x]`. -/
def setChunk (r : Region) (z x : Nat) (v : List Nat) : Region :=
  ⟨r.chunks.set z (((r.chunks.get? z).getD []).set x (some v))⟩

/-- Chunk-reading loop of `Region.from_file`: for each located chunk seek to
    its offset, unpack `>IB` (length, compression; a short read raises
    `struct.error`, uncaught here), skip unsupported compressions with a
    warning, and store the raw data.  The external-`.mcc` branch opens another
    file, which is outside the byte-level model (`none`); no claim reaches it. -/
def readChunksBody (b : List Nat) : List (Nat × Nat × Nat) → Region → Option Region
  | [], r => some r
  | (offset, x, z) :: ls, r =>
    let sub := b.drop offset
    if sub.length < 5 then none
    else
      let length := beBytesToNat (sub.take 4)
      let compression := sub.getD 4 0
      if compression % 128 ≠ 2 then readChunksBody b ls r
      else if 128 ≤ compression then none
      else readChunksBody b ls (setChunk r z x ((b.drop (offset + 5)).take length))

/-- `Region.from_file` over the region file's bytes. -/
def Region.from_file (b : List Nat) : Option Region :=
  match collectLocs 1024 0 b with
  | none => some Region.emptyR
  | some locs => readChunksBody b (sortLocs locs) Region.emptyR

/-- `Region.get_chunk`: an absent chunk (stored `None`) is returned as the
    absent marker directly.  Stored bytes would be zlib-decompressed and parsed
    on first access; the claims below only concern absent chunks, so the model
    returns the stored cell. -/
def Region.get_chunk (r : Region) (x z : Nat) : Option (List Nat) :=
  (((r.chunks.get? z).getD []).getD x none)

/-! ## SNBT printer (`uNBT/snbt.py`) -/

/-- Python whitespace characters (the ASCII white space class; no other
    whitespace occurs in any input considered here). -/
def pyIsSpace (c : Char) : Bool :=
  c = ' ' || c = '\t' || c = '\n' || c = '\x0b' || c = '\x0c' || c = '\r'

def lstrip (s : List Char) : List Char := s.dropWhile pyIsSpace

/-- The unquoted-token character class `[0-9a-zA-Z.+_-]`. -/
def isUnquotedChar (c : Char) : Bool :=
  ('0' ≤ c && c ≤ '9') || ('a' ≤ c && c ≤ 'z') || ('A' ≤ c && c ≤ 'Z') ||
    c = '.' || c = '+' || c = '_' || c = '-'

/-- `str.replace(old, new)` for a one-character pattern: left-to-right,
    non-overlapping. -/
def replace1 (a : Char) (new : List Char) : List Char → List Char
  | [] => []
  | c :: r => if c = a then new ++ replace1 a new r else c :: replace1 a new r

/-- `str.replace(old, new)` for a two-character pattern: left-to-right,
    non-overlapping. -/
def replace2 (a b : Char) (new : List Char) : List Char → List Char
  | [] => []
  | [x] => [x]
  | x :: y :: rest =>
    if x = a && y = b then new ++ replace2 a b new rest
    else x :: replace2 a b new (y :: rest)

/-- `_quote_string`: escape double quotes, then single quotes, then double
    every backslash — in that order, so the backslashes introduced by the first
    two steps are doubled again. -/
def quote_string (s : List Char) : List Char :=
  '"' :: (replace1 '\\' ['\\', '\\']
    (replace1 '\'' ['\\', '\''] (replace1 '"' ['\\', '"'] s))) ++ ['"']

/-- `_quote_compound_key`: unquoted when the key fully matches
    `[0-9a-zA-Z.+_-]+`, else quoted. -/
def quote_compound_key (s : List Char) : List Char :=
  if !s.isEmpty && s.all isUnquotedChar then s else quote_string s

/-- `','.join`. -/
def joinComma : List (List Char) → List Char
  | [] => []
  | [x] => x
  | x :: y :: xs => x ++ ',' :: joinComma (y :: xs)

/-- Decimal digits of a natural number, most significant first (fuel-driven;
    `natDigits` supplies enough fuel). -/
def natDigitsAux : Nat → Nat → List Char
  | 0, n => [Char.ofNat (48 + n)]
  | fuel + 1, n =>
    if n < 10 then [Char.ofNat (48 + n)]
    else natDigitsAux fuel (n / 10) ++ [Char.ofNat (48 + n % 10)]

def natDigits (n : Nat) : List Char := natDigitsAux n n

/-- Python `str` of an int (`'{}'.format(value)`). -/
def intChars (v : Int) : List Char :=
  if v < 0 then '-' :: natDigits (-v).toNat else natDigits v.toNat

mutual

/-- `to_snbt` with the default `sort=False`.  Float/Double formatting
    (`repr` of a Python float) is not modelled: those two cases are `none`, and
    no claim below exercises them. -/
def to_snbt : Tag → Option (List Char)
  | .byte v => some (intChars v ++ ['b'])
  | .short v => some (intChars v ++ ['s'])
  | .int v => some (intChars v)
  | .long v => some (intChars v ++ ['l'])
  | .float _ => none
  | .double _ => none
  | .byteArray vs =>
      some ('[' :: 'B' :: ';' :: joinComma (vs.map (fun v => intChars v ++ ['b'])) ++ [']'])
  | .intArray vs =>
      some ('[' :: 'I' :: ';' :: joinComma (vs.map intChars) ++ [']'])
  | .longArray vs =>
      some ('[' :: 'L' :: ';' :: joinComma (vs.map (fun v => intChars v ++ ['l'])) ++ [']'])
  | .string s => some (quote_string s)
  | .list _ ts => (snbtItems ts).map (fun ws => '[' :: joinComma ws ++ [']'])
  | .compound es => (snbtEntries es).map (fun ws => '{' :: joinComma ws ++ ['}'])

def snbtItems : List Tag → Option (List (List Char))
  | [] => some []
  | t :: ts => do
      let w ← to_snbt t
      let ws ← snbtItems ts
      pure (w :: ws)

def snbtEntries : List (List Char × Tag) → Option (List (List Char))
  | [] => some []
  | (k, v) :: es => do
      let w ← to_snbt v
      let ws ← snbtEntries es
      pure ((quote_compound_key k ++ ':' :: w) :: ws)

end

/-! ## SNBT parser -/

/-- Longest prefix of decimal digits. -/
def spanDigits : List Char → (List Char × List Char)
  | [] => ([], [])
  | c :: cs =>
    if c.isDigit then
      let (a, b) := spanDigits cs
      (c :: a, b)
    else ([], c :: cs)

/-- Longest prefix of unquoted-token characters. -/
def spanUnquoted : List Char → (List Char × List Char)
  | [] => ([], [])
  | c :: cs =>
    if isUnquotedChar c then
      let (a, b) := spanUnquoted cs
      (c :: a, b)
    else ([], c :: cs)

/-- `_parse_unquoted_string`. -/
def parse_unquoted_string (s : List Char) : Option (List Char × List Char) :=
  let (v, r) := spanUnquoted s
  if v.isEmpty then none else some (r, v)

def digitsVal (ds : List Char) : Nat := ds.foldl (fun a c => a * 10 + (c.toNat - 48)) 0

/-- The optional `[bsl]` suffix; `'i'` when absent (`m.group(2).lower() or 'i'`). -/
def takeSuffixBSL : List Char → (Char × List Char)
  | 'b' :: r => ('b', r)
  | 's' :: r => ('s', r)
  | 'l' :: r => ('l', r)
  | s => ('i', s)

/-- `_try_parse_integer`: prefix-match `([+-]?(?:0|[1-9][0-9]*))([bsl]?)`,
    returning the remaining input, the (unbounded) value and the suffix. -/
def try_parse_integer (s : List Char) : Option (List Char × Int × Char) :=
  let signed : Int × List Char :=
    match s with
    | '-' :: r => (-1, r)
    | '+' :: r => (1, r)
    | _ => (1, s)
  match signed.2 with
  | [] => none
  | c :: r =>
    if c = '0' then
      let (suf, r2) := takeSuffixBSL r
      some (r2, 0, suf)
    else if '1' ≤ c && c ≤ '9' then
      let (ds, r1) := spanDigits r
      let (suf, r2) := takeSuffixBSL r1
      some (r2, signed.1 * (digitsVal (c :: ds) : Int), suf)
    else none

def allDigits (cs : List Char) : Bool := !cs.isEmpty && cs.all Char.isDigit

/-- The `(?:e[-+]?[0-9]+)` exponent body (after the `e`). -/
def expOk : List Char → Bool
  | [] => false
  | c :: r => if c = '+' || c = '-' then allDigits r else allDigits (c :: r)

/-- Split at the first `e` (the mantissa cannot contain one). -/
def splitAtE : List Char → (List Char × Option (List Char))
  | [] => ([], none)
  | c :: r =>
    if c = 'e' then ([], some r)
    else
      let (m, e) := splitAtE r
      (c :: m, e)

/-- Full match of the mantissa `[0-9]+[.]?|[0-9]*[.][0-9]+`
    (with `dotRequired`, the first alternative is `[0-9]+[.]`). -/
def mantOk (dotRequired : Bool) (m : List Char) : Bool :=
  let (ds, r) := spanDigits m
  (!ds.isEmpty && (r = ['.'] || (!dotRequired && r.isEmpty))) ||
    (match r with
     | '.' :: r2 => allDigits r2
     | _ => false)

/-- Full match of `[-+]? mantissa (?:e[-+]?[0-9]+)?`. -/
def numOk (dotRequired : Bool) (cs : List Char) : Bool :=
  let body :=
    match cs with
    | c :: r => if c = '+' || c = '-' then r else c :: r
    | [] => []
  match splitAtE body with
  | (m, none) => mantOk dotRequired m
  | (m, some e) => mantOk dotRequired m && expOk e

/-- The float test of `_parse_rec`: the chunk fully matches
    `([-+]?(?:[0-9]+[.]?|[0-9]*[.][0-9]+)(?:e[-+]?[0-9]+)?)([fd])$` or
    `([-+]?(?:[0-9]+[.]|[0-9]*[.][0-9]+)(?:e[-+]?[0-9]+)?)()$`. -/
def snbtFloatMatches (chunk : List Char) : Bool :=
  (match chunk.getLast? with
   | some c => (c = 'f' || c = 'd') && numOk false chunk.dropLast
   | none => false) ||
  numOk true chunk

/-- Length of the leading backslash run. -/
def bsRun : List Char → Nat
  | [] => 0
  | c :: r => if c = '\\' then bsRun r + 1 else 0

def headIs (q : Char) : List Char → Bool
  | [] => false
  | c :: _ => c = q

/-- The quoted-string body regex `{0}(.*?[^\\](?:\\\\)*){0}` applied after the
    opening quote, in engine order: grow the lazy `.*?` (which cannot cross a
    newline), try the current character as the `[^\\]`, then require an even
    backslash run followed by the closing quote.  Returns the group and the
    input after the closing quote. -/
def findClose (q : Char) : List Char → Option (List Char × List Char)
  | [] => none
  | c :: rest =>
    if c = '\\' then (findClose q rest).map (fun (g, r) => (c :: g, r))
    else
      let run := bsRun rest
      if run % 2 = 0 && headIs q (rest.drop run) then
        some (c :: rest.take run, rest.drop (run + 1))
      else if c = '\n' then none
      else (findClose q rest).map (fun (g, r) => (c :: g, r))

/-- The unescaping of `_parse_quoted_string`:
    `replace('\\"','"').replace("\\'","'").replace('\\\\','\\')`. -/
def unescape (g : List Char) : List Char :=
  replace2 '\\' '\\' ['\\'] (replace2 '\\' '\'' ['\''] (replace2 '\\' '"' ['"'] g))

/-- `_parse_quoted_string`.  An input consisting of a single quote raises
    `IndexError` on `s[1]`; a failed regex match raises
    `ValueError('Unclosed string tag')`. -/
def parse_quoted_string (s : List Char) : Option (List Char × List Char) :=
  match s with
  | [] => none
  | q :: rest =>
    match rest with
    | [] => none
    | c :: _ =>
      if c = q then some (rest.drop 1, [])
      else
        match findClose q rest with
        | some (g, r) => some (r, unescape g)
        | none => none

mutual

/-- `_parse_rec` (fuel-driven).  The float branch converts the matched decimal
    literal with Python `float()`; that conversion is not modelled (`none`) and
    no claim below reaches it. -/
def parse_rec : Nat → List Char → Option (List Char × Tag)
  | 0, _ => none
  | fuel + 1, s0 =>
    let s := lstrip s0
    match s with
    | [] => none
    | c :: rest =>
      if c = '"' || c = '\'' then
        (parse_quoted_string s).map (fun (r, v) => (r, .string v))
      else if c = '[' then
        match rest with
        | a :: ';' :: r =>
          if a = 'B' || a = 'I' || a = 'L' then
            let atype := if a = 'B' then 'b' else if a = 'I' then 'i' else 'l'
            match parseArrayItems fuel atype true r with
            | none => none
            | some (r2, values) =>
              if atype = 'b' then
                if values.all (fun v => decide (-128 ≤ v ∧ v < 128)) then
                  some (r2, .byteArray values)
                else none
              else if atype = 'l' then
                if values.all (fun v => decide (-(2 ^ 63) ≤ v ∧ v < 2 ^ 63)) then
                  some (r2, .longArray values)
                else none
              else
                if values.all (fun v => decide (-(2 ^ 31) ≤ v ∧ v < 2 ^ 31)) then
                  some (r2, .intArray values)
                else none
          else
            match parseListItems fuel true rest with
            | none => none
            | some (r2, ts) =>
              match ts with
              | [] => some (r2, .list .int [])
              | t :: _ =>
                if listHomogeneous t.kind ts then some (r2, .list t.kind ts) else none
        | _ =>
          match parseListItems fuel true rest with
          | none => none
          | some (r2, ts) =>
            match ts with
            | [] => some (r2, .list .int [])
            | t :: _ =>
              if listHomogeneous t.kind ts then some (r2, .list t.kind ts) else none
      else if c = '{' then
        (parseCompoundItems fuel true [] rest).map (fun (r, es) => (.compound es) |> (r, ·))
      else
        match parse_unquoted_string s with
        | none => none
        | some (r, chunk) =>
          if snbtFloatMatches chunk then none
          else
            match try_parse_integer chunk with
            | some (_, v, suf) =>
              if suf = 'b' then some (r, TagByte.init v)
              else if suf = 's' then some (r, TagShort.init v)
              else if suf = 'l' then some (r, TagLong.init v)
              else some (r, TagInt.init v)
            | none =>
              if chunk = ['t', 'r', 'u', 'e'] then some (r, .byte 1)
              else if chunk = ['f', 'a', 'l', 's', 'e'] then some (r, .byte 0)
              else none

/-- The integer-array element loop of `_parse_rec`. -/
def parseArrayItems : Nat → Char → Bool → List Char → Option (List Char × List Int)
  | 0, _, _, _ => none
  | fuel + 1, atype, first, s0 =>
    let s := lstrip s0
    match s with
    | [] => none
    | c :: rest =>
      if c = ']' then some (rest, [])
      else
        let sElem? : Option (List Char) :=
          if first then some s
          else
            match s with
            | ',' :: r => some (lstrip r)
            | _ => none
        match sElem? with
        | none => none
        | some sElem =>
          match try_parse_integer sElem with
          | none => none
          | some (r1, v, suf) =>
            if suf = atype then
              match parseArrayItems fuel atype false r1 with
              | none => none
              | some (r2, vs) => some (r2, v :: vs)
            else none

/-- The list element loop of `_parse_rec`. -/
def parseListItems : Nat → Bool → List Char → Option (List Char × List Tag)
  | 0, _, _ => none
  | fuel + 1, first, s0 =>
    let s := lstrip s0
    match s with
    | [] => none
    | c :: rest =>
      if c = ']' then some (rest, [])
      else
        let sElem? : Option (List Char) :=
          if first then some s
          else
            match s with
            | ',' :: r => some (lstrip r)
            | _ => none
        match sElem? with
        | none => none
        | some sElem =>
          match parse_rec fuel sElem with
          | none => none
          | some (r1, t) =>
            match parseListItems fuel false r1 with
            | none => none
            | some (r2, ts) => some (r2, t :: ts)

/-- The compound entry loop of `_parse_rec`; entries land in an
    insertion-ordered `dict`. -/
def parseCompoundItems : Nat → Bool → List (List Char × Tag) → List Char →
    Option (List Char × List (List Char × Tag))
  | 0, _, _, _ => none
  | fuel + 1, first, acc, s0 =>
    let s := lstrip s0
    match s with
    | [] => none
    | c :: rest =>
      if c = '}' then some (rest, acc)
      else
        let sKey? : Option (List Char) :=
          if first then some s
          else
            match s with
            | ',' :: r => some (lstrip r)
            | _ => none
        match sKey? with
        | none => none
        | some sKey =>
          let keyRes :=
            match sKey with
            | [] => none
            | k :: _ =>
              if k = '"' || k = '\'' then parse_quoted_string sKey
              else parse_unquoted_string sKey
          match keyRes with
          | none => none
          | some (r1, key) =>
            match lstrip r1 with
            | ':' :: r2 =>
              match parse_rec fuel r2 with
              | none => none
              | some (r3, v) => parseCompoundItems fuel false (dictInsert acc key v) r3
            | _ => none

end


/-- `parse_snbt`: parse one value, then require the rest to be empty or
    whitespace. -/
def parse_snbt (s : List Char) : Option Tag :=
  match parse_rec (s.length + 1) s with
  | none => none
  | some (unparsed, t) => if unparsed.all pyIsSpace then some t else none

mutual

/-- Fuel needed by `parse_rec` on the canonical printing of a tag. -/
def snbtMu : Tag → Nat
  | .byteArray vs => vs.length + 2
  | .intArray vs => vs.length + 2
  | .longArray vs => vs.length + 2
  | .list _ ts => 1 + snbtItemsMu ts
  | .compound es => 1 + snbtEntriesMu es
  | _ => 1

def snbtItemsMu : List Tag → Nat
  | [] => 1
  | t :: ts => 1 + max (snbtMu t) (snbtItemsMu ts)

def snbtEntriesMu : List (List Char × Tag) → Nat
  | [] => 1
  | (_, t) :: es => 1 + max (snbtMu t) (snbtEntriesMu es)

end

/-- A character that never occurs in the SNBT printing of a clean string:
    both quotes, the backslash, and the newline (which the quoted-string regex
    `.` cannot cross). -/
def cleanChar (c : Char) : Bool :=
  c ≠ '"' && c ≠ '\'' && c ≠ '\\' && c ≠ '\n'

def cleanStr (s : List Char) : Bool := s.all cleanChar

mutual

/-- The tags whose SNBT printing parses back to the same tag (claim C2,
    amended): representable integer/array payloads, no Float/Double, strings
    and keys free of quote/backslash/newline characters, empty lists of
    element kind Int, distinct compound keys. -/
def cleanTag : Tag → Bool
  | .byte v => decide (-128 ≤ v ∧ v < 128)
  | .short v => decide (-(2 ^ 15) ≤ v ∧ v < 2 ^ 15)
  | .int v => decide (-(2 ^ 31) ≤ v ∧ v < 2 ^ 31)
  | .long v => decide (-(2 ^ 63) ≤ v ∧ v < 2 ^ 63)
  | .float _ => false
  | .double _ => false
  | .byteArray vs => vs.all (fun v => decide (-128 ≤ v ∧ v < 128))
  | .intArray vs => vs.all (fun v => decide (-(2 ^ 31) ≤ v ∧ v < 2 ^ 31))
  | .longArray vs => vs.all (fun v => decide (-(2 ^ 63) ≤ v ∧ v < 2 ^ 63))
  | .string s => cleanStr s
  | .list k ts => (!ts.isEmpty || k = .int) && cleanItems k ts
  | .compound es => nodupKeys es && cleanEntries es

def cleanItems : NbtKind → List Tag → Bool
  | _, [] => true
  | k, t :: ts => t.kind = k && cleanTag t && cleanItems k ts

def cleanEntries : List (List Char × Tag) → Bool
  | [] => true
  | (k, v) :: es => cleanStr k && cleanTag v && cleanEntries es

end

/-- The contribution of the second and later operands to `','.join`:
    each is preceded by a comma. -/
def tailJoinComma : List (List Char) → List Char
  | [] => []
  | w :: ws => ',' :: (w ++ tailJoinComma ws)

/-- The next input character (if any) cannot extend an unquoted token. -/
def delimHead : List Char → Bool
  | [] => true
  | c :: _ => !isUnquotedChar c

/-! ## Basic lemmas -/

theorem uofNat_toNat (n : Nat) : (UInt32.ofNat n).toNat = n % 4294967296 := rfl

theorem char_toNat_lt (c : Char) : c.toNat < 1114112 := by
  rcases c.valid with h | ⟨_, h2⟩
  · simp [Char.toNat] at h ⊢
    omega
  · simp [Char.toNat] at h2 ⊢
    omega

theorem charMk_eq (c : Char) {n : Nat} (h) (hn : n = c.toNat) :
    (⟨UInt32.ofNat n, h⟩ : Char) = c := by
  apply Char.ext
  apply UInt32.ext
  rw [uofNat_toNat]
  subst hn
  have h2 := char_toNat_lt c
  simp [Char.toNat] at h2 ⊢
  omega

theorem charOfNatAux_toNat {n : Nat} (hv : n.isValidChar) : (Char.ofNatAux n hv).toNat = n := rfl

theorem charOfNat_toNat {n : Nat} (hv : n.isValidChar) : (Char.ofNat n).toNat = n := by
  rw [Char.ofNat, dif_pos hv]
  exact charOfNatAux_toNat hv

theorem obind_some_eq {α β : Type} (a : α) (f : α → Option β) :
    ((some a : Option α) >>= f) = f a := rfl

theorem obind_some {α β : Type} {x : Option α} {f : α → Option β} {b : β}
    (h : (x >>= f) = some b) : ∃ a, x = some a ∧ f a = some b := by
  cases x with
  | none => simp at h
  | some a =>
    refine ⟨a, rfl, ?_⟩
    simpa using h

theorem beBytesToNat_append (xs : List Nat) (b : Nat) :
    beBytesToNat (xs ++ [b]) = beBytesToNat xs * 256 + b := by
  simp [beBytesToNat, List.foldl_append]

theorem natToBEBytes_length (k n : Nat) : (natToBEBytes k n).length = k := by
  induction k generalizing n with
  | zero => rfl
  | succ k ih => simp [natToBEBytes, ih]

theorem beBytesToNat_natToBEBytes (k n : Nat) :
    beBytesToNat (natToBEBytes k n) = n % 256 ^ k := by
  induction k generalizing n with
  | zero => simp [natToBEBytes, beBytesToNat, Nat.mod_one]
  | succ k ih =>
    rw [natToBEBytes, beBytesToNat_append, ih]
    have hd : n % (256 * 256 ^ k) / 256 = n / 256 % 256 ^ k :=
      Nat.mod_mul_right_div_self n 256 (256 ^ k)
    have hm : n % (256 * 256 ^ k) % 256 = n % 256 :=
      Nat.mod_mod_of_dvd n ⟨256 ^ k, by ring⟩
    have hsplit := Nat.div_add_mod (n % (256 * 256 ^ k)) 256
    have : (256 : Nat) ^ (k + 1) = 256 * 256 ^ k := by ring
    rw [this]
    omega

theorem pow256_eq (k : Nat) : (256 : Nat) ^ k = 2 ^ (8 * k) := by
  rw [show (256 : Nat) = 2 ^ 8 from rfl, ← pow_mul]

/-- `unpack(pack(v)) = v` for the signed big-endian formats.  `H` and `T` are
    the (literal) half range and full range `2^(8k-1)` and `2^(8k)`. -/
theorem packSigned_roundtrip (k : Nat) (H T : Int)
    (hH : (2 : Int) ^ (8 * k - 1) = H) (hT : (2 : Int) ^ (8 * k) = T)
    (hHn : ((2 ^ (8 * k - 1) : Nat) : Int) = H) (hTn : ((2 ^ (8 * k) : Nat) : Int) = T)
    (hTH : T = 2 * H) (hHpos : 0 < H)
    (v : Int) (h1 : -H ≤ v) (h2 : v < H) :
    ∃ bs, packSigned k v = some bs ∧ bs.length = k ∧ beBytesToInt k bs = v := by
  have hTpos : 0 < T := by omega
  have hv1 : 0 ≤ v % T := Int.emod_nonneg v (by omega)
  have hv2 : v % T < T := Int.emod_lt_of_pos v hTpos
  have hcase : v % T = v ∨ v % T = v + T := by
    rcases le_or_lt 0 v with hv | hv
    · left
      exact Int.emod_eq_of_lt hv (by omega)
    · right
      have heq : (v + T) % T = v % T := by
        simpa using Int.add_mul_emod_self_left (a := v) (b := T) (c := 1)
      rw [← heq]
      exact Int.emod_eq_of_lt (by omega) (by omega)
  have hpack : packSigned k v = some (natToBEBytes k (v % 2 ^ (8 * k)).toNat) := by
    rw [packSigned, if_pos]
    constructor
    · omega
    · omega
  refine ⟨_, hpack, natToBEBytes_length _ _, ?_⟩
  rw [beBytesToInt]
  simp only [beBytesToNat_natToBEBytes, pow256_eq]
  have hvT : v % 2 ^ (8 * k) = v % T := by rw [hT]
  have htoNat : ((v % 2 ^ (8 * k)).toNat : Int) = v % T := by
    rw [hvT]
    exact Int.toNat_of_nonneg hv1
  have hltT : (v % 2 ^ (8 * k)).toNat < 2 ^ (8 * k) := by
    have hc : ((v % 2 ^ (8 * k)).toNat : Int) < ((2 ^ (8 * k) : Nat) : Int) := by
      rw [htoNat, hTn]
      omega
    exact_mod_cast hc
  rw [Nat.mod_eq_of_lt hltT]
  split
  · rename_i hlt
    have hc : ((v % 2 ^ (8 * k)).toNat : Int) < ((2 ^ (8 * k - 1) : Nat) : Int) := by
      exact_mod_cast hlt
    rw [htoNat, hHn] at hc
    rw [htoNat]
    omega
  · rename_i hge
    have hge2 : (2 ^ (8 * k - 1) : Nat) ≤ (v % 2 ^ (8 * k)).toNat := by omega
    have hc : ((2 ^ (8 * k - 1) : Nat) : Int) ≤ ((v % 2 ^ (8 * k)).toNat : Int) := by
      exact_mod_cast hge2
    rw [htoNat, hHn] at hc
    rw [htoNat, hT]
    omega

/-! ## Claim C4: integer constructors wrap two's-complement -/

theorem tagNumberInit_formula (m h : Int) (hm : m = 2 * h) (hh : 0 < h) (v : Int) :
    tagNumberInit m v = ((v + m / 2) % m) - m / 2 := by
  have hne : m ≠ 0 := by omega
  have hv1 : 0 ≤ v % m := Int.emod_nonneg v hne
  have hv2 : v % m < m := Int.emod_lt_of_pos v (by omega)
  have hdiv : m / 2 = h := by omega
  have hw1 : 0 ≤ (v + h) % m := Int.emod_nonneg (v + h) hne
  have hw2 : (v + h) % m < m := Int.emod_lt_of_pos (v + h) (by omega)
  have hhm : h % m = h := Int.emod_eq_of_lt (by omega) (by omega)
  have hsub : (v + h) % m = (v % m + h) % m := by
    rw [Int.add_emod, hhm]
  have hcase : (v % m + h) % m = v % m + h ∨ (v % m + h) % m = v % m + h - m := by
    rcases lt_or_le (v % m + h) m with hlt | hge
    · left
      exact Int.emod_eq_of_lt (by omega) hlt
    · right
      have heq : (v % m + h - m) % m = (v % m + h) % m := by
        have := Int.add_mul_emod_self_left (a := v % m + h - m) (b := m) (c := 1)
        simpa using this.symm
      rw [← heq]
      exact Int.emod_eq_of_lt (by omega) (by omega)
  unfold tagNumberInit
  rw [hdiv, hsub]
  split <;> omega

/-- C4: for every integer tag variant with modulus `M = 2^width`
    (`TagByte`, `TagShort`, `TagInt`, `TagLong`) and every integer `v`, the
    constructor stores `((v + M/2) mod M) - M/2` — two's-complement truncation
    to the signed range — and the `value` setter (which re-runs `__init__`)
    stores the same. -/
theorem c4_integer_constructors_wrap : ∀ v : Int,
    TagByte.init v = .byte (((v + 2 ^ 7) % 2 ^ 8) - 2 ^ 7) ∧
    TagShort.init v = .short (((v + 2 ^ 15) % 2 ^ 16) - 2 ^ 15) ∧
    TagInt.init v = .int (((v + 2 ^ 31) % 2 ^ 32) - 2 ^ 31) ∧
    TagLong.init v = .long (((v + 2 ^ 63) % 2 ^ 64) - 2 ^ 63) ∧
    (∀ old, tagNumberSetValue (2 ^ 8) old v = ((v + 2 ^ 7) % 2 ^ 8) - 2 ^ 7) ∧
    (∀ old, tagNumberSetValue (2 ^ 16) old v = ((v + 2 ^ 15) % 2 ^ 16) - 2 ^ 15) ∧
    (∀ old, tagNumberSetValue (2 ^ 32) old v = ((v + 2 ^ 31) % 2 ^ 32) - 2 ^ 31) ∧
    (∀ old, tagNumberSetValue (2 ^ 64) old v = ((v + 2 ^ 63) % 2 ^ 64) - 2 ^ 63) := by
  intro v
  have h8 := tagNumberInit_formula (2 ^ 8) (2 ^ 7) (by norm_num) (by norm_num) v
  have h16 := tagNumberInit_formula (2 ^ 16) (2 ^ 15) (by norm_num) (by norm_num) v
  have h32 := tagNumberInit_formula (2 ^ 32) (2 ^ 31) (by norm_num) (by norm_num) v
  have h64 := tagNumberInit_formula (2 ^ 64) (2 ^ 63) (by norm_num) (by norm_num) v
  have e8 : (2 : Int) ^ 8 / 2 = 2 ^ 7 := by norm_num
  have e16 : (2 : Int) ^ 16 / 2 = 2 ^ 15 := by norm_num
  have e32 : (2 : Int) ^ 32 / 2 = 2 ^ 31 := by norm_num
  have e64 : (2 : Int) ^ 64 / 2 = 2 ^ 63 := by norm_num
  rw [e8] at h8
  rw [e16] at h16
  rw [e32] at h32
  rw [e64] at h64
  refine ⟨?_, ?_, ?_, ?_, ?_, ?_, ?_, ?_⟩
  · rw [TagByte.init, h8]
  · rw [TagShort.init, h16]
  · rw [TagInt.init, h32]
  · rw [TagLong.init, h64]
  · intro old
    rw [tagNumberSetValue, h8]
  · intro old
    rw [tagNumberSetValue, h16]
  · intro old
    rw [tagNumberSetValue, h32]
  · intro old
    rw [tagNumberSetValue, h64]

/-! ## Claim C5: `TagString.write` length limit -/

theorem utf8Encode_replicate_a (n : Nat) :
    (utf8Encode (List.replicate n 'a')).length = n := by
  induction n with
  | zero => rfl
  | succ n ih =>
    rw [List.replicate_succ]
    show (utf8EncodeChar 'a' ++ utf8Encode (List.replicate n 'a')).length = n + 1
    rw [List.length_append, ih, show utf8EncodeChar 'a' = [97] from rfl]
    simp
    omega

/-- C5 counterexample: a 32768-byte string is within the claimed 65535-byte
    limit, yet `TagString.write` fails on it (the length prefix is packed with
    the *signed* `>h` format). -/
theorem c5_counterexample :
    (utf8Encode (List.replicate 32768 'a')).length ≤ 65535 ∧
    TagString.write (List.replicate 32768 'a') = none := by
  have h := utf8Encode_replicate_a 32768
  constructor
  · omega
  · show (packSigned 2 ((utf8Encode (List.replicate 32768 'a')).length : Int)).map
      (· ++ utf8Encode (List.replicate 32768 'a')) = none
    rw [h]
    norm_num [packSigned]

/-- C5 (amended): writing a `TagString` succeeds exactly when the UTF-8
    encoding of its value is at most 32767 bytes — the bound of the signed
    16-bit length prefix `struct.Struct('>h')` — not 65535. -/
theorem c5_string_write_length_limit (s : List Char) :
    (TagString.write s).isSome = true ↔ (utf8Encode s).length ≤ 32767 := by
  show ((packSigned 2 ((utf8Encode s).length : Int)).map (· ++ utf8Encode s)).isSome = true ↔ _
  rw [packSigned]
  split
  · rename_i hcond
    simp only [Option.map_some', Option.isSome_some, true_iff]
    norm_num at hcond
    omega
  · rename_i hcond
    simp only [Option.map_none', Option.isSome_none, Bool.false_eq_true, false_iff]
    norm_num at hcond
    omega

/-! ## Claim C6: array element assignment -/

/-- C6 counterexample: assigning 128 to element 0 of a byte array raises
    `OverflowError` (`none`); the claim predicted success with the wrapped
    value `-128` stored. -/
theorem c6_counterexample :
    TagNumberArray.setitem 128 [0] 0 128 = none ∧
    tagNumberInit 256 128 = -128 ∧
    TagNumberArray.setitem 128 [0] 0 128 ≠ some [tagNumberInit 256 128] := by
  refine ⟨by decide, by decide, by decide⟩

/-- C6 (amended): at a valid index, element assignment on a number-array tag
    stores an in-range value exactly (where the scalar constructor's wrap is
    also the identity), and *fails* with `OverflowError` for a value outside
    the element type's signed range instead of wrapping. -/
theorem c6_array_setitem (half : Int) (arr : List Int) (index value i : Int)
    (hhalf : 0 < half)
    (hi : i = if index < 0 then index + (arr.length : Int) else index)
    (hidx : 0 ≤ i ∧ i < (arr.length : Int)) :
    ((-half ≤ value ∧ value < half) →
      TagNumberArray.setitem half arr index value = some (arr.set i.toNat value) ∧
      tagNumberInit (2 * half) value = value) ∧
    (¬(-half ≤ value ∧ value < half) →
      TagNumberArray.setitem half arr index value = none) := by
  subst hi
  constructor
  · intro hrange
    constructor
    · unfold TagNumberArray.setitem
      rw [if_pos hidx, if_pos hrange]
    · have hne : (2 * half) ≠ 0 := by omega
      have hv1 : 0 ≤ value % (2 * half) := Int.emod_nonneg value hne
      have hv2 : value % (2 * half) < 2 * half := Int.emod_lt_of_pos value (by omega)
      have hdiv : (2 * half) / 2 = half := by omega
      have hcase : value % (2 * half) = value ∨ value % (2 * half) = value + 2 * half := by
        rcases le_or_lt 0 value with hv | hv
        · left
          exact Int.emod_eq_of_lt hv (by omega)
        · right
          have heq : (value + 2 * half) % (2 * half) = value % (2 * half) := by
            simpa using Int.add_mul_emod_self_left (a := value) (b := 2 * half) (c := 1)
          rw [← heq]
          exact Int.emod_eq_of_lt (by omega) (by omega)
      unfold tagNumberInit
      split <;> omega
  · intro hrange
    unfold TagNumberArray.setitem
    rw [if_pos hidx, if_neg hrange]

/-- Witness for C6 at concrete inputs (half = 128, array `[1,2]`,
    index `-1` resolving to position 1, value `127`). -/
theorem c6_array_setitem_witness :
    TagNumberArray.setitem 128 [1, 2] (-1) 127 = some ([1, 2].set (1 : Int).toNat 127) ∧
    tagNumberInit (2 * 128) 127 = 127 :=
  (c6_array_setitem 128 [1, 2] (-1) 127 1 (by norm_num) (by norm_num)
    (by norm_num)).1 (by norm_num)

/-! ## Claim C9: `TagList.insert` -/

theorem Tag.kind_ne_end : ∀ t : Tag, t.kind ≠ .end_ := by
  intro t
  cases t <;> simp [Tag.kind]

/-- C9: inserting any tag into a list whose `item_cls` is the base `Tag`
    (kind End) always succeeds and the list adopts the inserted tag's concrete
    class; inserting a tag of a different class into a list with a concrete
    `item_cls` raises `NbtInvalidOperation` (`none`), leaving the list
    unchanged. -/
theorem c9_list_insert :
    (∀ items index tag, TagList.insert .end_ items index tag =
      some (tag.kind, pyListInsert items index tag)) ∧
    (∀ k items index tag, k ≠ .end_ → tag.kind ≠ k →
      TagList.insert k items index tag = none) := by
  constructor
  · intro items index tag
    unfold TagList.insert
    rw [if_pos (Tag.kind_ne_end tag), if_pos rfl]
  · intro k items index tag hk hne
    unfold TagList.insert
    rw [if_pos hne, if_neg hk]

/-- Witness for C9 at concrete inputs. -/
theorem c9_list_insert_witness :
    TagList.insert .end_ [] 0 (.byte 1) = some ((Tag.byte 1).kind, pyListInsert [] 0 (.byte 1)) ∧
    TagList.insert .byte [] 0 (.string []) = none :=
  ⟨c9_list_insert.1 [] 0 (.byte 1),
   c9_list_insert.2 .byte [] 0 (.string []) (by decide) (by simp [Tag.kind])⟩

/-! ## UTF-8 round-trip -/

theorem char_valid_ranges (c : Char) :
    c.toNat < 55296 ∨ (57343 < c.toNat ∧ c.toNat < 1114112) := c.valid

theorem utf8DecodeChar_encode (c : Char) (rest : List Nat) :
    utf8DecodeChar (utf8EncodeChar c ++ rest) = some (c, rest) := by
  have hval := char_valid_ranges c
  rw [utf8EncodeChar]
  by_cases h1 : c.toNat < 128
  · rw [if_pos h1]
    show utf8DecodeChar (c.toNat :: rest) = some (c, rest)
    rw [utf8DecodeChar.eq_def]
    simp only
    rw [dif_pos h1]
    exact congrArg (fun x => some (x, rest)) (charMk_eq c _ rfl)
  · rw [if_neg h1]
    by_cases h2 : c.toNat < 2048
    · rw [if_pos h2]
      show utf8DecodeChar ((192 + c.toNat / 64) :: (128 + c.toNat % 64) :: rest) =
        some (c, rest)
      rw [utf8DecodeChar.eq_def]
      simp only
      rw [dif_neg (by omega)]
      rw [if_pos (by constructor; omega; constructor; omega; constructor; omega; omega)]
      rw [dif_pos (by omega)]
      exact congrArg (fun x => some (x, rest)) (charMk_eq c _ (by omega))
    · rw [if_neg h2]
      by_cases h3 : c.toNat < 65536
      · rw [if_pos h3]
        show utf8DecodeChar ((224 + c.toNat / 4096) :: (128 + c.toNat / 64 % 64) ::
          (128 + c.toNat % 64) :: rest) = some (c, rest)
        rw [utf8DecodeChar.eq_def]
        simp only
        rw [dif_neg (by omega)]
        rw [if_neg (by omega)]
        rw [if_pos (by refine ⟨by omega, by omega, by omega, by omega, by omega, by omega,
          by omega, by omega⟩)]
        rw [dif_pos (by omega)]
        exact congrArg (fun x => some (x, rest)) (charMk_eq c _ (by omega))
      · rw [if_neg h3]
        show utf8DecodeChar ((240 + c.toNat / 262144) :: (128 + c.toNat / 4096 % 64) ::
          (128 + c.toNat / 64 % 64) :: (128 + c.toNat % 64) :: rest) = some (c, rest)
        rw [utf8DecodeChar.eq_def]
        simp only
        rw [dif_neg (by omega)]
        rw [if_neg (by omega)]
        rw [if_neg (by omega)]
        rw [if_pos (by refine ⟨by omega, by omega, by omega, by omega, by omega, by omega,
          by omega, by omega, by omega, by omega⟩)]
        rw [dif_pos (by omega)]
        exact congrArg (fun x => some (x, rest)) (charMk_eq c _ (by omega))

theorem utf8EncodeChar_ne_nil (c : Char) : utf8EncodeChar c ≠ [] := by
  rw [utf8EncodeChar]
  split_ifs <;> simp

theorem utf8DecodeAux_encode : ∀ (cs : List Char) (fuel : Nat),
    (utf8Encode cs).length ≤ fuel → utf8DecodeAux fuel (utf8Encode cs) = some cs := by
  intro cs
  induction cs with
  | nil =>
    intro fuel h
    rw [utf8Encode]
    match fuel with
    | 0 => rfl
    | fuel + 1 => rfl
  | cons c cs ih =>
    intro fuel h
    rw [utf8Encode] at h ⊢
    have hne := utf8EncodeChar_ne_nil c
    have hpos : 0 < (utf8EncodeChar c).length := List.length_pos.mpr hne
    match fuel with
    | 0 =>
      exfalso
      rw [List.length_append] at h
      omega
    | fuel + 1 =>
      obtain ⟨b0, bs, hb⟩ := List.exists_cons_of_ne_nil hne
      rw [hb, List.cons_append, utf8DecodeAux.eq_def]
      simp only
      rw [← List.cons_append, ← hb, utf8DecodeChar_encode c (utf8Encode cs)]
      simp only
      rw [ih fuel (by rw [List.length_append] at h; omega)]
      rfl

theorem utf8Decode_encode (cs : List Char) : utf8Decode (utf8Encode cs) = some cs :=
  utf8DecodeAux_encode cs _ le_rfl

/-! ## Length-prefixed string round-trip -/

theorem takeExact_append (k : Nat) (a b : List Nat) (ha : a.length = k) :
    takeExact k (a ++ b) = some (a, b) := by
  subst ha
  rw [takeExact, if_pos (by rw [List.length_append]; omega)]
  rw [List.take_left, List.drop_left]

theorem readLenStr_roundtrip (name : List Char) (rest w : List Nat)
    (hlen : (utf8Encode name).length < 2 ^ 15)
    (hw : compound_write_name name = some w) :
    readLenStr (w ++ rest) = some (name, rest) := by
  obtain ⟨bs, hpack, hbslen, hbsval⟩ :=
    packSigned_roundtrip 2 32768 65536 (by norm_num) (by norm_num) (by norm_num)
      (by norm_num) (by norm_num) (by norm_num) ((utf8Encode name).length : Int)
      (by omega) (by exact_mod_cast (by omega : (utf8Encode name).length < 32768))
  rw [compound_write_name, hpack] at hw
  have hw2 : w = bs ++ utf8Encode name := (Option.some.inj hw).symm
  subst hw2
  rw [List.append_assoc, readLenStr]
  rw [takeExact_append 2 bs _ hbslen]
  show (do
    let size := beBytesToInt 2 bs
    let raw := if size < 0 then utf8Encode name ++ rest
      else (utf8Encode name ++ rest).take size.toNat
    let rest2 := if size < 0 then ([] : List Nat)
      else (utf8Encode name ++ rest).drop size.toNat
    (utf8Decode raw).map (fun s => (s, rest2)) : Option (List Char × List Nat)) =
    some (name, rest)
  rw [hbsval]
  have hnn : ¬ ((utf8Encode name).length : Int) < 0 := by omega
  dsimp only
  rw [if_neg hnn, if_neg hnn]
  have htn : ((utf8Encode name).length : Int).toNat = (utf8Encode name).length := by omega
  rw [htn, List.take_left, List.drop_left, utf8Decode_encode]
  rfl

/-! ## Packing helpers for the binary round-trip -/

theorem packSigned_length (k : Nat) (v : Int) (w : List Nat)
    (h : packSigned k v = some w) : w.length = k := by
  rw [packSigned] at h
  split at h
  · have h2 := Option.some.inj h
    subst h2
    exact natToBEBytes_length _ _
  · exact absurd h (by simp)

theorem packSigned1_small (n : Nat) (h : n < 128) : packSigned 1 (n : Int) = some [n] := by
  have hc : -(2 ^ (8 * 1 - 1) : Int) ≤ (n : Int) ∧ (n : Int) < 2 ^ (8 * 1 - 1) := by
    norm_num
    omega
  rw [packSigned, if_pos hc]
  have h1 : ((n : Int) % 2 ^ (8 * 1)).toNat = n := by
    norm_num
    omega
  rw [h1]
  have h2 : n % 256 = n := Nat.mod_eq_of_lt (by omega)
  show some ([] ++ [n % 256]) = some [n]
  rw [h2]
  rfl

theorem NbtKind.tagid_le (k : NbtKind) : k.tagid ≤ 12 := by
  cases k <;> simp [NbtKind.tagid]

theorem NbtKind.tagid_pos (k : NbtKind) (hk : k ≠ .end_) : 1 ≤ k.tagid := by
  cases k <;> simp [NbtKind.tagid] at hk ⊢

theorem kindOfTagid_tagid (k : NbtKind) : kindOfTagid k.tagid = some k := by
  cases k <;> rfl

theorem packAll_roundtrip (k : Nat) (H T : Int)
    (hH : (2 : Int) ^ (8 * k - 1) = H) (hT : (2 : Int) ^ (8 * k) = T)
    (hHn : ((2 ^ (8 * k - 1) : Nat) : Int) = H) (hTn : ((2 ^ (8 * k) : Nat) : Int) = T)
    (hTH : T = 2 * H) (hHpos : 0 < H) :
    ∀ (vs : List Int) (rest : List Nat), (∀ v ∈ vs, -H ≤ v ∧ v < H) →
    ∃ w, packAll k vs = some w ∧ w.length = vs.length * k ∧
      groupInts k vs.length (w ++ rest) = vs := by
  intro vs
  induction vs with
  | nil =>
    intro rest _
    exact ⟨[], rfl, by simp, rfl⟩
  | cons v vs ih =>
    intro rest hr
    have hv := hr v (by simp)
    have hvs : ∀ x ∈ vs, -H ≤ x ∧ x < H := fun x hx => hr x (by simp [hx])
    obtain ⟨bs, hpack, hbslen, hbsval⟩ :=
      packSigned_roundtrip k H T hH hT hHn hTn hTH hHpos v hv.1 hv.2
    obtain ⟨w2, hw2, hw2len, hw2grp⟩ := ih rest hvs
    refine ⟨bs ++ w2, ?_, ?_, ?_⟩
    · rw [packAll, hpack, hw2]
      rfl
    · rw [List.length_append, hbslen, hw2len, List.length_cons]
      ring
    · rw [List.length_cons, groupInts, List.append_assoc]
      rw [← hbslen, List.take_left, List.drop_left, hbslen, hbsval, hw2grp]

/-! ## Measure bounds: the canonical encoding funds the reader's fuel -/

theorem tagMu_pos (t : Tag) : 1 ≤ tagMu t := by
  cases t <;> simp [tagMu]

theorem elemsMu_pos (ts : List Tag) : 1 ≤ elemsMu ts := by
  cases ts <;> simp [elemsMu]

theorem entriesMu_pos (es : List (List Char × Tag)) : 1 ≤ entriesMu es := by
  cases es with
  | nil => simp [entriesMu]
  | cons e es =>
    obtain ⟨k, v⟩ := e
    simp [entriesMu]

theorem writePayload_len_pos : ∀ (t : Tag) (w : List Nat),
    writePayload t = some w → 1 ≤ w.length := by
  intro t w h
  cases t with
  | byte v =>
    rw [writePayload] at h
    rw [packSigned_length 1 v w h]
  | short v =>
    rw [writePayload] at h
    rw [packSigned_length 2 v w h]
    omega
  | int v =>
    rw [writePayload] at h
    rw [packSigned_length 4 v w h]
    omega
  | long v =>
    rw [writePayload] at h
    rw [packSigned_length 8 v w h]
    omega
  | float bits =>
    rw [writePayload] at h
    have h2 := Option.some.inj h
    subst h2
    rw [natToBEBytes_length]
    omega
  | double bits =>
    rw [writePayload] at h
    have h2 := Option.some.inj h
    subst h2
    rw [natToBEBytes_length]
    omega
  | byteArray vs =>
    rw [writePayload, writeArrayPayload] at h
    obtain ⟨cnt, hcnt, h⟩ := obind_some h
    obtain ⟨body, hbody, h⟩ := obind_some h
    have h2 := Option.some.inj h
    subst h2
    rw [List.length_append, packSigned_length 4 _ _ hcnt]
    omega
  | intArray vs =>
    rw [writePayload, writeArrayPayload] at h
    obtain ⟨cnt, hcnt, h⟩ := obind_some h
    obtain ⟨body, hbody, h⟩ := obind_some h
    have h2 := Option.some.inj h
    subst h2
    rw [List.length_append, packSigned_length 4 _ _ hcnt]
    omega
  | longArray vs =>
    rw [writePayload, writeArrayPayload] at h
    obtain ⟨cnt, hcnt, h⟩ := obind_some h
    obtain ⟨body, hbody, h⟩ := obind_some h
    have h2 := Option.some.inj h
    subst h2
    rw [List.length_append, packSigned_length 4 _ _ hcnt]
    omega
  | string s =>
    rw [writePayload, TagString.write] at h
    obtain ⟨bs, hbs, h2⟩ := Option.map_eq_some'.mp h
    subst h2
    rw [List.length_append, packSigned_length 2 _ _ hbs]
    omega
  | list k ts =>
    rw [writePayload] at h
    obtain ⟨kb, hkb, h⟩ := obind_some h
    obtain ⟨cnt, hcnt, h⟩ := obind_some h
    obtain ⟨body, hbody, h⟩ := obind_some h
    have h2 := Option.some.inj h
    subst h2
    rw [List.length_append, List.length_append, packSigned_length 1 _ _ hkb]
    omega
  | compound es =>
    rw [writePayload] at h
    obtain ⟨body, hbody, h⟩ := obind_some h
    have h2 := Option.some.inj h
    subst h2
    rw [List.length_append]
    simp

theorem muBound : ∀ n : Nat,
    (∀ (t : Tag) (w : List Nat), tagMu t ≤ n → writePayload t = some w →
      tagMu t ≤ w.length + 1) ∧
    (∀ (ts : List Tag) (w : List Nat), elemsMu ts ≤ n → writeItems ts = some w →
      elemsMu ts ≤ w.length + 2) ∧
    (∀ (es : List (List Char × Tag)) (w : List Nat), entriesMu es ≤ n →
      writeEntries es = some w → entriesMu es ≤ w.length + 1) := by
  intro n
  induction n with
  | zero =>
    refine ⟨fun t w hmu _ => absurd hmu (by have := tagMu_pos t; omega),
      fun ts w hmu _ => absurd hmu (by have := elemsMu_pos ts; omega),
      fun es w hmu _ => absurd hmu (by have := entriesMu_pos es; omega)⟩
  | succ n ih =>
    obtain ⟨ihT, ihI, ihE⟩ := ih
    refine ⟨?_, ?_, ?_⟩
    · intro t w hmu hw
      cases t with
      | list k ts =>
        rw [writePayload] at hw
        obtain ⟨kb, hkb, hw⟩ := obind_some hw
        obtain ⟨cnt, hcnt, hw⟩ := obind_some hw
        obtain ⟨body, hbody, hw⟩ := obind_some hw
        have h2 := Option.some.inj hw
        subst h2
        rw [tagMu] at hmu ⊢
        have hb := ihI ts body (by omega) hbody
        rw [List.length_append, List.length_append, packSigned_length 1 _ _ hkb,
          packSigned_length 4 _ _ hcnt]
        omega
      | compound es =>
        rw [writePayload] at hw
        obtain ⟨body, hbody, hw⟩ := obind_some hw
        have h2 := Option.some.inj hw
        subst h2
        rw [tagMu] at hmu ⊢
        have hb := ihE es body (by omega) hbody
        rw [List.length_append]
        simp only [List.length_cons, List.length_nil]
        omega
      | byte v =>
        have h1 : tagMu (Tag.byte v) = 1 := rfl
        omega
      | short v =>
        have h1 : tagMu (Tag.short v) = 1 := rfl
        omega
      | int v =>
        have h1 : tagMu (Tag.int v) = 1 := rfl
        omega
      | long v =>
        have h1 : tagMu (Tag.long v) = 1 := rfl
        omega
      | float bits =>
        have h1 : tagMu (Tag.float bits) = 1 := rfl
        omega
      | double bits =>
        have h1 : tagMu (Tag.double bits) = 1 := rfl
        omega
      | byteArray vs =>
        have h1 : tagMu (Tag.byteArray vs) = 1 := rfl
        omega
      | intArray vs =>
        have h1 : tagMu (Tag.intArray vs) = 1 := rfl
        omega
      | longArray vs =>
        have h1 : tagMu (Tag.longArray vs) = 1 := rfl
        omega
      | string s =>
        have h1 : tagMu (Tag.string s) = 1 := rfl
        omega
    · intro ts w hmu hw
      cases ts with
      | nil =>
        rw [elemsMu]
        omega
      | cons t ts =>
        rw [writeItems] at hw
        obtain ⟨wt, hwt, hw⟩ := obind_some hw
        obtain ⟨wts, hwts, hw⟩ := obind_some hw
        have h2 := Option.some.inj hw
        subst h2
        rw [elemsMu] at hmu ⊢
        have h1 := ihT t wt (by omega) hwt
        have h3 := ihI ts wts (by omega) hwts
        have h4 := writePayload_len_pos t wt hwt
        rw [List.length_append]
        omega
    · intro es w hmu hw
      cases es with
      | nil =>
        rw [entriesMu]
        omega
      | cons e es =>
        obtain ⟨name, v⟩ := e
        rw [writeEntries] at hw
        obtain ⟨tb, htb, hw⟩ := obind_some hw
        obtain ⟨nb, hnb, hw⟩ := obind_some hw
        obtain ⟨wv, hwv, hw⟩ := obind_some hw
        obtain ⟨wes, hwes, hw⟩ := obind_some hw
        have h2 := Option.some.inj hw
        subst h2
        rw [entriesMu] at hmu ⊢
        have h1 := ihT v wv (by omega) hwv
        have h3 := ihE es wes (by omega) hwes
        have h4 := writePayload_len_pos v wv hwv
        have h5 := packSigned_length 1 _ _ htb
        rw [List.length_append, List.length_append, List.length_append]
        omega

/-! ## Dict helpers -/

theorem keyMem_append (k : List Char) (a b : List (List Char × Tag)) :
    keyMem k (a ++ b) = (keyMem k a || keyMem k b) := by
  induction a with
  | nil => simp [keyMem]
  | cons e a ih =>
    obtain ⟨k', v'⟩ := e
    rw [List.cons_append, keyMem, keyMem, ih, Bool.or_assoc]

theorem dictInsert_not_mem (acc : List (List Char × Tag)) (k : List Char) (v : Tag)
    (h : keyMem k acc = false) : dictInsert acc k v = acc ++ [(k, v)] := by
  induction acc with
  | nil => rfl
  | cons e acc ih =>
    obtain ⟨k', v'⟩ := e
    rw [keyMem] at h
    have h2 : (k = k') = False := by
      by_contra hne
      simp at hne
      simp [hne] at h
    rw [dictInsert, if_neg (by simp at h2 ⊢; exact fun he => h2 he.symm)]
    rw [List.cons_append, ih (by simp at h; simp [h.2])]

theorem keyMem_false_forall (k : List Char) (es : List (List Char × Tag))
    (h : keyMem k es = false) : ∀ p ∈ es, p.1 ≠ k := by
  induction es with
  | nil => simp
  | cons e es ih =>
    obtain ⟨k', v'⟩ := e
    rw [keyMem] at h
    simp only [Bool.or_eq_false_iff] at h
    intro p hp
    rcases List.mem_cons.mp hp with hp | hp
    · subst hp
      simp only [decide_eq_false_iff_not] at h
      exact fun he => h.1 he.symm
    · exact ih h.2 p hp

/-! ## The binary decode inverts the canonical encode -/

theorem readWrite_inv : ∀ fuel : Nat,
    (∀ (t : Tag) (w rest : List Nat), wfTag t = true → writePayload t = some w →
      tagMu t ≤ fuel → readPayload fuel t.kind (w ++ rest) = some (t, rest)) ∧
    (∀ (k : NbtKind) (ts : List Tag) (w rest : List Nat), wfItems k ts = true →
      writeItems ts = some w → elemsMu ts ≤ fuel →
      readElems fuel k ts.length (w ++ rest) = some (ts, rest)) ∧
    (∀ (es : List (List Char × Tag)) (w rest : List Nat)
      (acc : List (List Char × Tag)), nodupKeys es = true → wfEntries es = true →
      (∀ p ∈ es, keyMem p.1 acc = false) → writeEntries es = some w →
      entriesMu es ≤ fuel →
      readEntries fuel acc (w ++ 0 :: rest) = some (acc ++ es, rest)) := by
  intro fuel
  induction fuel with
  | zero =>
    refine ⟨fun t w rest _ _ hmu => absurd hmu (by have := tagMu_pos t; omega),
      fun k ts w rest _ _ hmu => absurd hmu (by have := elemsMu_pos ts; omega),
      fun es w rest acc _ _ _ _ hmu => absurd hmu (by have := entriesMu_pos es; omega)⟩
  | succ fuel ih =>
    obtain ⟨ihP, ihQ, ihR⟩ := ih
    refine ⟨?_, ?_, ?_⟩
    · intro t w rest hwf hw hmu
      cases t with
      | byte v =>
        rw [wfTag, decide_eq_true_eq] at hwf
        rw [writePayload] at hw
        obtain ⟨bs, hpack, hlen, hval⟩ := packSigned_roundtrip 1 128 256 (by norm_num)
          (by norm_num) (by norm_num) (by norm_num) (by norm_num) (by norm_num) v
          (by omega) (by omega)
        rw [hpack] at hw
        have h2 := Option.some.inj hw
        subst h2
        show readPayload (fuel + 1) .byte (bs ++ rest) = some (.byte v, rest)
        rw [readPayload.eq_def]
        simp only
        rw [takeExact_append 1 bs rest hlen]
        simp only [Option.map_some']
        rw [hval]
      | short v =>
        rw [wfTag, decide_eq_true_eq] at hwf
        rw [writePayload] at hw
        obtain ⟨bs, hpack, hlen, hval⟩ := packSigned_roundtrip 2 32768 65536 (by norm_num)
          (by norm_num) (by norm_num) (by norm_num) (by norm_num) (by norm_num) v
          (by omega) (by omega)
        rw [hpack] at hw
        have h2 := Option.some.inj hw
        subst h2
        show readPayload (fuel + 1) .short (bs ++ rest) = some (.short v, rest)
        rw [readPayload.eq_def]
        simp only
        rw [takeExact_append 2 bs rest hlen]
        simp only [Option.map_some']
        rw [hval]
      | int v =>
        rw [wfTag, decide_eq_true_eq] at hwf
        rw [writePayload] at hw
        obtain ⟨bs, hpack, hlen, hval⟩ := packSigned_roundtrip 4 2147483648 4294967296
          (by norm_num) (by norm_num) (by norm_num) (by norm_num) (by norm_num)
          (by norm_num) v (by omega) (by omega)
        rw [hpack] at hw
        have h2 := Option.some.inj hw
        subst h2
        show readPayload (fuel + 1) .int (bs ++ rest) = some (.int v, rest)
        rw [readPayload.eq_def]
        simp only
        rw [takeExact_append 4 bs rest hlen]
        simp only [Option.map_some']
        rw [hval]
      | long v =>
        rw [wfTag, decide_eq_true_eq] at hwf
        rw [writePayload] at hw
        obtain ⟨bs, hpack, hlen, hval⟩ := packSigned_roundtrip 8 9223372036854775808
          18446744073709551616 (by norm_num) (by norm_num) (by norm_num) (by norm_num)
          (by norm_num) (by norm_num) v (by omega) (by omega)
        rw [hpack] at hw
        have h2 := Option.some.inj hw
        subst h2
        show readPayload (fuel + 1) .long (bs ++ rest) = some (.long v, rest)
        rw [readPayload.eq_def]
        simp only
        rw [takeExact_append 8 bs rest hlen]
        simp only [Option.map_some']
        rw [hval]
      | float bits =>
        rw [wfTag] at hwf
        simp only [Bool.and_eq_true, decide_eq_true_eq] at hwf
        rw [writePayload] at hw
        have h2 := Option.some.inj hw
        subst h2
        show readPayload (fuel + 1) .float (natToBEBytes 4 bits ++ rest) =
          some (.float bits, rest)
        rw [readPayload.eq_def]
        simp only
        rw [takeExact_append 4 _ rest (natToBEBytes_length 4 bits)]
        simp only [Option.map_some']
        rw [beBytesToNat_natToBEBytes, Nat.mod_eq_of_lt (by norm_num; exact hwf.1)]
      | double bits =>
        rw [wfTag, decide_eq_true_eq] at hwf
        rw [writePayload] at hw
        have h2 := Option.some.inj hw
        subst h2
        show readPayload (fuel + 1) .double (natToBEBytes 8 bits ++ rest) =
          some (.double bits, rest)
        rw [readPayload.eq_def]
        simp only
        rw [takeExact_append 8 _ rest (natToBEBytes_length 8 bits)]
        simp only [Option.map_some']
        rw [beBytesToNat_natToBEBytes, Nat.mod_eq_of_lt (by norm_num; exact hwf)]
      | string s =>
        rw [wfTag, decide_eq_true_eq] at hwf
        rw [writePayload] at hw
        have hw2 : compound_write_name s = some w := hw
        show readPayload (fuel + 1) .string (w ++ rest) = some (.string s, rest)
        rw [readPayload.eq_def]
        simp only
        rw [readLenStr_roundtrip s rest w hwf hw2]
        rfl
      | byteArray vs =>
        rw [wfTag] at hwf
        simp only [Bool.and_eq_true, decide_eq_true_eq, List.all_eq_true] at hwf
        rw [writePayload, writeArrayPayload] at hw
        obtain ⟨cnt, hcnt, hw⟩ := obind_some hw
        obtain ⟨body, hbody, hw⟩ := obind_some hw
        have h2 := Option.some.inj hw
        subst h2
        obtain ⟨cnt2, hpack, hclen, hcval⟩ := packSigned_roundtrip 4 2147483648 4294967296
          (by norm_num) (by norm_num) (by norm_num) (by norm_num) (by norm_num)
          (by norm_num) (vs.length : Int) (by omega) (by exact_mod_cast hwf.1)
        rw [hpack] at hcnt
        have h3 := Option.some.inj hcnt
        subst h3
        obtain ⟨body2, hpa, hblen, hgrp⟩ := packAll_roundtrip 1 128 256 (by norm_num)
          (by norm_num) (by norm_num) (by norm_num) (by norm_num) (by norm_num) vs []
          (fun v hv => by have := hwf.2 v hv; omega)
        rw [hpa] at hbody
        have h4 := Option.some.inj hbody
        subst h4
        show readPayload (fuel + 1) .byteArray ((cnt2 ++ body2) ++ rest) =
          some (.byteArray vs, rest)
        rw [readPayload.eq_def]
        simp only
        rw [readArrayPayload, List.append_assoc, takeExact_append 4 cnt2 _ hclen]
        rw [obind_some_eq]
        dsimp only
        rw [hcval]
        rw [if_neg (by omega)]
        have htn : ((vs.length : Int)).toNat = vs.length := by omega
        rw [htn]
        rw [takeExact_append _ body2 rest hblen]
        rw [obind_some_eq]
        dsimp only
        rw [List.append_nil] at hgrp
        rw [hgrp]
        rfl
      | intArray vs =>
        rw [wfTag] at hwf
        simp only [Bool.and_eq_true, decide_eq_true_eq, List.all_eq_true] at hwf
        rw [writePayload, writeArrayPayload] at hw
        obtain ⟨cnt, hcnt, hw⟩ := obind_some hw
        obtain ⟨body, hbody, hw⟩ := obind_some hw
        have h2 := Option.some.inj hw
        subst h2
        obtain ⟨cnt2, hpack, hclen, hcval⟩ := packSigned_roundtrip 4 2147483648 4294967296
          (by norm_num) (by norm_num) (by norm_num) (by norm_num) (by norm_num)
          (by norm_num) (vs.length : Int) (by omega) (by exact_mod_cast hwf.1)
        rw [hpack] at hcnt
        have h3 := Option.some.inj hcnt
        subst h3
        obtain ⟨body2, hpa, hblen, hgrp⟩ := packAll_roundtrip 4 2147483648 4294967296
          (by norm_num) (by norm_num) (by norm_num) (by norm_num) (by norm_num)
          (by norm_num) vs [] (fun v hv => by have := hwf.2 v hv; omega)
        rw [hpa] at hbody
        have h4 := Option.some.inj hbody
        subst h4
        show readPayload (fuel + 1) .intArray ((cnt2 ++ body2) ++ rest) =
          some (.intArray vs, rest)
        rw [readPayload.eq_def]
        simp only
        rw [readArrayPayload, List.append_assoc, takeExact_append 4 cnt2 _ hclen]
        rw [obind_some_eq]
        dsimp only
        rw [hcval]
        rw [if_neg (by omega)]
        have htn : ((vs.length : Int)).toNat = vs.length := by omega
        rw [htn]
        rw [takeExact_append _ body2 rest (by rw [hblen])]
        rw [obind_some_eq]
        dsimp only
        rw [List.append_nil] at hgrp
        rw [hgrp]
        rfl
      | longArray vs =>
        rw [wfTag] at hwf
        simp only [Bool.and_eq_true, decide_eq_true_eq, List.all_eq_true] at hwf
        rw [writePayload, writeArrayPayload] at hw
        obtain ⟨cnt, hcnt, hw⟩ := obind_some hw
        obtain ⟨body, hbody, hw⟩ := obind_some hw
        have h2 := Option.some.inj hw
        subst h2
        obtain ⟨cnt2, hpack, hclen, hcval⟩ := packSigned_roundtrip 4 2147483648 4294967296
          (by norm_num) (by norm_num) (by norm_num) (by norm_num) (by norm_num)
          (by norm_num) (vs.length : Int) (by omega) (by exact_mod_cast hwf.1)
        rw [hpack] at hcnt
        have h3 := Option.some.inj hcnt
        subst h3
        obtain ⟨body2, hpa, hblen, hgrp⟩ := packAll_roundtrip 8 9223372036854775808
          18446744073709551616 (by norm_num) (by norm_num) (by norm_num) (by norm_num)
          (by norm_num) (by norm_num) vs [] (fun v hv => by have := hwf.2 v hv; omega)
        rw [hpa] at hbody
        have h4 := Option.some.inj hbody
        subst h4
        show readPayload (fuel + 1) .longArray ((cnt2 ++ body2) ++ rest) =
          some (.longArray vs, rest)
        rw [readPayload.eq_def]
        simp only
        rw [readArrayPayload, List.append_assoc, takeExact_append 4 cnt2 _ hclen]
        rw [obind_some_eq]
        dsimp only
        rw [hcval]
        rw [if_neg (by omega)]
        have htn : ((vs.length : Int)).toNat = vs.length := by omega
        rw [htn]
        rw [takeExact_append _ body2 rest (by rw [hblen])]
        rw [obind_some_eq]
        dsimp only
        rw [List.append_nil] at hgrp
        rw [hgrp]
        rfl
      | list k ts =>
        rw [wfTag] at hwf
        simp only [Bool.and_eq_true, decide_eq_true_eq] at hwf
        rw [writePayload] at hw
        obtain ⟨kb, hkb, hw⟩ := obind_some hw
        obtain ⟨cnt, hcnt, hw⟩ := obind_some hw
        obtain ⟨body, hbody, hw⟩ := obind_some hw
        have h2 := Option.some.inj hw
        subst h2
        have hkb2 := packSigned1_small k.tagid (by have := NbtKind.tagid_le k; omega)
        rw [hkb2] at hkb
        have h3 := Option.some.inj hkb
        subst h3
        obtain ⟨cnt2, hpack, hclen, hcval⟩ := packSigned_roundtrip 4 2147483648 4294967296
          (by norm_num) (by norm_num) (by norm_num) (by norm_num) (by norm_num)
          (by norm_num) (ts.length : Int) (by omega) (by exact_mod_cast hwf.1)
        rw [hpack] at hcnt
        have h4 := Option.some.inj hcnt
        subst h4
        rw [tagMu] at hmu
        show readPayload (fuel + 1) .list (([k.tagid] ++ cnt2 ++ body) ++ rest) =
          some (.list k ts, rest)
        rw [readPayload.eq_def]
        simp only
        rw [List.append_assoc, List.append_assoc, List.singleton_append]
        simp only
        rw [kindOfTagid_tagid]
        simp only
        rw [takeExact_append 4 cnt2 _ hclen]
        rw [obind_some_eq]
        dsimp only
        rw [hcval, if_neg (by omega)]
        have htn : ((ts.length : Int)).toNat = ts.length := by omega
        rw [htn]
        rw [ihQ k ts body rest hwf.2 hbody (by omega)]
        rfl
      | compound es =>
        rw [wfTag] at hwf
        simp only [Bool.and_eq_true] at hwf
        rw [writePayload] at hw
        obtain ⟨body, hbody, hw⟩ := obind_some hw
        have h2 := Option.some.inj hw
        subst h2
        rw [tagMu] at hmu
        show readPayload (fuel + 1) .compound ((body ++ [0]) ++ rest) =
          some (.compound es, rest)
        rw [readPayload.eq_def]
        simp only
        rw [List.append_assoc, List.singleton_append]
        rw [ihR es body rest [] hwf.1 hwf.2 (by simp [keyMem]) hbody (by omega)]
        simp only [Option.map_some', List.nil_append]
    · intro k ts w rest hwf hw hmu
      cases ts with
      | nil =>
        have h2 := Option.some.inj hw
        subst h2
        rw [List.length_nil, List.nil_append, readElems]
      | cons t ts =>
        rw [wfItems] at hwf
        simp only [Bool.and_eq_true, decide_eq_true_eq] at hwf
        obtain ⟨⟨hkind, hwft⟩, hwfts⟩ := hwf
        rw [writeItems] at hw
        obtain ⟨wt, hwt, hw⟩ := obind_some hw
        obtain ⟨wts, hwts, hw⟩ := obind_some hw
        have h2 := Option.some.inj hw
        subst h2
        rw [elemsMu] at hmu
        rw [List.length_cons, readElems, List.append_assoc]
        have hP := ihP t wt (wts ++ rest) hwft hwt (by omega)
        rw [hkind] at hP
        rw [hP]
        rw [obind_some_eq]
        dsimp only
        rw [ihQ k ts wts rest hwfts hwts (by omega)]
        rfl
    · intro es w rest acc hnodup hwfes hdisj hw hmu
      cases es with
      | nil =>
        have h2 := Option.some.inj hw
        subst h2
        rw [List.nil_append, readEntries.eq_def]
        simp only [if_true]
        rw [List.append_nil]
      | cons e es =>
        obtain ⟨name, v⟩ := e
        rw [nodupKeys] at hnodup
        simp only [Bool.and_eq_true, Bool.not_eq_true'] at hnodup
        obtain ⟨hkm, hnd⟩ := hnodup
        rw [wfEntries] at hwfes
        simp only [Bool.and_eq_true, decide_eq_true_eq] at hwfes
        obtain ⟨⟨hname, hwfv⟩, hwfes2⟩ := hwfes
        have hd1 : keyMem name acc = false := hdisj (name, v) (by simp)
        have hd2 : ∀ p ∈ es, keyMem p.1 acc = false := fun p hp => hdisj p (by simp [hp])
        rw [writeEntries] at hw
        obtain ⟨tb, htb, hw⟩ := obind_some hw
        obtain ⟨nb, hnb, hw⟩ := obind_some hw
        obtain ⟨wv, hwv, hw⟩ := obind_some hw
        obtain ⟨wes, hwes, hw⟩ := obind_some hw
        have h2 := Option.some.inj hw
        subst h2
        have htb2 := packSigned1_small v.kind.tagid
          (by have := NbtKind.tagid_le v.kind; omega)
        rw [htb2] at htb
        have h3 := Option.some.inj htb
        subst h3
        rw [entriesMu] at hmu
        rw [List.append_assoc, List.append_assoc, List.append_assoc,
          List.singleton_append, readEntries.eq_def]
        simp only
        rw [if_neg (by have := NbtKind.tagid_pos v.kind (Tag.kind_ne_end v); omega)]
        rw [kindOfTagid_tagid]
        rw [readLenStr_roundtrip name _ nb hname hnb]
        simp only
        rw [obind_some_eq]
        dsimp only
        have hP := ihP v wv (wes ++ 0 :: rest) hwfv hwv (by omega)
        rw [hP]
        rw [obind_some_eq]
        dsimp only
        have hacc : dictInsert acc name v = acc ++ [(name, v)] := dictInsert_not_mem acc name v hd1
        have hd3 : ∀ p ∈ es, keyMem p.1 (acc ++ [(name, v)]) = false := by
          intro p hp
          rw [keyMem_append, hd2 p hp, Bool.false_or, keyMem]
          have hne := keyMem_false_forall name es hkm p hp
          simp [keyMem, hne]
        rw [hacc]
        rw [ihR es wes rest (acc ++ [(name, v)]) hnd hwfes2 hd3 hwes (by omega)]
        rw [List.append_assoc]
        rfl

/-! ## Claim C1: binary file round-trip -/

/-- C1 counterexample: the byte stream `[1, 0, 0, 7, 0]` (a root TagByte named
    `""` with value 7, followed by one trailing byte) is decoded by
    `read_nbt_file` without error — trailing bytes are ignored — but re-encoding
    the decoded tag with the same root name and no compression yields
    `[1, 0, 0, 7]`, which differs from the input. -/
theorem c1_counterexample :
    read_nbt_file [1, 0, 0, 7, 0] = some (.byte 7, []) ∧
    write_nbt_file [] (.byte 7) = some [1, 0, 0, 7] ∧
    ([1, 0, 0, 7] : List Nat) ≠ [1, 0, 0, 7, 0] :=
  ⟨rfl, rfl, by decide⟩

/-- C1 (amended): for every representable tag `t` and root name whose UTF-8
    form fits the signed 16-bit length prefix, if `B` is the *canonical*
    encoding `write_nbt_file name t` (no compression), then decoding `B` yields
    `(t, name)` back and re-encoding reproduces `B` exactly.  (The original
    claim over every decodable input fails: the decoder ignores trailing
    bytes and accepts non-canonical length fields.) -/
theorem c1_roundtrip_canonical (name : List Char) (t : Tag) (B : List Nat)
    (hwf : wfTag t = true) (hname : (utf8Encode name).length < 2 ^ 15)
    (hB : write_nbt_file name t = some B) :
    read_nbt_file B = some (t, name) ∧ write_nbt_file name t = some B := by
  refine ⟨?_, hB⟩
  rw [write_nbt_file] at hB
  obtain ⟨tb, htb, hB⟩ := obind_some hB
  obtain ⟨nb, hnb, hB⟩ := obind_some hB
  obtain ⟨w, hw, hB⟩ := obind_some hB
  have h2 := Option.some.inj hB
  subst h2
  have htb2 := packSigned1_small t.kind.tagid (by have := NbtKind.tagid_le t.kind; omega)
  rw [htb2] at htb
  have h3 := Option.some.inj htb
  subst h3
  rw [List.singleton_append, List.cons_append]
  rw [read_nbt_file.eq_def]
  have htag12 := NbtKind.tagid_le t.kind
  have ht2 : List.take 2 (t.kind.tagid :: (nb ++ w)) =
      t.kind.tagid :: List.take 1 (nb ++ w) := rfl
  rw [if_neg (by
    intro heq
    have h31 : t.kind.tagid = 31 := congrArg List.headI heq
    omega)]
  dsimp only
  rw [kindOfTagid_tagid]
  dsimp only
  rw [if_neg (Tag.kind_ne_end t)]
  rw [readLenStr_roundtrip name w nb hname hnb]
  rw [obind_some_eq]
  dsimp only
  have hmuB := (muBound (tagMu t)).1 t w le_rfl hw
  have hP := (readWrite_inv ((t.kind.tagid :: (nb ++ w)).length + 1)).1 t w [] hwf hw
    (by rw [List.length_cons, List.length_append]; omega)
  rw [List.append_nil] at hP
  rw [hP]
  rfl

/-- Witness for C1 at a concrete compound tag with one byte entry. -/
theorem c1_roundtrip_canonical_witness :
    read_nbt_file [10, 0, 0, 1, 0, 1, 97, 1, 0] =
      some (.compound [(['a'], .byte 1)], []) ∧
    write_nbt_file [] (.compound [(['a'], .byte 1)]) =
      some [10, 0, 0, 1, 0, 1, 97, 1, 0] :=
  c1_roundtrip_canonical [] (.compound [(['a'], .byte 1)]) [10, 0, 0, 1, 0, 1, 97, 1, 0]
    (by decide) (by decide) (by decide)

/-! ## Claim C8: truncated region header -/

theorem collectLocs_short : ∀ (n idx : Nat) (b : List Nat), b.length < 4 * n →
    collectLocs n idx b = none := by
  intro n
  induction n with
  | zero =>
    intro idx b hb
    omega
  | succ n ih =>
    intro idx b hb
    rw [collectLocs]
    by_cases h4 : b.length < 4
    · rw [if_pos h4]
    · rw [if_neg h4]
      have hrec : (b.drop 4).length < 4 * n := by
        rw [List.length_drop]
        omega
      split
      · exact ih _ _ hrec
      · rw [ih _ _ hrec]
        rfl

theorem emptyR_get_chunk (x z : Nat) (hx : x < 32) (hz : z < 32) :
    Region.get_chunk Region.emptyR x z = none := by
  rw [Region.get_chunk, Region.emptyR]
  show ((((List.replicate 32 (List.replicate 32 (none : Option (List Nat)))).get? z).getD
    []).getD x none) = none
  rw [List.get?_eq_getElem?, List.getElem?_replicate, if_pos hz]
  show ((List.replicate 32 (none : Option (List Nat))).getD x none) = none
  rw [List.getD, List.get?_eq_getElem?, List.getElem?_replicate, if_pos hx]
  rfl

/-- C8: a region file whose content ends before the full 4 KiB header has been
    read yields an empty `Region` without raising, and `get_chunk` returns the
    absent marker at every in-range coordinate. -/
theorem c8_truncated_header (b : List Nat) (x z : Nat)
    (hb : b.length < 4096) (hx : x < 32) (hz : z < 32) :
    Region.from_file b = some Region.emptyR ∧
    Region.get_chunk Region.emptyR x z = none := by
  constructor
  · rw [Region.from_file, collectLocs_short 1024 0 b (by omega)]
  · exact emptyR_get_chunk x z hx hz

/-- Witness for C8 at a concrete 3-byte file and coordinates (5, 7). -/
theorem c8_truncated_header_witness :
    Region.from_file [0, 1, 2] = some Region.emptyR ∧
    Region.get_chunk Region.emptyR 5 7 = none :=
  c8_truncated_header [0, 1, 2] 5 7 (by norm_num) (by norm_num) (by norm_num)

/-! ## Claim C7: binary list decoding -/

theorem readPayload_kind : ∀ (fuel : Nat) (k : NbtKind) (b : List Nat) (t : Tag)
    (r : List Nat), readPayload fuel k b = some (t, r) → t.kind = k := by
  intro fuel k b t r h
  match fuel with
  | 0 => exact absurd h (by rw [readPayload]; simp)
  | fuel + 1 =>
    cases k with
    | end_ => exact absurd h (by rw [readPayload]; simp)
    | byte =>
      rw [readPayload] at h
      obtain ⟨⟨c, r'⟩, _, h2⟩ := Option.map_eq_some'.mp h
      cases h2
      rfl
    | short =>
      rw [readPayload] at h
      obtain ⟨⟨c, r'⟩, _, h2⟩ := Option.map_eq_some'.mp h
      cases h2
      rfl
    | int =>
      rw [readPayload] at h
      obtain ⟨⟨c, r'⟩, _, h2⟩ := Option.map_eq_some'.mp h
      cases h2
      rfl
    | long =>
      rw [readPayload] at h
      obtain ⟨⟨c, r'⟩, _, h2⟩ := Option.map_eq_some'.mp h
      cases h2
      rfl
    | float =>
      rw [readPayload] at h
      obtain ⟨⟨c, r'⟩, _, h2⟩ := Option.map_eq_some'.mp h
      cases h2
      rfl
    | double =>
      rw [readPayload] at h
      obtain ⟨⟨c, r'⟩, _, h2⟩ := Option.map_eq_some'.mp h
      cases h2
      rfl
    | byteArray =>
      rw [readPayload] at h
      obtain ⟨⟨c, r'⟩, _, h2⟩ := Option.map_eq_some'.mp h
      cases h2
      rfl
    | string =>
      rw [readPayload] at h
      obtain ⟨⟨c, r'⟩, _, h2⟩ := Option.map_eq_some'.mp h
      cases h2
      rfl
    | intArray =>
      rw [readPayload] at h
      obtain ⟨⟨c, r'⟩, _, h2⟩ := Option.map_eq_some'.mp h
      cases h2
      rfl
    | longArray =>
      rw [readPayload] at h
      obtain ⟨⟨c, r'⟩, _, h2⟩ := Option.map_eq_some'.mp h
      cases h2
      rfl
    | compound =>
      rw [readPayload] at h
      obtain ⟨⟨c, r'⟩, _, h2⟩ := Option.map_eq_some'.mp h
      cases h2
      rfl
    | list =>
      match b with
      | [] =>
        rw [readPayload.eq_def] at h
        simp at h
      | ib :: b1 =>
        rw [readPayload.eq_def] at h
        simp only at h
        cases hik : kindOfTagid ib with
        | none =>
          rw [hik] at h
          simp at h
        | some ik =>
          rw [hik] at h
          simp only at h
          obtain ⟨⟨cb, b2⟩, htk, h⟩ := obind_some h
          obtain ⟨⟨ts, b3⟩, hre, h⟩ := obind_some h
          have h2 : (Tag.list ik ts, b3) = (t, r) := Option.some.inj h
          cases h2
          rfl

theorem readElems_spec : ∀ (n fuel : Nat) (k : NbtKind) (b : List Nat)
    (ts : List Tag) (r : List Nat), readElems fuel k n b = some (ts, r) →
    ts.length = n ∧ ∀ x ∈ ts, x.kind = k := by
  intro n
  induction n with
  | zero =>
    intro fuel k b ts r h
    match fuel with
    | 0 => exact absurd h (by rw [readElems]; simp)
    | fuel + 1 =>
      rw [readElems] at h
      have h2 : (([] : List Tag), b) = (ts, r) := Option.some.inj h
      cases h2
      exact ⟨rfl, by simp⟩
  | succ n ih =>
    intro fuel k b ts r h
    match fuel with
    | 0 => exact absurd h (by rw [readElems]; simp)
    | fuel + 1 =>
      rw [readElems] at h
      obtain ⟨⟨t, b1⟩, hp, h⟩ := obind_some h
      obtain ⟨⟨ts', b2⟩, he, h⟩ := obind_some h
      have h2 : (t :: ts', b2) = (ts, r) := Option.some.inj h
      cases h2
      obtain ⟨hl, hk⟩ := ih fuel k b1 ts' _ he
      refine ⟨by simp [hl], ?_⟩
      intro x hx
      rcases List.mem_cons.mp hx with hx | hx
      · subst hx
        exact readPayload_kind fuel k b x b1 hp
      · exact hk x hx

/-- C7: decoding a binary List payload whose element-kind byte is 0 (End) with
    a count ≤ 0 yields an empty List of element kind End without error; and
    whenever a List payload with a positive count decodes successfully, the
    result has exactly `count` elements, all of the declared kind. -/
theorem c7_list_payload_decode :
    (∀ fuel c0 c1 c2 c3 rest, beBytesToInt 4 [c0, c1, c2, c3] ≤ 0 →
      readPayload (fuel + 2) .list (0 :: c0 :: c1 :: c2 :: c3 :: rest) =
        some (.list .end_ [], rest)) ∧
    (∀ fuel kb c0 c1 c2 c3 body t rest, 0 < beBytesToInt 4 [c0, c1, c2, c3] →
      readPayload fuel .list (kb :: c0 :: c1 :: c2 :: c3 :: body) = some (t, rest) →
      ∃ ik items, kindOfTagid kb = some ik ∧ t = .list ik items ∧
        (items.length : Int) = beBytesToInt 4 [c0, c1, c2, c3] ∧
        ∀ x ∈ items, x.kind = ik) := by
  constructor
  · intro fuel c0 c1 c2 c3 rest hcnt
    rw [readPayload.eq_def]
    simp only [kindOfTagid]
    have htake : takeExact 4 (c0 :: c1 :: c2 :: c3 :: rest) =
        some ([c0, c1, c2, c3], rest) := by
      rw [takeExact, if_pos (by simp)]
      rfl
    rw [htake]
    have hzero : (if beBytesToInt 4 [c0, c1, c2, c3] < 0 then 0
        else (beBytesToInt 4 [c0, c1, c2, c3]).toNat) = 0 := by
      split <;> omega
    show (do
      let (ts, b3) ← readElems (fuel + 1) NbtKind.end_
        (if beBytesToInt 4 [c0, c1, c2, c3] < 0 then 0
          else (beBytesToInt 4 [c0, c1, c2, c3]).toNat) rest
      pure (Tag.list NbtKind.end_ ts, b3) : Option (Tag × List Nat)) =
      some (Tag.list NbtKind.end_ [], rest)
    rw [hzero]
    rfl
  · intro fuel kb c0 c1 c2 c3 body t rest hcnt h
    match fuel with
    | 0 => exact absurd h (by rw [readPayload]; simp)
    | fuel + 1 =>
      rw [readPayload.eq_def] at h
      simp only at h
      cases hik : kindOfTagid kb with
      | none =>
        rw [hik] at h
        simp at h
      | some ik =>
        rw [hik] at h
        simp only at h
        obtain ⟨⟨cb, b2⟩, htk, h⟩ := obind_some h
        obtain ⟨⟨ts, b3⟩, hre, h⟩ := obind_some h
        have h2 : (Tag.list ik ts, b3) = (t, rest) := Option.some.inj h
        cases h2
        have htake : takeExact 4 (c0 :: c1 :: c2 :: c3 :: body) =
            some ([c0, c1, c2, c3], body) := by
          rw [takeExact, if_pos (by simp)]
          rfl
        rw [htake] at htk
        have h3 := Option.some.inj htk
        injection h3 with hcb1 hcb2
        subst hcb1
        subst hcb2
        obtain ⟨hl, hk⟩ := readElems_spec _ fuel ik _ _ _ hre
        refine ⟨ik, _, rfl, rfl, ?_, hk⟩
        rw [hl]
        dsimp only
        have hneg : ¬ (beBytesToInt 4 [c0, c1, c2, c3] < 0) := by omega
        rw [if_neg hneg]
        omega

/-- Witness for C7: an End-kinded list with count −1 decodes to the empty
    End list; a Byte-kinded list with count 1 yields one Byte element. -/
theorem c7_list_payload_decode_witness :
    readPayload 2 .list [0, 255, 255, 255, 255, 9, 9] = some (.list .end_ [], [9, 9]) ∧
    ∃ ik items, kindOfTagid 1 = some ik ∧ (Tag.list .byte [.byte 42]) = .list ik items ∧
      (items.length : Int) = beBytesToInt 4 [0, 0, 0, 1] ∧
      ∀ x ∈ items, x.kind = ik :=
  ⟨c7_list_payload_decode.1 0 255 255 255 255 [9, 9] (by decide),
   c7_list_payload_decode.2 3 1 0 0 0 1 [42] (.list .byte [.byte 42]) [] (by decide) rfl⟩

/-! ## Claim C10: integer prefix match discards the token remainder -/

theorem unquoted_not_space (c : Char) (h : isUnquotedChar c = true) :
    pyIsSpace c = false := by
  cases hsp : pyIsSpace c
  · rfl
  · exfalso
    simp only [pyIsSpace, Bool.or_eq_true, decide_eq_true_eq] at hsp
    rcases hsp with ((((hc | hc) | hc) | hc) | hc) | hc <;> subst hc <;>
      exact absurd h (by decide)

theorem unquoted_not_delim (c : Char) (h : isUnquotedChar c = true) :
    ((c = '"' || c = '\'') = false) ∧ ¬(c = '[') ∧ ¬(c = '\x7b') := by
  refine ⟨?_, ?_, ?_⟩
  · cases hq : (c = '"' || c = '\'')
    · rfl
    · exfalso
      simp only [Bool.or_eq_true, decide_eq_true_eq] at hq
      rcases hq with hc | hc <;> subst hc <;> exact absurd h (by decide)
  · intro hcEq
    subst hcEq
    exact absurd h (by decide)
  · intro hcEq
    subst hcEq
    exact absurd h (by decide)

theorem spanUnquoted_all (s : List Char) (h : s.all isUnquotedChar = true) :
    spanUnquoted s = (s, []) := by
  induction s with
  | nil => rfl
  | cons c cs ih =>
    simp only [List.all_cons, Bool.and_eq_true] at h
    rw [spanUnquoted, if_pos h.1, ih h.2]

/-- C10: when a whole input made of unquoted-token characters fails the float
    match but `_try_parse_integer` matches a (possibly proper) prefix of it,
    `parse_snbt` succeeds with the integer tag built from the matched prefix
    and silently discards the unmatched remainder `left` of the token. -/
theorem c10_prefix_integer_discard (s left : List Char) (v : Int) (suf : Char)
    (hchars : s.all isUnquotedChar = true) (hne : s ≠ [])
    (hfloat : snbtFloatMatches s = false)
    (hint : try_parse_integer s = some (left, v, suf))
    (hleft : left ≠ []) :
    parse_snbt s = some (if suf = 'b' then TagByte.init v
      else if suf = 's' then TagShort.init v
      else if suf = 'l' then TagLong.init v else TagInt.init v) := by
  obtain ⟨c, rest, rfl⟩ : ∃ c rest, s = c :: rest := by
    cases s with
    | nil => exact absurd rfl hne
    | cons c rest => exact ⟨c, rest, rfl⟩
  have hc : isUnquotedChar c = true := by
    simp only [List.all_cons, Bool.and_eq_true] at hchars
    exact hchars.1
  have hdelim := unquoted_not_delim c hc
  have hlstrip : lstrip (c :: rest) = c :: rest := by
    rw [lstrip, List.dropWhile_cons_of_neg]
    rw [unquoted_not_space c hc]
    exact Bool.false_ne_true
  rw [parse_snbt]
  rw [parse_rec.eq_def]
  dsimp only
  rw [hlstrip]
  dsimp only
  rw [if_neg (by rw [hdelim.1]; exact Bool.false_ne_true)]
  rw [if_neg hdelim.2.1]
  rw [if_neg hdelim.2.2]
  rw [parse_unquoted_string]
  rw [spanUnquoted_all _ hchars]
  dsimp only
  rw [if_neg (by intro h; exact absurd h (by simp))]
  dsimp only
  rw [if_neg (by rw [hfloat]; exact Bool.false_ne_true)]
  rw [hint]
  dsimp only
  by_cases hb : suf = 'b'
  · subst hb
    rfl
  · simp only [if_neg hb]
    by_cases hs : suf = 's'
    · subst hs
      rfl
    · simp only [if_neg hs]
      by_cases hl : suf = 'l'
      · subst hl
        rfl
      · simp only [if_neg hl]
        rfl

/-- Witness for C10: `parse_snbt("007")` yields `TagInt(0)`, discarding
    the token characters after the matched integer prefix `"0"`. -/
theorem c10_prefix_integer_discard_witness :
    parse_snbt ['0', '0', '7'] = some (.int 0) := by
  have h := c10_prefix_integer_discard ['0', '0', '7'] ['0', '7'] 0 'i'
    (by decide) (by decide) (by decide) (by decide) (by decide)
  simpa using h

/-! ## Claim C3: no String fallback for unquoted tokens -/

/-- C3 counterexample: the unquoted token `abc` fails the float match, the
    integer match and the `true`/`false` literals, and `parse_snbt` then
    *fails* (`ValueError('Failed to parse')`, modelled as `none`) instead of
    returning `TagString("abc")` as claimed. -/
theorem c3_counterexample : parse_snbt ['a', 'b', 'c'] = none := rfl

/-- C3 (amended): for every unquoted token (nonempty, characters from
    `[0-9a-zA-Z.+_-]`) that fails the float match, fails the integer match and
    is neither `true` nor `false`, `parse_snbt` raises
    `ValueError('Failed to parse')` (modelled as `none`); there is no String
    fallback. -/
theorem c3_unquoted_fallback_raises (s : List Char)
    (hchars : s.all isUnquotedChar = true) (hne : s ≠ [])
    (hfloat : snbtFloatMatches s = false)
    (hint : try_parse_integer s = none)
    (htrue : s ≠ ['t', 'r', 'u', 'e'])
    (hfalse : s ≠ ['f', 'a', 'l', 's', 'e']) :
    parse_snbt s = none := by
  obtain ⟨c, rest, rfl⟩ : ∃ c rest, s = c :: rest := by
    cases s with
    | nil => exact absurd rfl hne
    | cons c rest => exact ⟨c, rest, rfl⟩
  have hc : isUnquotedChar c = true := by
    simp only [List.all_cons, Bool.and_eq_true] at hchars
    exact hchars.1
  have hdelim := unquoted_not_delim c hc
  have hlstrip : lstrip (c :: rest) = c :: rest := by
    rw [lstrip, List.dropWhile_cons_of_neg]
    rw [unquoted_not_space c hc]
    exact Bool.false_ne_true
  rw [parse_snbt]
  rw [parse_rec.eq_def]
  dsimp only
  rw [hlstrip]
  dsimp only
  rw [if_neg (by rw [hdelim.1]; exact Bool.false_ne_true)]
  rw [if_neg hdelim.2.1]
  rw [if_neg hdelim.2.2]
  rw [parse_unquoted_string]
  rw [spanUnquoted_all _ hchars]
  dsimp only
  rw [if_neg (by intro h; exact absurd h (by simp))]
  dsimp only
  rw [if_neg (by rw [hfloat]; exact Bool.false_ne_true)]
  rw [hint]
  dsimp only
  rw [if_neg htrue, if_neg hfalse]

/-- Witness for C3 at the unquoted token `--`. -/
theorem c3_unquoted_fallback_raises_witness : parse_snbt ['-', '-'] = none :=
  c3_unquoted_fallback_raises ['-', '-'] (by decide) (by decide) (by decide)
    (by decide) (by decide) (by decide)

/-! ## Claim C2 groundwork: characters and digits -/

theorem char_le_iff (a b : Char) : a ≤ b ↔ a.toNat ≤ b.toNat := Iff.rfl

theorem char_eq_iff (a b : Char) : a = b ↔ a.toNat = b.toNat := by
  constructor
  · intro h
    rw [h]
  · intro h
    apply Char.ext
    apply UInt32.ext
    exact h

theorem isDigit_iff (c : Char) : c.isDigit = true ↔ 48 ≤ c.toNat ∧ c.toNat ≤ 57 := by
  simp only [Char.isDigit, Bool.and_eq_true, decide_eq_true_eq]
  constructor
  · intro h
    exact ⟨h.1, h.2⟩
  · intro h
    exact ⟨h.1, h.2⟩

theorem digit_unquoted (c : Char) (h : c.isDigit = true) : isUnquotedChar c = true := by
  rw [isDigit_iff] at h
  simp only [isUnquotedChar, Bool.or_eq_true, Bool.and_eq_true, decide_eq_true_eq]
  exact Or.inl (Or.inl (Or.inl (Or.inl (Or.inl (Or.inl ⟨(char_le_iff _ _).mpr h.1,
    (char_le_iff _ _).mpr h.2⟩)))))

theorem digits_all_unquoted (l : List Char) (h : l.all Char.isDigit = true) :
    l.all isUnquotedChar = true := by
  simp only [List.all_eq_true] at h ⊢
  exact fun c hc => digit_unquoted c (h c hc)

theorem lstrip_cons (c : Char) (cs : List Char) (h : pyIsSpace c = false) :
    lstrip (c :: cs) = c :: cs := by
  rw [lstrip, List.dropWhile_cons_of_neg]
  rw [h]
  exact Bool.false_ne_true

theorem delimHead_tailJoin (ws : List (List Char)) (c0 : Char) (r : List Char)
    (h : isUnquotedChar c0 = false) :
    delimHead (tailJoinComma ws ++ c0 :: r) = true := by
  cases ws with
  | nil =>
    show delimHead (c0 :: r) = true
    simp [delimHead, h]
  | cons w ws =>
    rfl

theorem spanUnquoted_append (s tail : List Char) (h : s.all isUnquotedChar = true)
    (ht : delimHead tail = true) : spanUnquoted (s ++ tail) = (s, tail) := by
  induction s with
  | nil =>
    cases tail with
    | nil => rfl
    | cons c cs =>
      have hc : isUnquotedChar c = false := by
        simpa [delimHead] using ht
      rw [List.nil_append, spanUnquoted]
      rw [if_neg (by rw [hc]; exact Bool.false_ne_true)]
  | cons c cs ih =>
    simp only [List.all_cons, Bool.and_eq_true] at h
    rw [List.cons_append, spanUnquoted, if_pos h.1, ih h.2]

theorem spanDigits_append (s tail : List Char) (h : s.all Char.isDigit = true)
    (ht : ∀ c cs, tail = c :: cs → c.isDigit = false) :
    spanDigits (s ++ tail) = (s, tail) := by
  induction s with
  | nil =>
    cases tail with
    | nil => rfl
    | cons c cs =>
      rw [List.nil_append, spanDigits]
      rw [if_neg (by rw [ht c cs rfl]; exact Bool.false_ne_true)]
  | cons c cs ih =>
    simp only [List.all_cons, Bool.and_eq_true] at h
    rw [List.cons_append, spanDigits, if_pos h.1, ih h.2]

theorem takeSuffixBSL_delim (tail : List Char)
    (h : ∀ c cs, tail = c :: cs → isUnquotedChar c = false) :
    takeSuffixBSL tail = ('i', tail) := by
  cases tail with
  | nil => rfl
  | cons c cs =>
    have hc := h c cs rfl
    rw [takeSuffixBSL.eq_def]
    split
    · rename_i heq
      injection heq with h1 _
      subst h1
      exact absurd hc (by decide)
    · rename_i heq
      injection heq with h1 _
      subst h1
      exact absurd hc (by decide)
    · rename_i heq
      injection heq with h1 _
      subst h1
      exact absurd hc (by decide)
    · rfl

theorem digitsVal_append (xs : List Char) (c : Char) :
    digitsVal (xs ++ [c]) = digitsVal xs * 10 + (c.toNat - 48) := by
  simp [digitsVal, List.foldl_append]

theorem natDigitsAux_spec : ∀ (fuel n : Nat), n ≤ fuel →
    (natDigitsAux fuel n).all Char.isDigit = true ∧
    digitsVal (natDigitsAux fuel n) = n ∧
    ∃ d ds, natDigitsAux fuel n = d :: ds ∧ (1 ≤ n → 49 ≤ d.toNat ∧ d.toNat ≤ 57) := by
  intro fuel
  induction fuel with
  | zero =>
    intro n hn
    have h0 : n = 0 := Nat.le_zero.mp hn
    subst h0
    refine ⟨by decide, by decide, '0', [], rfl, by omega⟩
  | succ fuel ih =>
    intro n hn
    by_cases h10 : n < 10
    · have hvalid : (48 + n).isValidChar := Or.inl (by omega)
      have htn : (Char.ofNat (48 + n)).toNat = 48 + n := charOfNat_toNat hvalid
      rw [natDigitsAux, if_pos h10]
      refine ⟨?_, ?_, Char.ofNat (48 + n), [], rfl, ?_⟩
      · simp only [List.all_cons, List.all_nil, Bool.and_true]
        rw [isDigit_iff, htn]
        omega
      · show 0 * 10 + ((Char.ofNat (48 + n)).toNat - 48) = n
        rw [htn]
        omega
      · intro h1
        rw [htn]
        omega
    · have hdiv : n / 10 ≤ fuel := by omega
      obtain ⟨hall, hval, d, ds, heq, hd⟩ := ih (n / 10) hdiv
      have hvalid : (48 + n % 10).isValidChar := Or.inl (by omega)
      have htn : (Char.ofNat (48 + n % 10)).toNat = 48 + n % 10 := charOfNat_toNat hvalid
      rw [natDigitsAux, if_neg h10]
      refine ⟨?_, ?_, d, ds ++ [Char.ofNat (48 + n % 10)], ?_, ?_⟩
      · rw [List.all_append, hall]
        simp only [List.all_cons, List.all_nil, Bool.and_true, Bool.true_and]
        rw [isDigit_iff, htn]
        omega
      · rw [digitsVal_append, hval, htn]
        omega
      · rw [heq, List.cons_append]
      · intro _
        exact hd (by omega)

theorem natDigits_spec (n : Nat) :
    (natDigits n).all Char.isDigit = true ∧
    digitsVal (natDigits n) = n ∧
    ∃ d ds, natDigits n = d :: ds ∧ (1 ≤ n → 49 ≤ d.toNat ∧ d.toNat ≤ 57) :=
  natDigitsAux_spec n n le_rfl

theorem delim_head_not_unquoted (tail : List Char) (h : delimHead tail = true) :
    ∀ c cs, tail = c :: cs → isUnquotedChar c = false := by
  intro c cs heq
  subst heq
  simpa [delimHead] using h

theorem not_digit_of_not_unquoted (c : Char) (h : isUnquotedChar c = false) :
    c.isDigit = false := by
  cases hd : c.isDigit
  · rfl
  · exact absurd (digit_unquoted c hd) (by rw [h]; exact Bool.false_ne_true)

theorem intChars_nonneg (v : Int) (hv : 0 ≤ v) : intChars v = natDigits v.toNat := by
  rw [intChars, if_neg (by omega)]

theorem intChars_neg (v : Int) (hv : v < 0) : intChars v = '-' :: natDigits (-v).toNat := by
  rw [intChars, if_pos hv]

theorem intChars_all_unquoted (v : Int) : (intChars v).all isUnquotedChar = true := by
  rw [intChars]
  split
  · simp only [List.all_cons, Bool.and_eq_true]
    exact ⟨by decide, digits_all_unquoted _ (natDigits_spec _).1⟩
  · exact digits_all_unquoted _ (natDigits_spec _).1

theorem intChars_head (v : Int) :
    ∃ c cs, intChars v = c :: cs ∧ (c.isDigit = true ∨ c = '-') := by
  rw [intChars]
  split
  · exact ⟨'-', _, rfl, Or.inr rfl⟩
  · obtain ⟨hall, _, d, ds, heq, _⟩ := natDigits_spec v.toNat
    refine ⟨d, ds, heq, Or.inl ?_⟩
    rw [heq] at hall
    simp only [List.all_cons, Bool.and_eq_true] at hall
    exact hall.1

theorem not_e_of_digit (c : Char) (h : c.isDigit = true) : ¬(c = 'e') := by
  rw [isDigit_iff] at h
  rw [char_eq_iff]
  have he : ('e' : Char).toNat = 101 := rfl
  omega

theorem splitAtE_no_e (cs : List Char) (h : ∀ c ∈ cs, ¬(c = 'e')) :
    splitAtE cs = (cs, none) := by
  induction cs with
  | nil => rfl
  | cons c cs ih =>
    rw [splitAtE]
    rw [if_neg (h c (by simp))]
    rw [ih (fun x hx => h x (by simp [hx]))]

theorem mantOk_print (ds sufl : List Char) (hds : ds.all Char.isDigit = true)
    (hdot : sufl ≠ ['.'])
    (hhead : ∀ c cs, sufl = c :: cs → c.isDigit = false ∧ ¬(c = '.')) :
    mantOk true (ds ++ sufl) = false := by
  rw [mantOk]
  rw [spanDigits_append ds sufl hds (fun c cs h => (hhead c cs h).1)]
  dsimp only
  have h1 : (decide (sufl = ['.']) : Bool) = false := by simp [hdot]
  rw [h1]
  simp only [Bool.not_true, Bool.false_and, Bool.or_false, Bool.and_false, Bool.false_or]
  cases sufl with
  | nil => rfl
  | cons c cs =>
    split
    · rename_i heq
      injection heq with hc _
      exact absurd hc (hhead c cs rfl).2
    · rfl

theorem numOk_print (v : Int) (sufl : List Char)
    (hdot : sufl ≠ ['.'])
    (hhead : ∀ c cs, sufl = c :: cs → c.isDigit = false ∧ ¬(c = '.'))
    (he : ∀ c ∈ sufl, ¬(c = 'e')) :
    numOk true (intChars v ++ sufl) = false := by
  have hne : ∀ m : Nat, ∀ c ∈ natDigits m ++ sufl, ¬(c = 'e') := by
    intro m c hc
    rcases List.mem_append.mp hc with hc | hc
    · exact not_e_of_digit c (List.all_eq_true.mp (natDigits_spec m).1 c hc)
    · exact he c hc
  have hmant : ∀ m : Nat, mantOk true (natDigits m ++ sufl) = false := fun m =>
    mantOk_print (natDigits m) sufl (natDigits_spec m).1 hdot hhead
  rw [numOk.eq_def]
  rcases lt_or_le v 0 with hv | hv
  · rw [intChars_neg v hv]
    rw [List.cons_append]
    dsimp only
    rw [if_pos (by decide)]
    rw [splitAtE_no_e _ (hne _)]
    exact hmant _
  · rw [intChars_nonneg v hv]
    obtain ⟨hall, _, d, ds, heq, _⟩ := natDigits_spec v.toNat
    have hd : d.isDigit = true := by
      rw [heq] at hall
      simp only [List.all_cons, Bool.and_eq_true] at hall
      exact hall.1
    rw [heq, List.cons_append]
    dsimp only
    rw [if_neg (by
      rw [isDigit_iff] at hd
      simp only [Bool.or_eq_true, decide_eq_true_eq, not_or]
      constructor
      · rw [char_eq_iff]
        have h43 : ('+' : Char).toNat = 43 := rfl
        omega
      · rw [char_eq_iff]
        have h45 : ('-' : Char).toNat = 45 := rfl
        omega)]
    rw [← List.cons_append, ← heq]
    rw [splitAtE_no_e _ (hne _)]
    exact hmant _

theorem natDigits_getLast_digit (m : Nat) (c : Char)
    (h : (natDigits m).getLast? = some c) : c.isDigit = true :=
  List.all_eq_true.mp (natDigits_spec m).1 c (List.mem_of_mem_getLast? h)

theorem snbtFloatMatches_print (v : Int) (sufl : List Char)
    (hmode : sufl = [] ∨ sufl = ['b'] ∨ sufl = ['s'] ∨ sufl = ['l']) :
    snbtFloatMatches (intChars v ++ sufl) = false := by
  have hnum : numOk true (intChars v ++ sufl) = false := by
    apply numOk_print v sufl
    · rcases hmode with rfl | rfl | rfl | rfl <;> decide
    · rcases hmode with rfl | rfl | rfl | rfl
      · exact fun c cs h => List.noConfusion h
      · intro c cs h
        injection h with h1 h2
        subst h1
        exact ⟨by decide, by decide⟩
      · intro c cs h
        injection h with h1 h2
        subst h1
        exact ⟨by decide, by decide⟩
      · intro c cs h
        injection h with h1 h2
        subst h1
        exact ⟨by decide, by decide⟩
    · rcases hmode with rfl | rfl | rfl | rfl <;> decide
  rw [snbtFloatMatches, hnum, Bool.or_false]
  rcases hmode with rfl | rfl | rfl | rfl
  · rw [List.append_nil]
    have hgl : ∀ c, (intChars v).getLast? = some c → c.isDigit = true := by
      intro c hc
      rcases lt_or_le v 0 with hv | hv
      · rw [intChars_neg v hv] at hc
        have hnn : natDigits (-v).toNat ≠ [] := by
          obtain ⟨_, _, d, ds, heq, _⟩ := natDigits_spec (-v).toNat
          rw [heq]
          exact List.cons_ne_nil d ds
        rw [show ('-' :: natDigits (-v).toNat : List Char) =
          ['-'] ++ natDigits (-v).toNat from rfl,
          List.getLast?_append_of_ne_nil _ hnn] at hc
        exact natDigits_getLast_digit _ c hc
      · rw [intChars_nonneg v hv] at hc
        exact natDigits_getLast_digit _ c hc
    cases hg : (intChars v).getLast? with
    | none => rfl
    | some c =>
      have hd := hgl c hg
      rw [isDigit_iff] at hd
      dsimp only
      have hfd : (decide (c = 'f') || decide (c = 'd')) = false := by
        simp only [Bool.or_eq_false_iff, decide_eq_false_iff_not]
        constructor
        · rw [char_eq_iff]
          have h102 : ('f' : Char).toNat = 102 := rfl
          omega
        · rw [char_eq_iff]
          have h100 : ('d' : Char).toNat = 100 := rfl
          omega
      rw [hfd]
      exact Bool.false_and _
  · rw [List.getLast?_concat]
    dsimp only
    rw [show (decide (('b' : Char) = 'f') || decide (('b' : Char) = 'd')) = false from rfl]
    exact Bool.false_and _
  · rw [List.getLast?_concat]
    dsimp only
    rw [show (decide (('s' : Char) = 'f') || decide (('s' : Char) = 'd')) = false from rfl]
    exact Bool.false_and _
  · rw [List.getLast?_concat]
    dsimp only
    rw [show (decide (('l' : Char) = 'f') || decide (('l' : Char) = 'd')) = false from rfl]
    exact Bool.false_and _

theorem tagNumberInit_id (m h : Int) (hm : m = 2 * h) (hh : 0 < h) (v : Int)
    (h1 : -h ≤ v) (h2 : v < h) : tagNumberInit m v = v := by
  rw [tagNumberInit_formula m h hm hh]
  have hm2 : m / 2 = h := by omega
  rw [hm2]
  have hemod : (v + h) % m = v + h := Int.emod_eq_of_lt (by omega) (by omega)
  rw [hemod]
  omega

theorem try_parse_integer_print (v : Int) (sufl : List Char) (suf : Char)
    (hmode : (sufl = [] ∧ suf = 'i') ∨ (sufl = ['b'] ∧ suf = 'b') ∨
      (sufl = ['s'] ∧ suf = 's') ∨ (sufl = ['l'] ∧ suf = 'l'))
    (tail : List Char) (htail : delimHead tail = true) :
    try_parse_integer (intChars v ++ (sufl ++ tail)) = some (tail, v, suf) := by
  have hA : takeSuffixBSL (sufl ++ tail) = (suf, tail) := by
    rcases hmode with ⟨rfl, rfl⟩ | ⟨rfl, rfl⟩ | ⟨rfl, rfl⟩ | ⟨rfl, rfl⟩
    · exact takeSuffixBSL_delim tail (delim_head_not_unquoted tail htail)
    · rfl
    · rfl
    · rfl
  have hB : ∀ c cs, sufl ++ tail = c :: cs → c.isDigit = false := by
    rcases hmode with ⟨rfl, _⟩ | ⟨rfl, _⟩ | ⟨rfl, _⟩ | ⟨rfl, _⟩
    · intro c cs h
      exact not_digit_of_not_unquoted c (delim_head_not_unquoted tail htail c cs h)
    · intro c cs h
      injection h with h1 _
      subst h1
      decide
    · intro c cs h
      injection h with h1 _
      subst h1
      decide
    · intro c cs h
      injection h with h1 _
      subst h1
      decide
  rcases lt_or_le v 0 with hv | hv
  · have hn1 : 1 ≤ (-v).toNat := by omega
    obtain ⟨hall, hval, d, ds, heq, hd⟩ := natDigits_spec (-v).toNat
    have hdigits : ds.all Char.isDigit = true := by
      rw [heq] at hall
      simp only [List.all_cons, Bool.and_eq_true] at hall
      exact hall.2
    have hdb := hd hn1
    have hval2 : digitsVal (d :: ds) = (-v).toNat := by
      rw [← heq]
      exact hval
    rw [intChars_neg v hv, heq, List.cons_append, List.cons_append]
    rw [try_parse_integer]
    dsimp only
    rw [if_neg (by
      intro h
      have h48 : d.toNat = 48 := by rw [h]; rfl
      omega)]
    rw [if_pos (by
      simp only [Bool.and_eq_true, decide_eq_true_eq]
      exact ⟨(char_le_iff _ _).mpr hdb.1, (char_le_iff _ _).mpr hdb.2⟩)]
    rw [spanDigits_append ds (sufl ++ tail) hdigits hB]
    dsimp only
    rw [hA]
    dsimp only
    have hfin : (-1 : Int) * (digitsVal (d :: ds) : Int) = v := by
      rw [hval2, Int.toNat_of_nonneg (by omega : (0 : Int) ≤ -v)]
      ring
    rw [hfin]
  · by_cases hn0 : v = 0
    · subst hn0
      rw [show intChars 0 = ['0'] from rfl, List.cons_append, List.nil_append]
      rw [try_parse_integer]
      dsimp only
      rw [hA]
      rw [if_pos rfl]
      all_goals
        intro r h
        injection h with h1 _
        exact absurd h1 (by decide)
    · have hn1 : 1 ≤ v.toNat := by omega
      obtain ⟨hall, hval, d, ds, heq, hd⟩ := natDigits_spec v.toNat
      have hdigits : ds.all Char.isDigit = true := by
        rw [heq] at hall
        simp only [List.all_cons, Bool.and_eq_true] at hall
        exact hall.2
      have hdb := hd hn1
      have hval2 : digitsVal (d :: ds) = v.toNat := by
        rw [← heq]
        exact hval
      rw [intChars_nonneg v hv, heq, List.cons_append]
      rw [try_parse_integer]
      dsimp only
      split
      · rename_i hq
        exfalso
        have h48 : d.toNat = 48 := by rw [hq]; rfl
        omega
      · rw [if_pos (by
          simp only [Bool.and_eq_true, decide_eq_true_eq]
          exact ⟨(char_le_iff _ _).mpr hdb.1, (char_le_iff _ _).mpr hdb.2⟩)]
        rw [spanDigits_append ds (sufl ++ tail) hdigits hB]
        dsimp only
        rw [hA]
        dsimp only
        have hfin : (1 : Int) * (digitsVal (d :: ds) : Int) = v := by
          rw [hval2, Int.toNat_of_nonneg hv]
          ring
        rw [hfin]
      · intro r h
        injection h with h1 _
        have h45 : d.toNat = 45 := by rw [h1]; rfl
        omega
      · intro r h
        injection h with h1 _
        have h43 : d.toNat = 43 := by rw [h1]; rfl
        omega

theorem cleanStr_spec (s : List Char) (h : cleanStr s = true) :
    ∀ c ∈ s, ¬(c = '"') ∧ ¬(c = '\'') ∧ ¬(c = '\\') ∧ ¬(c = '\n') := by
  intro c hc
  have hcc := List.all_eq_true.mp h c hc
  simp only [cleanChar, Bool.and_eq_true, decide_eq_true_eq] at hcc
  exact ⟨hcc.1.1.1, hcc.1.1.2, hcc.1.2, hcc.2⟩

theorem replace1_id (a : Char) (new : List Char) (s : List Char)
    (h : ∀ c ∈ s, ¬(c = a)) : replace1 a new s = s := by
  induction s with
  | nil => rfl
  | cons c cs ih =>
    rw [replace1]
    rw [if_neg (h c (by simp))]
    rw [ih (fun x hx => h x (by simp [hx]))]

theorem quote_string_clean (s : List Char) (h : cleanStr s = true) :
    quote_string s = '"' :: (s ++ ['"']) := by
  rw [quote_string]
  rw [replace1_id '"' _ s (fun c hc => (cleanStr_spec s h c hc).1)]
  rw [replace1_id '\'' _ s (fun c hc => (cleanStr_spec s h c hc).2.1)]
  rw [replace1_id '\\' _ s (fun c hc => (cleanStr_spec s h c hc).2.2.1)]
  rw [List.cons_append]

theorem replace2_id (a b : Char) (new : List Char) :
    ∀ s : List Char, (∀ c ∈ s, ¬(c = a)) → replace2 a b new s = s
  | [], _ => rfl
  | [x], _ => rfl
  | x :: y :: rest, h => by
    rw [replace2]
    rw [if_neg (by
      simp only [Bool.and_eq_true, decide_eq_true_eq, not_and]
      intro hx
      exact absurd hx (h x (by simp)))]
    rw [replace2_id a b new (y :: rest) (fun c hc => h c (by simp at hc ⊢; tauto))]

theorem unescape_clean (g : List Char) (h : ∀ c ∈ g, ¬(c = '\\')) : unescape g = g := by
  rw [unescape]
  rw [replace2_id _ _ _ g h, replace2_id _ _ _ g h, replace2_id _ _ _ g h]

theorem findClose_clean : ∀ (k : List Char), k ≠ [] → cleanStr k = true →
    ∀ tail, findClose '"' (k ++ '"' :: tail) = some (k, tail)
  | [], hne, _, _ => absurd rfl hne
  | [c], _, hcl, tail => by
    have hc := cleanStr_spec _ hcl c (by simp)
    rw [List.cons_append, List.nil_append]
    rw [findClose]
    rw [if_neg hc.2.2.1]
    rw [show bsRun ('"' :: tail) = 0 from rfl]
    rw [if_pos (by rfl)]
    rfl
  | c :: c2 :: k, _, hcl, tail => by
    have hc := cleanStr_spec _ hcl c (by simp)
    have hc2 := cleanStr_spec _ hcl c2 (by simp)
    have hcl2 : cleanStr (c2 :: k) = true := by
      simp only [cleanStr, List.all_cons, Bool.and_eq_true] at hcl ⊢
      exact hcl.2
    rw [List.cons_append]
    rw [findClose]
    rw [if_neg hc.2.2.1]
    rw [show ((c2 :: k) ++ '"' :: tail : List Char) = c2 :: (k ++ '"' :: tail)
      from List.cons_append c2 k _]
    rw [show bsRun (c2 :: (k ++ '"' :: tail)) = 0 from by
      rw [bsRun]
      rw [if_neg hc2.2.2.1]]
    dsimp only
    have hcond : (decide (0 % 2 = 0) && headIs '"' ((c2 :: (k ++ '"' :: tail)).drop 0))
        = false := by
      rw [List.drop_zero]
      rw [show headIs '"' (c2 :: (k ++ '"' :: tail)) = decide (c2 = '"') from rfl]
      simp [hc2.1]
    rw [hcond]
    rw [if_neg (by exact Bool.false_ne_true)]
    rw [if_neg hc.2.2.2]
    rw [← List.cons_append]
    rw [findClose_clean (c2 :: k) (List.cons_ne_nil c2 k) hcl2 tail]
    rfl

theorem parse_quoted_string_print (s : List Char) (h : cleanStr s = true)
    (tail : List Char) :
    parse_quoted_string (quote_string s ++ tail) = some (tail, s) := by
  rw [quote_string_clean s h]
  cases s with
  | nil => rfl
  | cons c s' =>
    have hc := cleanStr_spec _ h c (by simp)
    rw [List.cons_append, List.append_assoc, List.singleton_append, List.cons_append]
    rw [parse_quoted_string]
    rw [if_neg hc.1]
    have hf := findClose_clean (c :: s') (List.cons_ne_nil c s') h tail
    rw [List.cons_append] at hf
    rw [hf]
    dsimp only
    rw [unescape_clean _ (fun x hx => (cleanStr_spec _ h x hx).2.2.1)]

theorem snbtMu_pos (t : Tag) : 1 ≤ snbtMu t := by
  cases t <;> simp [snbtMu]

theorem snbtItemsMu_pos (ts : List Tag) : 1 ≤ snbtItemsMu ts := by
  cases ts <;> simp [snbtItemsMu]

theorem snbtEntriesMu_pos (es : List (List Char × Tag)) : 1 ≤ snbtEntriesMu es := by
  cases es with
  | nil => simp [snbtEntriesMu]
  | cons e es =>
    obtain ⟨k, v⟩ := e
    simp [snbtEntriesMu]

theorem joinComma_cons : ∀ (w : List Char) (ws : List (List Char)),
    joinComma (w :: ws) = w ++ tailJoinComma ws
  | w, [] => by
    rw [joinComma, tailJoinComma, List.append_nil]
  | w, y :: xs => by
    rw [joinComma, joinComma_cons y xs, tailJoinComma]

theorem joinComma_len (ws : List (List Char)) :
    ws.length ≤ (joinComma ws).length + 1 := by
  induction ws with
  | nil => simp [joinComma]
  | cons w ws ih =>
    cases ws with
    | nil => simp [joinComma]
    | cons y xs =>
      rw [joinComma]
      simp only [List.length_cons, List.length_append] at ih ⊢
      omega

theorem tailJoinComma_len (ws : List (List Char)) :
    (tailJoinComma ws).length = if ws.isEmpty then 0 else (joinComma ws).length + 1 := by
  cases ws with
  | nil => rfl
  | cons w ws =>
    rw [tailJoinComma, joinComma_cons]
    simp [List.length_cons, List.length_append]

theorem cleanItems_spec : ∀ (k : NbtKind) (ts : List Tag), cleanItems k ts = true →
    ∀ t ∈ ts, cleanTag t = true ∧ t.kind = k
  | _, [], _ => by simp
  | k, t :: ts, h => by
    rw [cleanItems] at h
    simp only [Bool.and_eq_true, decide_eq_true_eq] at h
    intro x hx
    rcases List.mem_cons.mp hx with rfl | hx2
    · exact ⟨h.1.2, h.1.1⟩
    · exact cleanItems_spec k ts h.2 x hx2

theorem cleanItems_homog : ∀ (k : NbtKind) (ts : List Tag), cleanItems k ts = true →
    listHomogeneous k ts = true
  | _, [], _ => rfl
  | k, t :: ts, h => by
    rw [cleanItems] at h
    simp only [Bool.and_eq_true, decide_eq_true_eq] at h
    rw [listHomogeneous]
    simp only [Bool.and_eq_true, decide_eq_true_eq]
    exact ⟨h.1.1, cleanItems_homog k ts h.2⟩

theorem snbtMuBound : ∀ n : Nat,
    (∀ (t : Tag) (w : List Char), snbtMu t ≤ n → to_snbt t = some w →
      snbtMu t ≤ w.length + 1) ∧
    (∀ (ts : List Tag) (ws : List (List Char)), snbtItemsMu ts ≤ n →
      snbtItems ts = some ws → snbtItemsMu ts ≤ (joinComma ws).length + 2) ∧
    (∀ (es : List (List Char × Tag)) (ws : List (List Char)), snbtEntriesMu es ≤ n →
      snbtEntries es = some ws → snbtEntriesMu es ≤ (joinComma ws).length + 2) := by
  intro n
  induction n with
  | zero =>
    refine ⟨fun t w hmu _ => absurd hmu (by have := snbtMu_pos t; omega),
      fun ts ws hmu _ => absurd hmu (by have := snbtItemsMu_pos ts; omega),
      fun es ws hmu _ => absurd hmu (by have := snbtEntriesMu_pos es; omega)⟩
  | succ n ih =>
    obtain ⟨ihT, ihI, ihE⟩ := ih
    refine ⟨?_, ?_, ?_⟩
    · intro t w hmu hw
      cases t with
      | byteArray vs =>
        rw [to_snbt] at hw
        have h2 := Option.some.inj hw
        subst h2
        have hj := joinComma_len (vs.map (fun v => intChars v ++ ['b']))
        simp only [List.length_map] at hj
        show vs.length + 2 ≤ _ + 1
        simp only [List.length_cons, List.length_append, List.length_cons,
          List.length_nil]
        omega
      | intArray vs =>
        rw [to_snbt] at hw
        have h2 := Option.some.inj hw
        subst h2
        have hj := joinComma_len (vs.map intChars)
        simp only [List.length_map] at hj
        show vs.length + 2 ≤ _ + 1
        simp only [List.length_cons, List.length_append, List.length_nil]
        omega
      | longArray vs =>
        rw [to_snbt] at hw
        have h2 := Option.some.inj hw
        subst h2
        have hj := joinComma_len (vs.map (fun v => intChars v ++ ['l']))
        simp only [List.length_map] at hj
        show vs.length + 2 ≤ _ + 1
        simp only [List.length_cons, List.length_append, List.length_nil]
        omega
      | list k ts =>
        rw [to_snbt] at hw
        obtain ⟨ws, hws, hw2⟩ : ∃ ws, snbtItems ts = some ws ∧
            ('[' :: joinComma ws ++ [']'] : List Char) = w := by
          cases hsi : snbtItems ts with
          | none => rw [hsi] at hw; simp at hw
          | some ws =>
            rw [hsi] at hw
            simp only [Option.map_some'] at hw
            exact ⟨ws, rfl, Option.some.inj hw⟩
        subst hw2
        have hmu2 : snbtItemsMu ts ≤ n := by
          have : snbtMu (Tag.list k ts) = 1 + snbtItemsMu ts := rfl
          omega
        have := ihI ts ws hmu2 hws
        have hgoal : snbtMu (Tag.list k ts) = 1 + snbtItemsMu ts := rfl
        simp only [List.length_cons, List.length_append, List.length_nil]
        omega
      | compound es =>
        rw [to_snbt] at hw
        obtain ⟨ws, hws, hw2⟩ : ∃ ws, snbtEntries es = some ws ∧
            ('\x7b' :: joinComma ws ++ ['\x7d'] : List Char) = w := by
          cases hsi : snbtEntries es with
          | none => rw [hsi] at hw; simp at hw
          | some ws =>
            rw [hsi] at hw
            simp only [Option.map_some'] at hw
            exact ⟨ws, rfl, Option.some.inj hw⟩
        subst hw2
        have hmu2 : snbtEntriesMu es ≤ n := by
          have : snbtMu (Tag.compound es) = 1 + snbtEntriesMu es := rfl
          omega
        have := ihE es ws hmu2 hws
        have hgoal : snbtMu (Tag.compound es) = 1 + snbtEntriesMu es := rfl
        simp only [List.length_cons, List.length_append, List.length_nil]
        omega
      | byte v =>
        have h1 : snbtMu (Tag.byte v) = 1 := rfl
        omega
      | short v =>
        have h1 : snbtMu (Tag.short v) = 1 := rfl
        omega
      | int v =>
        have h1 : snbtMu (Tag.int v) = 1 := rfl
        omega
      | long v =>
        have h1 : snbtMu (Tag.long v) = 1 := rfl
        omega
      | float b =>
        have h1 : snbtMu (Tag.float b) = 1 := rfl
        omega
      | double b =>
        have h1 : snbtMu (Tag.double b) = 1 := rfl
        omega
      | string s =>
        have h1 : snbtMu (Tag.string s) = 1 := rfl
        omega
    · intro ts ws hmu hws
      cases ts with
      | nil =>
        have h1 : snbtItemsMu ([] : List Tag) = 1 := rfl
        omega
      | cons t ts =>
        rw [snbtItems] at hws
        obtain ⟨w, hw, hws⟩ := obind_some hws
        obtain ⟨ws2, hws2, hws⟩ := obind_some hws
        have h2 := Option.some.inj hws
        subst h2
        have hmax : snbtItemsMu (t :: ts) = 1 + max (snbtMu t) (snbtItemsMu ts) := rfl
        have hT := ihT t w (by omega) hw
        have hI := ihI ts ws2 (by omega) hws2
        rw [joinComma_cons]
        cases ws2 with
        | nil =>
          have hIm : snbtItemsMu ts = 1 := by
            cases hts : ts with
            | nil => rfl
            | cons t2 ts2 =>
              rw [hts] at hws2
              rw [snbtItems] at hws2
              obtain ⟨w2, hw2, hws3⟩ := obind_some hws2
              obtain ⟨ws3, hws4, hws5⟩ := obind_some hws3
              exact absurd (Option.some.inj hws5) (by simp)
          simp only [List.length_append, tailJoinComma, List.length_nil]
          omega
        | cons y xs =>
          have hjl : (tailJoinComma (y :: xs)).length = (joinComma (y :: xs)).length + 1
            := by
            rw [tailJoinComma, joinComma_cons]
            simp [List.length_cons, List.length_append]
          simp only [List.length_append]
          omega
    · intro es ws hmu hws
      cases es with
      | nil =>
        have h1 : snbtEntriesMu ([] : List (List Char × Tag)) = 1 := rfl
        omega
      | cons e es =>
        obtain ⟨k, v⟩ := e
        rw [snbtEntries] at hws
        obtain ⟨w, hw, hws⟩ := obind_some hws
        obtain ⟨ws2, hws2, hws⟩ := obind_some hws
        have h2 := Option.some.inj hws
        subst h2
        have hmax : snbtEntriesMu ((k, v) :: es) = 1 + max (snbtMu v) (snbtEntriesMu es)
          := rfl
        have hT := ihT v w (by omega) hw
        have hI := ihE es ws2 (by omega) hws2
        rw [joinComma_cons]
        cases ws2 with
        | nil =>
          have hIm : snbtEntriesMu es = 1 := by
            cases hts : es with
            | nil => rfl
            | cons e2 es2 =>
              obtain ⟨k2, v2⟩ := e2
              rw [hts] at hws2
              rw [snbtEntries] at hws2
              obtain ⟨w2, hw2, hws3⟩ := obind_some hws2
              obtain ⟨ws3, hws4, hws5⟩ := obind_some hws3
              exact absurd (Option.some.inj hws5) (by simp)
          simp only [List.length_append, tailJoinComma, List.length_nil,
            List.length_cons]
          omega
        | cons y xs =>
          have hjl : (tailJoinComma (y :: xs)).length = (joinComma (y :: xs)).length + 1
            := by
            rw [tailJoinComma, joinComma_cons]
            simp [List.length_cons, List.length_append]
          simp only [List.length_append, List.length_cons]
          omega

theorem to_snbt_head (t : Tag) (w : List Char) (hw : to_snbt t = some w) :
    ∃ c w', w = c :: w' ∧
      (c.isDigit = true ∨ c = '-' ∨ c = '"' ∨ c = '[' ∨ c = '\x7b') := by
  cases t with
  | byte v =>
    rw [to_snbt] at hw
    have h2 := (Option.some.inj hw).symm
    subst h2
    obtain ⟨c, cs, heq, hc⟩ := intChars_head v
    rw [heq, List.cons_append]
    refine ⟨c, cs ++ ['b'], rfl, ?_⟩
    rcases hc with h | h
    · exact Or.inl h
    · exact Or.inr (Or.inl h)
  | short v =>
    rw [to_snbt] at hw
    have h2 := (Option.some.inj hw).symm
    subst h2
    obtain ⟨c, cs, heq, hc⟩ := intChars_head v
    rw [heq, List.cons_append]
    refine ⟨c, cs ++ ['s'], rfl, ?_⟩
    rcases hc with h | h
    · exact Or.inl h
    · exact Or.inr (Or.inl h)
  | int v =>
    rw [to_snbt] at hw
    have h2 := (Option.some.inj hw).symm
    subst h2
    obtain ⟨c, cs, heq, hc⟩ := intChars_head v
    rw [heq]
    refine ⟨c, cs, rfl, ?_⟩
    rcases hc with h | h
    · exact Or.inl h
    · exact Or.inr (Or.inl h)
  | long v =>
    rw [to_snbt] at hw
    have h2 := (Option.some.inj hw).symm
    subst h2
    obtain ⟨c, cs, heq, hc⟩ := intChars_head v
    rw [heq, List.cons_append]
    refine ⟨c, cs ++ ['l'], rfl, ?_⟩
    rcases hc with h | h
    · exact Or.inl h
    · exact Or.inr (Or.inl h)
  | float b =>
    rw [to_snbt] at hw
    exact absurd hw (by simp)
  | double b =>
    rw [to_snbt] at hw
    exact absurd hw (by simp)
  | string s =>
    rw [to_snbt] at hw
    have h2 := (Option.some.inj hw).symm
    subst h2
    rw [quote_string, List.cons_append]
    exact ⟨'"', _, rfl, Or.inr (Or.inr (Or.inl rfl))⟩
  | byteArray vs =>
    rw [to_snbt] at hw
    have h2 := (Option.some.inj hw).symm
    subst h2
    exact ⟨'[', _, rfl, Or.inr (Or.inr (Or.inr (Or.inl rfl)))⟩
  | intArray vs =>
    rw [to_snbt] at hw
    have h2 := (Option.some.inj hw).symm
    subst h2
    exact ⟨'[', _, rfl, Or.inr (Or.inr (Or.inr (Or.inl rfl)))⟩
  | longArray vs =>
    rw [to_snbt] at hw
    have h2 := (Option.some.inj hw).symm
    subst h2
    exact ⟨'[', _, rfl, Or.inr (Or.inr (Or.inr (Or.inl rfl)))⟩
  | list k ts =>
    rw [to_snbt] at hw
    cases hsi : snbtItems ts with
    | none =>
      rw [hsi] at hw
      simp at hw
    | some ws =>
      rw [hsi] at hw
      simp only [Option.map_some'] at hw
      have h2 := (Option.some.inj hw).symm
      subst h2
      exact ⟨'[', _, rfl, Or.inr (Or.inr (Or.inr (Or.inl rfl)))⟩
  | compound es =>
    rw [to_snbt] at hw
    cases hsi : snbtEntries es with
    | none =>
      rw [hsi] at hw
      simp at hw
    | some ws =>
      rw [hsi] at hw
      simp only [Option.map_some'] at hw
      have h2 := (Option.some.inj hw).symm
      subst h2
      exact ⟨'\x7b', _, rfl, Or.inr (Or.inr (Or.inr (Or.inr rfl)))⟩

theorem printed_head_facts (c : Char)
    (h : c.isDigit = true ∨ c = '-' ∨ c = '"' ∨ c = '[' ∨ c = '\x7b') :
    pyIsSpace c = false ∧ ¬(c = ']') ∧ ¬(c = '\x7d') ∧
      ¬(c = 'B') ∧ ¬(c = 'I') ∧ ¬(c = 'L') := by
  have htn : (48 ≤ c.toNat ∧ c.toNat ≤ 57) ∨ c.toNat = 45 ∨ c.toNat = 34 ∨
      c.toNat = 91 ∨ c.toNat = 123 := by
    rcases h with h | h | h | h | h
    · exact Or.inl ((isDigit_iff c).mp h)
    · subst h
      exact Or.inr (Or.inl rfl)
    · subst h
      exact Or.inr (Or.inr (Or.inl rfl))
    · subst h
      exact Or.inr (Or.inr (Or.inr (Or.inl rfl)))
    · subst h
      exact Or.inr (Or.inr (Or.inr (Or.inr rfl)))
  refine ⟨?_, ?_, ?_, ?_, ?_, ?_⟩
  · cases hsp : pyIsSpace c
    · rfl
    · exfalso
      simp only [pyIsSpace, Bool.or_eq_true, decide_eq_true_eq] at hsp
      rcases hsp with ((((hc | hc) | hc) | hc) | hc) | hc <;> subst hc <;>
        exact absurd htn (by decide)
  · intro hc
    subst hc
    exact absurd htn (by decide)
  · intro hc
    subst hc
    exact absurd htn (by decide)
  · intro hc
    subst hc
    exact absurd htn (by decide)
  · intro hc
    subst hc
    exact absurd htn (by decide)
  · intro hc
    subst hc
    exact absurd htn (by decide)

theorem lstrip_intChars (v : Int) (X : List Char) :
    lstrip (intChars v ++ X) = intChars v ++ X := by
  obtain ⟨c, cs, heq, hc⟩ := intChars_head v
  rw [heq, List.cons_append]
  apply lstrip_cons
  rcases hc with h | h
  · exact unquoted_not_space c (digit_unquoted c h)
  · subst h
    decide

theorem intChars_head_unq (v : Int) :
    ∃ c cs, intChars v = c :: cs ∧ isUnquotedChar c = true := by
  obtain ⟨c, cs, heq, hc⟩ := intChars_head v
  refine ⟨c, cs, heq, ?_⟩
  rcases hc with h | h
  · exact digit_unquoted c h
  · subst h
    decide

theorem unquoted_ne_delims (c : Char) (h : isUnquotedChar c = true) :
    ¬(c = ']') ∧ ¬(c = '\x7d') := by
  constructor
  · intro hc
    subst hc
    exact absurd h (by decide)
  · intro hc
    subst hc
    exact absurd h (by decide)

theorem hmode3_to4 (suf : Char) (sufl : List Char)
    (hmode : (sufl = [] ∧ suf = 'i') ∨ (sufl = ['b'] ∧ suf = 'b') ∨
      (sufl = ['l'] ∧ suf = 'l')) :
    (sufl = [] ∧ suf = 'i') ∨ (sufl = ['b'] ∧ suf = 'b') ∨
      (sufl = ['s'] ∧ suf = 's') ∨ (sufl = ['l'] ∧ suf = 'l') := by
  rcases hmode with h | h | h
  · exact Or.inl h
  · exact Or.inr (Or.inl h)
  · exact Or.inr (Or.inr (Or.inr h))

theorem parseArrayItems_tail : ∀ (vs : List Int) (fuel : Nat) (suf : Char)
    (sufl : List Char)
    (hmode : (sufl = [] ∧ suf = 'i') ∨ (sufl = ['b'] ∧ suf = 'b') ∨
      (sufl = ['l'] ∧ suf = 'l'))
    (rest : List Char), vs.length + 1 ≤ fuel →
    parseArrayItems fuel suf false
      (tailJoinComma (vs.map (fun x => intChars x ++ sufl)) ++ ']' :: rest) =
      some (rest, vs)
  | [], fuel, suf, sufl, hmode, rest, hf => by
    obtain ⟨g, rfl⟩ : ∃ g, fuel = g + 1 := ⟨fuel - 1, by omega⟩
    rw [show tailJoinComma (([] : List Int).map (fun x => intChars x ++ sufl)) ++
      ']' :: rest = ']' :: rest from rfl]
    rw [parseArrayItems.eq_def]
    dsimp only
    rw [lstrip_cons ']' rest (by decide)]
    rfl
  | v :: vs, fuel, suf, sufl, hmode, rest, hf => by
    obtain ⟨g, rfl⟩ : ∃ g, fuel = g + 1 := ⟨fuel - 1, by omega⟩
    have hin : tailJoinComma ((v :: vs).map (fun x => intChars x ++ sufl)) ++
        ']' :: rest =
        ',' :: (intChars v ++ (sufl ++
          (tailJoinComma (vs.map (fun x => intChars x ++ sufl)) ++ ']' :: rest))) := by
      rw [List.map_cons, tailJoinComma]
      rw [List.cons_append, List.append_assoc, List.append_assoc]
    rw [hin]
    rw [parseArrayItems.eq_def]
    dsimp only
    rw [lstrip_cons ',' _ (by decide)]
    dsimp only
    rw [if_neg (by decide)]
    rw [if_neg Bool.false_ne_true]
    rw [show (match (',' :: (intChars v ++ (sufl ++ (tailJoinComma
        (vs.map (fun x => intChars x ++ sufl)) ++ ']' :: rest))) : List Char) with
      | ',' :: r => some (lstrip r)
      | x => none) = some (lstrip (intChars v ++ (sufl ++ (tailJoinComma
        (vs.map (fun x => intChars x ++ sufl)) ++ ']' :: rest)))) from rfl]
    rw [lstrip_intChars]
    dsimp only
    rw [try_parse_integer_print v sufl suf (hmode3_to4 suf sufl hmode) _
      (delimHead_tailJoin _ ']' rest (by decide))]
    dsimp only
    rw [if_pos rfl]
    rw [parseArrayItems_tail vs g suf sufl hmode rest (by
      have : (v :: vs).length = vs.length + 1 := rfl
      omega)]

theorem parseArrayItems_head (vs : List Int) (fuel : Nat) (suf : Char)
    (sufl : List Char)
    (hmode : (sufl = [] ∧ suf = 'i') ∨ (sufl = ['b'] ∧ suf = 'b') ∨
      (sufl = ['l'] ∧ suf = 'l'))
    (rest : List Char) (hf : vs.length + 1 ≤ fuel) :
    parseArrayItems fuel suf true
      (joinComma (vs.map (fun x => intChars x ++ sufl)) ++ ']' :: rest) =
      some (rest, vs) := by
  obtain ⟨g, rfl⟩ : ∃ g, fuel = g + 1 := ⟨fuel - 1, by omega⟩
  cases vs with
  | nil =>
    rw [show joinComma (([] : List Int).map (fun x => intChars x ++ sufl)) ++
      ']' :: rest = ']' :: rest from rfl]
    rw [parseArrayItems.eq_def]
    dsimp only
    rw [lstrip_cons ']' rest (by decide)]
    rfl
  | cons v vs =>
    have hin : joinComma ((v :: vs).map (fun x => intChars x ++ sufl)) ++ ']' :: rest =
        intChars v ++ (sufl ++
          (tailJoinComma (vs.map (fun x => intChars x ++ sufl)) ++ ']' :: rest)) := by
      rw [List.map_cons, joinComma_cons]
      rw [List.append_assoc, List.append_assoc]
    rw [hin]
    obtain ⟨c, cs, heq, hcu⟩ := intChars_head_unq v
    rw [parseArrayItems.eq_def]
    dsimp only
    rw [lstrip_intChars v _]
    rw [heq, List.cons_append]
    dsimp only
    rw [if_neg (unquoted_ne_delims c hcu).1]
    rw [if_pos rfl]
    dsimp only
    rw [← List.cons_append, ← heq]
    rw [try_parse_integer_print v sufl suf (hmode3_to4 suf sufl hmode) _
      (delimHead_tailJoin _ ']' rest (by decide))]
    dsimp only
    rw [if_pos rfl]
    rw [parseArrayItems_tail vs g suf sufl hmode rest (by
      have hlen : (v :: vs).length = vs.length + 1 := rfl
      omega)]

theorem parse_unquoted_string_print (s : List Char) (hne : s ≠ [])
    (hall : s.all isUnquotedChar = true) (tail : List Char)
    (htail : delimHead tail = true) :
    parse_unquoted_string (s ++ tail) = some (tail, s) := by
  rw [parse_unquoted_string, spanUnquoted_append s tail hall htail]
  dsimp only
  rw [if_neg (by
    cases s with
    | nil => exact absurd rfl hne
    | cons c cs => simp)]

theorem qck_cases (k : List Char) (hk : cleanStr k = true) :
    quote_compound_key k = quote_string k ∨
    (quote_compound_key k = k ∧ k ≠ [] ∧ k.all isUnquotedChar = true) := by
  rw [quote_compound_key]
  split
  · rename_i hcond
    simp only [Bool.and_eq_true, Bool.not_eq_true'] at hcond
    right
    refine ⟨rfl, ?_, hcond.2⟩
    cases k with
    | nil => simp at hcond
    | cons c cs => exact List.cons_ne_nil c cs
  · left
    rfl

theorem sufl_all_unquoted (sufl : List Char)
    (hmode : (sufl = [] ∧ True) ∨ sufl = ['b'] ∨ sufl = ['s'] ∨ sufl = ['l']) :
    sufl.all isUnquotedChar = true := by
  rcases hmode with ⟨rfl, _⟩ | rfl | rfl | rfl <;> decide

theorem parse_rec_scalar (g : Nat) (v : Int) (sufl : List Char) (suf : Char)
    (hmode : (sufl = [] ∧ suf = 'i') ∨ (sufl = ['b'] ∧ suf = 'b') ∨
      (sufl = ['s'] ∧ suf = 's') ∨ (sufl = ['l'] ∧ suf = 'l'))
    (rest : List Char) (hrest : delimHead rest = true) :
    parse_rec (g + 1) ((intChars v ++ sufl) ++ rest) =
      some (rest, if suf = 'b' then TagByte.init v
        else if suf = 's' then TagShort.init v
        else if suf = 'l' then TagLong.init v else TagInt.init v) := by
  have hall : (intChars v ++ sufl).all isUnquotedChar = true := by
    rw [List.all_append, intChars_all_unquoted]
    rw [sufl_all_unquoted sufl (by
      rcases hmode with ⟨h, _⟩ | ⟨h, _⟩ | ⟨h, _⟩ | ⟨h, _⟩
      · exact Or.inl ⟨h, trivial⟩
      · exact Or.inr (Or.inl h)
      · exact Or.inr (Or.inr (Or.inl h))
      · exact Or.inr (Or.inr (Or.inr h)))]
    rfl
  obtain ⟨c, cs, heq, hcu⟩ := intChars_head_unq v
  have hdelim := unquoted_not_delim c hcu
  rw [List.append_assoc]
  rw [parse_rec.eq_def]
  dsimp only
  rw [heq, List.cons_append]
  rw [lstrip_cons c _ (unquoted_not_space c hcu)]
  dsimp only
  rw [if_neg (by rw [hdelim.1]; exact Bool.false_ne_true)]
  rw [if_neg hdelim.2.1]
  rw [if_neg hdelim.2.2]
  rw [← List.cons_append, ← heq, ← List.append_assoc]
  rw [parse_unquoted_string_print (intChars v ++ sufl) (by
      rw [heq, List.cons_append]
      exact List.cons_ne_nil c _) hall rest hrest]
  dsimp only
  rw [if_neg (by
    rw [snbtFloatMatches_print v sufl (by
      rcases hmode with ⟨h, _⟩ | ⟨h, _⟩ | ⟨h, _⟩ | ⟨h, _⟩
      · exact Or.inl h
      · exact Or.inr (Or.inl h)
      · exact Or.inr (Or.inr (Or.inl h))
      · exact Or.inr (Or.inr (Or.inr h)))]
    exact Bool.false_ne_true)]
  have hint := try_parse_integer_print v sufl suf hmode [] (by rfl)
  rw [List.append_nil] at hint
  rw [hint]
  dsimp only
  by_cases hb : suf = 'b'
  · subst hb
    rfl
  · simp only [if_neg hb]
    by_cases hs : suf = 's'
    · subst hs
      rfl
    · simp only [if_neg hs]
      by_cases hl : suf = 'l'
      · subst hl
        rfl
      · simp only [if_neg hl]

theorem parse_rec_string (g : Nat) (s : List Char) (hclean : cleanStr s = true)
    (rest : List Char) :
    parse_rec (g + 1) (quote_string s ++ rest) = some (rest, .string s) := by
  have hpq := parse_quoted_string_print s hclean rest
  rw [quote_string_clean s hclean] at hpq ⊢
  rw [List.cons_append] at hpq ⊢
  rw [parse_rec.eq_def]
  dsimp only
  rw [lstrip_cons '"' _ (by decide)]
  dsimp only
  rw [if_pos (by decide)]
  rw [hpq]
  rfl

theorem parse_rec_byteArray (g : Nat) (vs : List Int)
    (hlen : vs.length + 1 ≤ g)
    (hrange : vs.all (fun v => decide (-128 ≤ v ∧ v < 128)) = true) (rest : List Char) :
    parse_rec (g + 1) (('[' :: 'B' :: ';' ::
      joinComma (vs.map (fun v => intChars v ++ ['b'])) ++ [']']) ++ rest) =
      some (rest, .byteArray vs) := by
  have hin : ('[' :: 'B' :: ';' ::
      joinComma (vs.map (fun v => intChars v ++ ['b'])) ++ [']']) ++ rest =
      '[' :: 'B' :: ';' ::
        (joinComma (vs.map (fun v => intChars v ++ ['b'])) ++ ']' :: rest) := by
    simp only [List.cons_append, List.append_assoc, List.singleton_append,
      List.nil_append]
  rw [hin]
  rw [parse_rec.eq_def]
  dsimp only
  rw [lstrip_cons '[' _ (by decide)]
  dsimp only
  rw [if_neg (by decide)]
  rw [if_pos rfl]
  split
  · rename_i a r heq
    injection heq with h1 h2
    injection h2 with _ h3
    subst h1
    subst h3
    rw [if_pos (by decide)]
    rw [show (if ('B' : Char) = 'B' then 'b'
      else if ('B' : Char) = 'I' then 'i' else 'l') = 'b' from rfl]
    rw [parseArrayItems_head vs g 'b' ['b'] (Or.inr (Or.inl ⟨rfl, rfl⟩)) rest (by omega)]
    dsimp only
    rw [if_pos rfl]
    rw [hrange]
    rw [if_pos rfl]
  · rename_i hne
    exact absurd rfl (by
      intro hcontra
      exact hne 'B' _ hcontra)

theorem parse_rec_longArray (g : Nat) (vs : List Int)
    (hlen : vs.length + 1 ≤ g)
    (hrange : vs.all (fun v => decide (-(2 ^ 63) ≤ v ∧ v < 2 ^ 63)) = true) (rest : List Char) :
    parse_rec (g + 1) (('[' :: 'L' :: ';' ::
      joinComma (vs.map (fun v => intChars v ++ ['l'])) ++ [']']) ++ rest) =
      some (rest, .longArray vs) := by
  have hin : ('[' :: 'L' :: ';' ::
      joinComma (vs.map (fun v => intChars v ++ ['l'])) ++ [']']) ++ rest =
      '[' :: 'L' :: ';' ::
        (joinComma (vs.map (fun v => intChars v ++ ['l'])) ++ ']' :: rest) := by
    simp only [List.cons_append, List.append_assoc, List.singleton_append,
      List.nil_append]
  rw [hin]
  rw [parse_rec.eq_def]
  dsimp only
  rw [lstrip_cons '[' _ (by decide)]
  dsimp only
  rw [if_neg (by decide)]
  rw [if_pos rfl]
  split
  · rename_i a r heq
    injection heq with h1 h2
    injection h2 with _ h3
    subst h1
    subst h3
    rw [if_pos (by decide)]
    rw [show (if ('L' : Char) = 'B' then 'b'
      else if ('L' : Char) = 'I' then 'i' else 'l') = 'l' from rfl]
    rw [parseArrayItems_head vs g 'l' ['l'] (Or.inr (Or.inr ⟨rfl, rfl⟩)) rest (by omega)]
    dsimp only
    rw [if_neg (by decide)]
    rw [if_pos rfl]
    rw [hrange]
    rw [if_pos rfl]
  · rename_i hne
    exact absurd rfl (by
      intro hcontra
      exact hne 'L' _ hcontra)

theorem parse_rec_intArray (g : Nat) (vs : List Int)
    (hlen : vs.length + 1 ≤ g)
    (hrange : vs.all (fun v => decide (-(2 ^ 31) ≤ v ∧ v < 2 ^ 31)) = true) (rest : List Char) :
    parse_rec (g + 1) (('[' :: 'I' :: ';' ::
      joinComma (vs.map (fun v => intChars v ++ [])) ++ [']']) ++ rest) =
      some (rest, .intArray vs) := by
  have hin : ('[' :: 'I' :: ';' ::
      joinComma (vs.map (fun v => intChars v ++ [])) ++ [']']) ++ rest =
      '[' :: 'I' :: ';' ::
        (joinComma (vs.map (fun v => intChars v ++ [])) ++ ']' :: rest) := by
    simp only [List.cons_append, List.append_assoc, List.singleton_append,
      List.nil_append]
  rw [hin]
  rw [parse_rec.eq_def]
  dsimp only
  rw [lstrip_cons '[' _ (by decide)]
  dsimp only
  rw [if_neg (by decide)]
  rw [if_pos rfl]
  split
  · rename_i a r heq
    injection heq with h1 h2
    injection h2 with _ h3
    subst h1
    subst h3
    rw [if_pos (by decide)]
    rw [show (if ('I' : Char) = 'B' then 'b'
      else if ('I' : Char) = 'I' then 'i' else 'l') = 'i' from rfl]
    rw [parseArrayItems_head vs g 'i' [] (Or.inl ⟨rfl, rfl⟩) rest (by omega)]
    dsimp only
    rw [if_neg (by decide)]
    rw [if_neg (by decide)]
    rw [hrange]
    rw [if_pos rfl]
  · rename_i hne
    exact absurd rfl (by
      intro hcontra
      exact hne 'I' _ hcontra)

theorem snbt_inv : ∀ fuel : Nat,
    (∀ (t : Tag) (w rest : List Char), cleanTag t = true → to_snbt t = some w →
      snbtMu t ≤ fuel → delimHead rest = true →
      parse_rec fuel (w ++ rest) = some (rest, t)) ∧
    (∀ (k : NbtKind) (ts : List Tag) (ws : List (List Char)) (rest : List Char),
      cleanItems k ts = true → snbtItems ts = some ws → snbtItemsMu ts ≤ fuel →
      parseListItems fuel false (tailJoinComma ws ++ ']' :: rest) = some (rest, ts)) ∧
    (∀ (es acc : List (List Char × Tag)) (ws : List (List Char)) (rest : List Char),
      cleanEntries es = true → nodupKeys es = true → snbtEntries es = some ws →
      snbtEntriesMu es ≤ fuel → (∀ p ∈ es, keyMem p.1 acc = false) →
      parseCompoundItems fuel false acc (tailJoinComma ws ++ '\x7d' :: rest) =
        some (rest, acc ++ es)) := by
  intro fuel
  induction fuel using Nat.strong_induction_on with
  | _ fuel ih =>
  refine ⟨?_, ?_, ?_⟩
  · intro t w rest hclean hw hmu hrest
    obtain ⟨g, rfl⟩ : ∃ g, fuel = g + 1 :=
      ⟨fuel - 1, by have := snbtMu_pos t; omega⟩
    cases t with
    | byte v =>
      rw [to_snbt] at hw
      have h2 := (Option.some.inj hw).symm
      subst h2
      have hcl : decide (-128 ≤ v ∧ v < 128) = true := hclean
      rw [decide_eq_true_eq] at hcl
      rw [parse_rec_scalar g v ['b'] 'b' (Or.inr (Or.inl ⟨rfl, rfl⟩)) rest hrest]
      rw [if_pos rfl]
      rw [show TagByte.init v = Tag.byte (tagNumberInit (2 ^ 8) v) from rfl]
      rw [tagNumberInit_id (2 ^ 8) 128 (by norm_num) (by norm_num) v (by omega) (by omega)]
    | short v =>
      rw [to_snbt] at hw
      have h2 := (Option.some.inj hw).symm
      subst h2
      have hcl : decide (-(2 ^ 15) ≤ v ∧ v < 2 ^ 15) = true := hclean
      rw [decide_eq_true_eq] at hcl
      have hb : (-(2 ^ 15) : Int) = -32768 := by norm_num
      have hb2 : ((2 : Int) ^ 15) = 32768 := by norm_num
      rw [hb, hb2] at hcl
      rw [parse_rec_scalar g v ['s'] 's' (Or.inr (Or.inr (Or.inl ⟨rfl, rfl⟩))) rest hrest]
      rw [if_neg (by decide), if_pos rfl]
      rw [show TagShort.init v = Tag.short (tagNumberInit (2 ^ 16) v) from rfl]
      rw [tagNumberInit_id (2 ^ 16) 32768 (by norm_num) (by norm_num) v (by omega)
        (by omega)]
    | int v =>
      rw [to_snbt] at hw
      have h2 := (Option.some.inj hw).symm
      subst h2
      have hcl : decide (-(2 ^ 31) ≤ v ∧ v < 2 ^ 31) = true := hclean
      rw [decide_eq_true_eq] at hcl
      have hb : (-(2 ^ 31) : Int) = -2147483648 := by norm_num
      have hb2 : ((2 : Int) ^ 31) = 2147483648 := by norm_num
      rw [hb, hb2] at hcl
      have hs := parse_rec_scalar g v [] 'i' (Or.inl ⟨rfl, rfl⟩) rest hrest
      rw [List.append_nil] at hs
      rw [hs]
      rw [if_neg (by decide), if_neg (by decide), if_neg (by decide)]
      rw [show TagInt.init v = Tag.int (tagNumberInit (2 ^ 32) v) from rfl]
      rw [tagNumberInit_id (2 ^ 32) 2147483648 (by norm_num) (by norm_num) v (by omega)
        (by omega)]
    | long v =>
      rw [to_snbt] at hw
      have h2 := (Option.some.inj hw).symm
      subst h2
      have hcl : decide (-(2 ^ 63) ≤ v ∧ v < 2 ^ 63) = true := hclean
      rw [decide_eq_true_eq] at hcl
      have hb : (-(2 ^ 63) : Int) = -9223372036854775808 := by norm_num
      have hb2 : ((2 : Int) ^ 63) = 9223372036854775808 := by norm_num
      rw [hb, hb2] at hcl
      rw [parse_rec_scalar g v ['l'] 'l' (Or.inr (Or.inr (Or.inr ⟨rfl, rfl⟩))) rest hrest]
      rw [if_neg (by decide), if_neg (by decide), if_pos rfl]
      rw [show TagLong.init v = Tag.long (tagNumberInit (2 ^ 64) v) from rfl]
      rw [tagNumberInit_id (2 ^ 64) 9223372036854775808 (by norm_num) (by norm_num) v
        (by omega) (by omega)]
    | float b =>
      rw [to_snbt] at hw
      exact absurd hw (by simp)
    | double b =>
      rw [to_snbt] at hw
      exact absurd hw (by simp)
    | string s =>
      rw [to_snbt] at hw
      have h2 := (Option.some.inj hw).symm
      subst h2
      have hcs : cleanStr s = true := hclean
      exact parse_rec_string g s hcs rest
    | byteArray vs =>
      rw [to_snbt] at hw
      have h2 := (Option.some.inj hw).symm
      subst h2
      have hr : vs.all (fun v => decide (-128 ≤ v ∧ v < 128)) = true := hclean
      have hmu2 : snbtMu (Tag.byteArray vs) = vs.length + 2 := rfl
      exact parse_rec_byteArray g vs (by omega) hr rest
    | intArray vs =>
      rw [to_snbt] at hw
      have h2 := (Option.some.inj hw).symm
      subst h2
      have hr : vs.all (fun v => decide (-(2 ^ 31) ≤ v ∧ v < 2 ^ 31)) = true := hclean
      have hmu2 : snbtMu (Tag.intArray vs) = vs.length + 2 := rfl
      have hmap : vs.map intChars = vs.map (fun v => intChars v ++ []) := by
        simp
      rw [hmap]
      exact parse_rec_intArray g vs (by omega) hr rest
    | longArray vs =>
      rw [to_snbt] at hw
      have h2 := (Option.some.inj hw).symm
      subst h2
      have hr : vs.all (fun v => decide (-(2 ^ 63) ≤ v ∧ v < 2 ^ 63)) = true := hclean
      have hmu2 : snbtMu (Tag.longArray vs) = vs.length + 2 := rfl
      exact parse_rec_longArray g vs (by omega) hr rest
    | list k ts =>
      rw [to_snbt] at hw
      obtain ⟨ws, hws, hw2⟩ : ∃ ws, snbtItems ts = some ws ∧
          ('[' :: joinComma ws ++ [']'] : List Char) = w := by
        cases hsi : snbtItems ts with
        | none =>
          rw [hsi] at hw
          simp at hw
        | some ws =>
          rw [hsi] at hw
          simp only [Option.map_some'] at hw
          exact ⟨ws, rfl, Option.some.inj hw⟩
      subst hw2
      have hcl2 : ((!ts.isEmpty || decide (k = NbtKind.int)) && cleanItems k ts) = true :=
        hclean
      simp only [Bool.and_eq_true, Bool.or_eq_true, Bool.not_eq_true',
        decide_eq_true_eq] at hcl2
      have hmuL : snbtMu (Tag.list k ts) = 1 + snbtItemsMu ts := rfl
      have hmuI : snbtItemsMu ts ≤ g := by omega
      have hin : ('[' :: joinComma ws ++ [']'] : List Char) ++ rest =
          '[' :: (joinComma ws ++ ']' :: rest) := by
        simp only [List.cons_append, List.append_assoc, List.singleton_append,
          List.nil_append]
      rw [hin]
      rw [parse_rec.eq_def]
      dsimp only
      rw [lstrip_cons '[' _ (by decide)]
      dsimp only
      rw [if_neg (by decide)]
      rw [if_pos rfl]
      cases ts with
      | nil =>
        have hws0 : ws = [] := (Option.some.inj hws).symm
        subst hws0
        have hk : k = NbtKind.int := by
          rcases hcl2.1 with h | h
          · exact absurd h (by decide)
          · exact h
        subst hk
        obtain ⟨g1, rfl⟩ : ∃ g1, g = g1 + 1 :=
          ⟨g - 1, by have := snbtItemsMu_pos ([] : List Tag); omega⟩
        have hlist : parseListItems (g1 + 1) true
            (joinComma ([] : List (List Char)) ++ ']' :: rest) =
            some (rest, ([] : List Tag)) := rfl
        split
        · rename_i a r heq
          rw [show (joinComma ([] : List (List Char)) ++ ']' :: rest : List Char) =
            ']' :: rest from rfl] at heq
          injection heq with h1 _
          rw [if_neg (by
            rw [← h1]
            decide)]
          rw [hlist]
        · rw [hlist]
      | cons t ts' =>
        rw [snbtItems] at hws
        obtain ⟨w0, hw0, hws2⟩ := obind_some hws
        obtain ⟨ws', hws', hws3⟩ := obind_some hws2
        have h4 := (Option.some.inj hws3).symm
        subst h4
        rw [cleanItems] at hcl2
        simp only [Bool.and_eq_true, decide_eq_true_eq] at hcl2
        obtain ⟨⟨⟨htk, hct⟩, hcts⟩, _⟩ :
            ((t.kind = k ∧ cleanTag t = true) ∧ cleanItems k ts' = true) ∧ True := by
          exact ⟨⟨⟨hcl2.2.1.1, hcl2.2.1.2⟩, hcl2.2.2⟩, trivial⟩
        obtain ⟨g1, rfl⟩ : ∃ g1, g = g1 + 1 :=
          ⟨g - 1, by have := snbtItemsMu_pos (t :: ts'); omega⟩
        have hmax : snbtItemsMu (t :: ts') = 1 + max (snbtMu t) (snbtItemsMu ts') := rfl
        obtain ⟨c0, w0', heq0, hhead0⟩ := to_snbt_head t w0 hw0
        have hpf := printed_head_facts c0 hhead0
        have hlist : parseListItems (g1 + 1) true
            (joinComma (w0 :: ws') ++ ']' :: rest) = some (rest, t :: ts') := by
          rw [joinComma_cons, List.append_assoc]
          rw [parseListItems.eq_def]
          dsimp only
          rw [heq0, List.cons_append]
          rw [lstrip_cons c0 _ hpf.1]
          dsimp only
          rw [if_neg hpf.2.1]
          rw [if_pos rfl]
          dsimp only
          rw [← List.cons_append, ← heq0]
          have hP := (ih g1 (by omega)).1 t w0 (tailJoinComma ws' ++ ']' :: rest) hct hw0
            (by omega) (delimHead_tailJoin ws' ']' rest (by decide))
          rw [hP]
          dsimp only
          have hQ := (ih g1 (by omega)).2.1 k ts' ws' rest hcts hws' (by omega)
          rw [hQ]
        have hhomog := cleanItems_homog k (t :: ts') (by
          rw [cleanItems]
          simp only [Bool.and_eq_true, decide_eq_true_eq]
          exact ⟨⟨htk, hct⟩, hcts⟩)
        split
        · rename_i a r heq
          rw [joinComma_cons, List.append_assoc, heq0, List.cons_append] at heq
          injection heq with h1 _
          rw [if_neg (by
            rw [← h1]
            simp only [Bool.or_eq_true, decide_eq_true_eq]
            push_neg
            exact ⟨⟨hpf.2.2.2.1, hpf.2.2.2.2.1⟩, hpf.2.2.2.2.2⟩)]
          rw [hlist]
          dsimp only
          rw [htk, if_pos hhomog]
        · rw [hlist]
          dsimp only
          rw [htk, if_pos hhomog]
    | compound es =>
      rw [to_snbt] at hw
      obtain ⟨ws, hws, hw2⟩ : ∃ ws, snbtEntries es = some ws ∧
          ('\x7b' :: joinComma ws ++ ['\x7d'] : List Char) = w := by
        cases hsi : snbtEntries es with
        | none =>
          rw [hsi] at hw
          simp at hw
        | some ws =>
          rw [hsi] at hw
          simp only [Option.map_some'] at hw
          exact ⟨ws, rfl, Option.some.inj hw⟩
      subst hw2
      have hcl2 : (nodupKeys es && cleanEntries es) = true := hclean
      simp only [Bool.and_eq_true] at hcl2
      have hmuC : snbtMu (Tag.compound es) = 1 + snbtEntriesMu es := rfl
      have hin : ('\x7b' :: joinComma ws ++ ['\x7d'] : List Char) ++ rest =
          '\x7b' :: (joinComma ws ++ '\x7d' :: rest) := by
        simp only [List.cons_append, List.append_assoc, List.singleton_append,
          List.nil_append]
      rw [hin]
      rw [parse_rec.eq_def]
      dsimp only
      rw [lstrip_cons '\x7b' _ (by decide)]
      dsimp only
      rw [if_neg (by decide)]
      rw [if_neg (by decide)]
      rw [if_pos rfl]
      have hcomp : parseCompoundItems g true []
          (joinComma ws ++ '\x7d' :: rest) = some (rest, es) := by
        cases es with
        | nil =>
          have hws0 : ws = [] := (Option.some.inj hws).symm
          subst hws0
          obtain ⟨g1, rfl⟩ : ∃ g1, g = g1 + 1 :=
            ⟨g - 1, by
              have := snbtEntriesMu_pos ([] : List (List Char × Tag))
              omega⟩
          rfl
        | cons e es' =>
          obtain ⟨k0, v0⟩ := e
          rw [snbtEntries] at hws
          obtain ⟨wv, hwv, hws2⟩ := obind_some hws
          obtain ⟨ws', hws', hws3⟩ := obind_some hws2
          have h4 := (Option.some.inj hws3).symm
          subst h4
          rw [cleanEntries] at hcl2
          have hnd := hcl2.1
          rw [nodupKeys] at hnd
          simp only [Bool.and_eq_true, Bool.not_eq_true'] at hnd
          simp only [Bool.and_eq_true] at hcl2
          have hk0 : cleanStr k0 = true := hcl2.2.1.1
          have hcv : cleanTag v0 = true := hcl2.2.1.2
          have hces : cleanEntries es' = true := hcl2.2.2
          obtain ⟨g1, rfl⟩ : ∃ g1, g = g1 + 1 :=
            ⟨g - 1, by have := snbtEntriesMu_pos ((k0, v0) :: es'); omega⟩
          have hmax : snbtEntriesMu ((k0, v0) :: es') =
              1 + max (snbtMu v0) (snbtEntriesMu es') := rfl
          rw [joinComma_cons, List.append_assoc]
          have hX : delimHead (tailJoinComma ws' ++ '\x7d' :: rest) = true :=
            delimHead_tailJoin ws' '\x7d' rest (by decide)
          have hP := (ih g1 (by omega)).1 v0 wv
            (tailJoinComma ws' ++ '\x7d' :: rest) hcv hwv (by omega) hX
          have hR := (ih g1 (by omega)).2.2 es' [(k0, v0)] ws' rest hces hnd.2 hws'
            (by omega) (by
              intro p hp
              have hpk := keyMem_false_forall k0 es' hnd.1 p hp
              simp [keyMem, hpk])
          rw [parseCompoundItems.eq_def]
          dsimp only
          rcases qck_cases k0 hk0 with hq | ⟨hq, hkne, hkall⟩
          · rw [hq, quote_string_clean k0 hk0]
            rw [show (('"' :: (k0 ++ ['"']) ++ ':' :: wv : List Char) ++
              (tailJoinComma ws' ++ '\x7d' :: rest)) = '"' :: ((k0 ++ ['"']) ++
              (':' :: (wv ++ (tailJoinComma ws' ++ '\x7d' :: rest)))) from by
              simp only [List.cons_append, List.append_assoc]]
            rw [lstrip_cons '"' _ (by decide)]
            dsimp only
            rw [if_neg (by decide)]
            rw [if_pos rfl]
            dsimp only
            rw [if_pos (by decide)]
            have hpq := parse_quoted_string_print k0 hk0
              (':' :: (wv ++ (tailJoinComma ws' ++ '\x7d' :: rest)))
            rw [quote_string_clean k0 hk0, List.cons_append] at hpq
            rw [hpq]
            dsimp only
            rw [lstrip_cons ':' _ (by decide)]
            split
            · rename_i r2 heq
              injection heq with _ h1
              rw [← h1]
              rw [hP]
              dsimp only
              rw [show dictInsert [] k0 v0 = [(k0, v0)] from rfl]
              rw [hR]
              rw [List.singleton_append]
            · rename_i hne
              exact absurd rfl (hne _)
          · rw [hq]
            obtain ⟨ck, csk, hkcons⟩ : ∃ ck csk, k0 = ck :: csk := by
              cases k0 with
              | nil => exact absurd rfl hkne
              | cons ck csk => exact ⟨ck, csk, rfl⟩
            have hcku : isUnquotedChar ck = true := by
              rw [hkcons] at hkall
              simp only [List.all_cons, Bool.and_eq_true] at hkall
              exact hkall.1
            rw [show ((k0 ++ ':' :: wv : List Char) ++
              (tailJoinComma ws' ++ '\x7d' :: rest)) = k0 ++
              (':' :: (wv ++ (tailJoinComma ws' ++ '\x7d' :: rest))) from by
              simp only [List.append_assoc, List.cons_append]]
            rw [hkcons, List.cons_append]
            rw [lstrip_cons ck _ (unquoted_not_space ck hcku)]
            dsimp only
            rw [if_neg (unquoted_ne_delims ck hcku).2]
            rw [if_pos rfl]
            dsimp only
            rw [if_neg (by
              rw [(unquoted_not_delim ck hcku).1]
              exact Bool.false_ne_true)]
            rw [← List.cons_append, ← hkcons]
            rw [parse_unquoted_string_print k0
              (by rw [hkcons]; exact List.cons_ne_nil ck csk) hkall _ (by rfl)]
            dsimp only
            rw [lstrip_cons ':' _ (by decide)]
            split
            · rename_i r2 heq
              injection heq with _ h1
              rw [← h1]
              rw [hP]
              dsimp only
              rw [show dictInsert [] k0 v0 = [(k0, v0)] from rfl]
              rw [hR]
              rw [List.singleton_append]
            · rename_i hne
              exact absurd rfl (hne _)
      rw [hcomp]
      rfl
  · intro k ts ws rest hclean hws hmu
    cases ts with
    | nil =>
      have hws0 : ws = [] := (Option.some.inj hws).symm
      subst hws0
      obtain ⟨g1, rfl⟩ : ∃ g1, fuel = g1 + 1 :=
        ⟨fuel - 1, by have := snbtItemsMu_pos ([] : List Tag); omega⟩
      rfl
    | cons t ts' =>
      rw [snbtItems] at hws
      obtain ⟨w0, hw0, hws2⟩ := obind_some hws
      obtain ⟨ws', hws', hws3⟩ := obind_some hws2
      have h4 := (Option.some.inj hws3).symm
      subst h4
      rw [cleanItems] at hclean
      simp only [Bool.and_eq_true, decide_eq_true_eq] at hclean
      obtain ⟨g1, rfl⟩ : ∃ g1, fuel = g1 + 1 :=
        ⟨fuel - 1, by have := snbtItemsMu_pos (t :: ts'); omega⟩
      have hmax : snbtItemsMu (t :: ts') = 1 + max (snbtMu t) (snbtItemsMu ts') := rfl
      rw [show (tailJoinComma (w0 :: ws') ++ ']' :: rest : List Char) =
        ',' :: (w0 ++ (tailJoinComma ws' ++ ']' :: rest)) from by
        rw [tailJoinComma]
        simp only [List.cons_append, List.append_assoc]]
      rw [parseListItems.eq_def]
      dsimp only
      rw [lstrip_cons ',' _ (by decide)]
      dsimp only
      rw [if_neg (by decide)]
      rw [if_neg Bool.false_ne_true]
      rw [show (match (',' :: (w0 ++ (tailJoinComma ws' ++ ']' :: rest)) : List Char) with
        | ',' :: r => some (lstrip r)
        | x => none) = some (lstrip (w0 ++ (tailJoinComma ws' ++ ']' :: rest)))
        from rfl]
      obtain ⟨c0, w0', heq0, hhead0⟩ := to_snbt_head t w0 hw0
      have hpf := printed_head_facts c0 hhead0
      rw [heq0, List.cons_append, lstrip_cons c0 _ hpf.1, ← List.cons_append, ← heq0]
      dsimp only
      have hP := (ih g1 (by omega)).1 t w0 (tailJoinComma ws' ++ ']' :: rest)
        hclean.1.2 hw0 (by omega) (delimHead_tailJoin ws' ']' rest (by decide))
      rw [hP]
      dsimp only
      have hQ := (ih g1 (by omega)).2.1 k ts' ws' rest hclean.2 hws' (by omega)
      rw [hQ]
  · intro es acc ws rest hclean hnodup hws hmu hacc
    cases es with
    | nil =>
      have hws0 : ws = [] := (Option.some.inj hws).symm
      subst hws0
      obtain ⟨g1, rfl⟩ : ∃ g1, fuel = g1 + 1 :=
        ⟨fuel - 1, by
          have := snbtEntriesMu_pos ([] : List (List Char × Tag))
          omega⟩
      rw [List.append_nil]
      rfl
    | cons e es' =>
      obtain ⟨k0, v0⟩ := e
      rw [snbtEntries] at hws
      obtain ⟨wv, hwv, hws2⟩ := obind_some hws
      obtain ⟨ws', hws', hws3⟩ := obind_some hws2
      have h4 := (Option.some.inj hws3).symm
      subst h4
      rw [cleanEntries] at hclean
      simp only [Bool.and_eq_true] at hclean
      rw [nodupKeys] at hnodup
      simp only [Bool.and_eq_true, Bool.not_eq_true'] at hnodup
      have hk0 : cleanStr k0 = true := hclean.1.1
      have hcv : cleanTag v0 = true := hclean.1.2
      have hces : cleanEntries es' = true := hclean.2
      obtain ⟨g1, rfl⟩ : ∃ g1, fuel = g1 + 1 :=
        ⟨fuel - 1, by have := snbtEntriesMu_pos ((k0, v0) :: es'); omega⟩
      have hmax : snbtEntriesMu ((k0, v0) :: es') =
          1 + max (snbtMu v0) (snbtEntriesMu es') := rfl
      have hX : delimHead (tailJoinComma ws' ++ '\x7d' :: rest) = true :=
        delimHead_tailJoin ws' '\x7d' rest (by decide)
      have hP := (ih g1 (by omega)).1 v0 wv
        (tailJoinComma ws' ++ '\x7d' :: rest) hcv hwv (by omega) hX
      have hkm : keyMem k0 acc = false := hacc (k0, v0) (by simp)
      have hR := (ih g1 (by omega)).2.2 es' (acc ++ [(k0, v0)]) ws' rest hces hnodup.2
        hws' (by omega) (by
          intro p hp
          have hpk := keyMem_false_forall k0 es' hnodup.1 p hp
          rw [keyMem_append]
          have h1 : keyMem p.1 acc = false := hacc p (by simp [hp])
          simp [keyMem, h1, hpk])
      rw [show (tailJoinComma ((quote_compound_key k0 ++ ':' :: wv) :: ws') ++
        '\x7d' :: rest : List Char) =
        ',' :: ((quote_compound_key k0 ++ ':' :: wv) ++
          (tailJoinComma ws' ++ '\x7d' :: rest)) from by
        rw [tailJoinComma]
        simp only [List.cons_append, List.append_assoc]]
      rw [parseCompoundItems.eq_def]
      dsimp only
      rw [lstrip_cons ',' _ (by decide)]
      dsimp only
      rw [if_neg (by decide)]
      rw [if_neg Bool.false_ne_true]
      rw [show (match (',' :: ((quote_compound_key k0 ++ ':' :: wv) ++
          (tailJoinComma ws' ++ '\x7d' :: rest)) : List Char) with
        | ',' :: r => some (lstrip r)
        | x => none) = some (lstrip ((quote_compound_key k0 ++ ':' :: wv) ++
          (tailJoinComma ws' ++ '\x7d' :: rest))) from rfl]
      rcases qck_cases k0 hk0 with hq | ⟨hq, hkne, hkall⟩
      · rw [hq, quote_string_clean k0 hk0]
        rw [show (('"' :: (k0 ++ ['"']) ++ ':' :: wv : List Char) ++
          (tailJoinComma ws' ++ '\x7d' :: rest)) = '"' :: ((k0 ++ ['"']) ++
          (':' :: (wv ++ (tailJoinComma ws' ++ '\x7d' :: rest)))) from by
          simp only [List.cons_append, List.append_assoc]]
        rw [lstrip_cons '"' _ (by decide)]
        dsimp only
        rw [if_pos (by decide)]
        have hpq := parse_quoted_string_print k0 hk0
          (':' :: (wv ++ (tailJoinComma ws' ++ '\x7d' :: rest)))
        rw [quote_string_clean k0 hk0, List.cons_append] at hpq
        rw [hpq]
        dsimp only
        rw [lstrip_cons ':' _ (by decide)]
        split
        · rename_i r2 heq
          injection heq with _ h1
          rw [← h1]
          rw [hP]
          dsimp only
          rw [dictInsert_not_mem acc k0 v0 hkm]
          rw [hR]
          rw [List.append_assoc, List.singleton_append]
        · rename_i hne
          exact absurd rfl (hne _)
      · rw [hq]
        obtain ⟨ck, csk, hkcons⟩ : ∃ ck csk, k0 = ck :: csk := by
          cases k0 with
          | nil => exact absurd rfl hkne
          | cons ck csk => exact ⟨ck, csk, rfl⟩
        have hcku : isUnquotedChar ck = true := by
          rw [hkcons] at hkall
          simp only [List.all_cons, Bool.and_eq_true] at hkall
          exact hkall.1
        rw [show ((k0 ++ ':' :: wv : List Char) ++
          (tailJoinComma ws' ++ '\x7d' :: rest)) = k0 ++
          (':' :: (wv ++ (tailJoinComma ws' ++ '\x7d' :: rest))) from by
          simp only [List.append_assoc, List.cons_append]]
        rw [hkcons, List.cons_append]
        rw [lstrip_cons ck _ (unquoted_not_space ck hcku)]
        dsimp only
        rw [if_neg (by
          rw [(unquoted_not_delim ck hcku).1]
          exact Bool.false_ne_true)]
        rw [← List.cons_append, ← hkcons]
        rw [parse_unquoted_string_print k0
          (by rw [hkcons]; exact List.cons_ne_nil ck csk) hkall _ (by rfl)]
        dsimp only
        rw [lstrip_cons ':' _ (by decide)]
        split
        · rename_i r2 heq
          injection heq with _ h1
          rw [← h1]
          rw [hP]
          dsimp only
          rw [dictInsert_not_mem acc k0 v0 hkm]
          rw [hR]
          rw [List.append_assoc, List.singleton_append]
        · rename_i hne
          exact absurd rfl (hne _)

/-! ## Claim C2: SNBT round-trip -/

/-- C2 counterexample: the single-backslash string tag.  `_quote_string`
    escapes quotes *before* doubling backslashes, so `to_snbt` prints
    `"\\"` (quote, two backslashes, quote); parsing that fails
    (`ValueError('Unclosed string tag')`, modelled as `none`) because the
    quoted-string regex requires a non-backslash before the closing quote. -/
theorem c2_counterexample :
    to_snbt (.string ['\\']) = some ['"', '\\', '\\', '"'] ∧
    parse_snbt ['"', '\\', '\\', '"'] = none :=
  ⟨rfl, rfl⟩

/-- C2 (amended): `parse_snbt (to_snbt T) = T` for every *clean* tag `T`:
    no Float/Double anywhere, integer and array payloads in their signed
    ranges, strings and compound keys free of quote, backslash and newline
    characters, empty lists of element kind Int, homogeneous list elements
    and distinct compound keys.  The original claim over all thirteen
    variants with arbitrary strings fails (see the counterexample). -/
theorem c2_snbt_roundtrip (t : Tag) (S : List Char)
    (hclean : cleanTag t = true) (hS : to_snbt t = some S) :
    parse_snbt S = some t := by
  rw [parse_snbt]
  have hmu := (snbtMuBound (snbtMu t)).1 t S le_rfl hS
  have h := (snbt_inv (S.length + 1)).1 t S [] hclean hS (by omega) (by rfl)
  rw [List.append_nil] at h
  rw [h]
  rfl

/-- Witness for C2 at the compound tag `{a:1b}`. -/
theorem c2_snbt_roundtrip_witness :
    parse_snbt ['\x7b', 'a', ':', '1', 'b', '\x7d'] =
      some (.compound [(['a'], .byte 1)]) :=
  c2_snbt_roundtrip (.compound [(['a'], .byte 1)])
    ['\x7b', 'a', ':', '1', 'b', '\x7d'] (by decide) (by decide)

end UNBT
